import Mathlib

/-!
# SingleLinkedList: a verification development

Shallow embedding of `SingleLinkedList<Type>` (`custom_list.h`, and the
variant of `CustomForwardList.cpp`) over an explicit memory.

* An address is a `Nat`; a `Node*` is an `Option Nat`, `none` being `nullptr`.
* Every `Node` object lives in `Memory.node`: the nodes made by `new`, and the
  sentinel `head_` embedded in each list object.  A list object is named by its
  address (the C++ `this`), which is also the address of its `head_`; its
  `size_` member is kept in `Memory.size_` under the same address.
* `new` takes storage at the first address never used before (`Memory.brk`) and
  never runs out of memory; a list object with automatic storage (a temporary,
  a copy) takes its storage the same way and gives it back when its scope ends.
* An operation returns `Except Fault r × Memory`: the memory is kept on a
  failure, so that what a failed call left behind can be inspected.
* `size_t` is a `Nat`: `size_` counts live nodes, of which fewer than `2^64`
  fit the address space, and every `--size_` follows `assert(!empty())`.
* The element type's copy constructor is a parameter
  `copy_ctor : α → Option α`, `none` meaning that it throws; it is the only
  source of exceptions.
* Loops over the chain (`while`) take a bound `fuel` on their iterations.
-/

namespace SingleLinkedList

/-- The `struct Node`: `Type value{}; Node* next_node = nullptr;`. -/
structure Node (α : Type) where
  value : α
  next_node : Option Nat
deriving DecidableEq

/-- How a call can fail. -/
inductive Fault where
  /-- A failed `assert`. -/
  | assertion
  /-- An exception thrown while copying an element (the tests throw `std::bad_alloc`). -/
  | bad_alloc
  /-- Access through a null or dangling pointer that no `assert` guards
  (undefined behaviour in C++). -/
  | invalid_access
  /-- The iteration bound of the model was reached. -/
  | out_of_fuel
deriving DecidableEq

/-- The memory of the program: live `Node`s, the `size_` member of list objects,
and the first address never handed out. -/
structure Memory (α : Type) where
  node : Nat → Option (Node α)
  size_ : Nat → Nat
  brk : Nat

/-- Store `n` at `a` (`none` frees the address). -/
def Memory.set_node {α : Type} (s : Memory α) (a : Nat) (n : Option (Node α)) : Memory α :=
  { s with node := Function.update s.node a n }

/-- Write of `p->next_node = q` (a write through a dangling pointer is dropped). -/
def Memory.set_next {α : Type} (s : Memory α) (p : Nat) (q : Option Nat) : Memory α :=
  match s.node p with
  | some n => s.set_node p (some { n with next_node := q })
  | none => s

/-- Write of the `size_` member of the list object at `l`. -/
def Memory.set_size {α : Type} (s : Memory α) (l : Nat) (n : Nat) : Memory α :=
  { s with size_ := Function.update s.size_ l n }

/-- Memory with no object in it. -/
def Memory.init {α : Type} : Memory α :=
  { node := fun _ => none, size_ := fun _ => 0, brk := 0 }

/-- The expression `new Node(val, next)`: the `Node` constructor copy-constructs
`value` from `val`; when that throws, the storage is given back and the
exception leaves the expression. -/
def new_Node {α : Type} (copy_ctor : α → Option α) (val : α) (next : Option Nat)
    (s : Memory α) : Except Fault Nat × Memory α :=
  match copy_ctor val with
  | none => (.error .bad_alloc, s)
  | some v =>
    (.ok s.brk, { s with node := Function.update s.node s.brk (some ⟨v, next⟩), brk := s.brk + 1 })

/-- The expression `delete p`. -/
def delete_Node {α : Type} (p : Nat) (s : Memory α) : Memory α :=
  s.set_node p none

/-- The class `BasicIterator` (both `Iterator` and `ConstIterator`): `Node* node_`. -/
structure BasicIterator where
  node_ : Option Nat
deriving DecidableEq

/-- Iterator comparison `operator==`: `this->node_ == rhs.node_`. -/
def BasicIterator.operator_eq (a b : BasicIterator) : Bool :=
  decide (a.node_ = b.node_)

/-- Iterator comparison `operator!=`: `!(this->node_ == rhs.node_)`. -/
def BasicIterator.operator_ne (a b : BasicIterator) : Bool :=
  !decide (a.node_ = b.node_)

/-- Pre-increment `operator++`: `assert(node_ != nullptr); node_ = node_->next_node;`. -/
def BasicIterator.operator_inc {α : Type} (it : BasicIterator) (s : Memory α) :
    Except Fault BasicIterator :=
  match it.node_ with
  | none => .error .assertion
  | some p =>
    match s.node p with
    | none => .error .invalid_access
    | some n => .ok ⟨n.next_node⟩

/-- Dereference `operator*`: `assert(node_ != nullptr); return node_->value;`. -/
def BasicIterator.operator_deref {α : Type} (it : BasicIterator) (s : Memory α) :
    Except Fault α :=
  match it.node_ with
  | none => .error .assertion
  | some p =>
    match s.node p with
    | none => .error .invalid_access
    | some n => .ok n.value

/-- Member access `operator->`: `assert(node_ != nullptr); return &node_->value;`.  The
pointer to the `value` member of a node is given by the address of the node. -/
def BasicIterator.operator_arrow (it : BasicIterator) : Except Fault Nat :=
  match it.node_ with
  | none => .error .assertion
  | some p => .ok p

/-- Client code `*it = v;`: `operator*` returns a reference to `node_->value`, which
is assigned. -/
def BasicIterator.write {α : Type} (it : BasicIterator) (v : α) (s : Memory α) :
    Except Fault Unit × Memory α :=
  match it.node_ with
  | none => (.error .assertion, s)                   -- assert(node_ != nullptr)
  | some p =>
    match s.node p with
    | none => (.error .invalid_access, s)
    | some n => (.ok (), s.set_node p (some { n with value := v }))

/-- The default constructor `SingleLinkedList()`: a new list object, `head_` a
default `Node` and `size_ = 0`, in storage at the first unused address. -/
def ctor_default {α : Type} [Inhabited α] (s : Memory α) : Nat × Memory α :=
  (s.brk, { node := Function.update s.node s.brk (some ⟨default, none⟩),
            size_ := Function.update s.size_ s.brk 0,
            brk := s.brk + 1 })

/-- Function `begin()` (and `cbegin()`): `Iterator{ head_.next_node }`. -/
def begin {α : Type} (self : Nat) (s : Memory α) : Except Fault BasicIterator :=
  match s.node self with
  | none => .error .invalid_access
  | some head_ => .ok ⟨head_.next_node⟩

/-- Function `end()` (and `cend()`): `Iterator{ nullptr }`. -/
def end_ (_self : Nat) : BasicIterator := ⟨none⟩

/-- Function `before_begin()`: `Iterator{ &head_ }`. -/
def before_begin (self : Nat) : BasicIterator := ⟨some self⟩

/-- Function `cbefore_begin()` (and the `const` overload of `before_begin()`, which
returns it): `ConstIterator{ const_cast<Node*>(&head_) }`. -/
def cbefore_begin (self : Nat) : BasicIterator := ⟨some self⟩

/-- Function `size()`: `return size_;`. -/
def size {α : Type} (self : Nat) (s : Memory α) : Nat := s.size_ self

/-- Function `empty()`: `return size_ == 0;`. -/
def empty {α : Type} (self : Nat) (s : Memory α) : Bool := decide (s.size_ self = 0)

/-- Function `insert(pos, value)`. -/
def insert {α : Type} (copy_ctor : α → Option α) (self : Nat) (pos : BasicIterator) (value : α)
    (s : Memory α) : Except Fault BasicIterator × Memory α :=
  match pos.node_ with
  | none => (.error .assertion, s)                   -- assert(pos.node_ != nullptr)
  | some p =>
    match s.node p with
    | none => (.error .invalid_access, s)
    | some pn =>
      match new_Node copy_ctor value pn.next_node s with   -- new Node(value, pos.node_->next_node)
      | (.error e, s1) => (.error e, s1)
      | (.ok a, s1) =>
        let s2 := s1.set_next p (some a)                   -- pos.node_->next_node = ...
        let s3 := s2.set_size self (s2.size_ self + 1)     -- ++size_
        match s3.node p with                               -- Iterator{ pos.node_->next_node }
        | none => (.error .invalid_access, s3)
        | some pn3 => (.ok ⟨pn3.next_node⟩, s3)

/-- Function `erase(pos)`. -/
def erase {α : Type} (self : Nat) (pos : BasicIterator) (s : Memory α) :
    Except Fault BasicIterator × Memory α :=
  if empty self s then (.error .assertion, s)        -- assert(!empty())
  else
    match pos.node_ with
    | none => (.error .assertion, s)                 -- assert(pos.node_ != nullptr)
    | some p =>
      match s.node p with
      | none => (.error .invalid_access, s)
      | some pn =>
        match pn.next_node with
        | none => (.error .invalid_access, s)        -- pos.node_->next_node->next_node, no successor
        | some victim =>
          match s.node victim with
          | none => (.error .invalid_access, s)
          | some vn =>
            let temp := vn.next_node                       -- temp = pos.node_->next_node->next_node
            let s1 := delete_Node victim s                 -- delete pos.node_->next_node
            let s2 := s1.set_next p temp                   -- pos.node_->next_node = temp
            let s3 := s2.set_size self (s2.size_ self - 1) -- --size_
            match s3.node p with                           -- Iterator{ pos.node_->next_node }
            | none => (.error .invalid_access, s3)
            | some pn3 => (.ok ⟨pn3.next_node⟩, s3)

/-- Function `swap(other)`: the two `head_.next_node` and the two `size_` are exchanged. -/
def swap {α : Type} (self other : Nat) (s : Memory α) : Except Fault Unit × Memory α :=
  match s.node other, s.node self with
  | some oh, some sh =>
    let s1 := (s.set_next other sh.next_node).set_next self oh.next_node
    let s2 := (s1.set_size other (s.size_ self)).set_size self (s.size_ other)
    (.ok (), s2)
  | _, _ => (.error .invalid_access, s)

/-- Function `push_front(value)`. -/
def push_front {α : Type} (copy_ctor : α → Option α) (self : Nat) (value : α)
    (s : Memory α) : Except Fault Unit × Memory α :=
  match s.node self with
  | none => (.error .invalid_access, s)
  | some head_ =>
    match new_Node copy_ctor value head_.next_node s with  -- new Node(value, head_.next_node)
    | (.error e, s1) => (.error e, s1)
    | (.ok a, s1) =>
      let s2 := s1.set_next self (some a)                  -- head_.next_node = ...
      (.ok (), s2.set_size self (s2.size_ self + 1))       -- ++size_

/-- The loop of `clear()`: `while (head_.next_node) { ... }`. -/
def clear_loop {α : Type} : Nat → Nat → Memory α → Except Fault Unit × Memory α
  | fuel, self, s =>
    match s.node self with
    | none => (.error .invalid_access, s)
    | some head_ =>
      match head_.next_node with
      | none => (.ok (), s)
      | some first =>
        match fuel with
        | 0 => (.error .out_of_fuel, s)
        | fuel + 1 =>
          match s.node first with
          | none => (.error .invalid_access, s)
          | some fn =>
            let new_head := fn.next_node                   -- new_head = head_.next_node->next_node
            let s1 := delete_Node first s                  -- delete head_.next_node
            clear_loop fuel self (s1.set_next self new_head)  -- head_.next_node = new_head

/-- Function `clear()`: the loop, then `size_ = 0`. -/
def clear {α : Type} (fuel : Nat) (self : Nat) (s : Memory α) : Except Fault Unit × Memory α :=
  match clear_loop fuel self s with
  | (.error e, s1) => (.error e, s1)
  | (.ok _, s1) => (.ok (), s1.set_size self 0)

/-- Function `pop_front()`. -/
def pop_front {α : Type} (self : Nat) (s : Memory α) : Except Fault Unit × Memory α :=
  if empty self s then (.error .assertion, s)        -- assert(!empty())
  else
    match s.node self with
    | none => (.error .invalid_access, s)
    | some head_ =>
      match head_.next_node with
      | none => (.error .invalid_access, s)          -- head_.next_node->next_node
      | some first =>
        match s.node first with
        | none => (.error .invalid_access, s)
        | some fn =>
          let new_head := fn.next_node
          let s1 := delete_Node first s                    -- delete head_.next_node
          let s2 := s1.set_next self new_head              -- head_.next_node = new_head
          (.ok (), s2.set_size self (s2.size_ self - 1))   -- --size_

/-- The destructor `~SingleLinkedList() { clear(); }`, after which the storage of
the object (its `head_`) is released. -/
def dtor {α : Type} (fuel : Nat) (self : Nat) (s : Memory α) : Except Fault Unit × Memory α :=
  match clear fuel self s with
  | (.error e, s1) => (.error e, s1)
  | (.ok _, s1) => (.ok (), s1.set_node self none)

/-- Leaving the scope of the local list `obj` with the failure `e`: an exception
unwinds the stack and runs the destructor of `obj`; a failed assertion or an
invalid access stops the program where it is. -/
def unwind {α ρ : Type} (fuel : Nat) (e : Fault) (obj : Nat) (s : Memory α) :
    Except Fault ρ × Memory α :=
  match e with
  | .bad_alloc =>
    match dtor fuel obj s with
    | (.error e1, s1) => (.error e1, s1)
    | (.ok _, s1) => (.error .bad_alloc, s1)
  | e => (.error e, s)

/-- The body of the loop of `assign`, `val` being `*from`; `node_ptr` (a `Node**`)
is given by the address of the node whose `next_node` it points to.  Returns
the new `node_ptr`. -/
def assign_body {α : Type} (copy_ctor : α → Option α) (tmp node_ptr : Nat) (val : α)
    (s : Memory α) : Except Fault Nat × Memory α :=
  match s.node node_ptr with
  | none => (.error .invalid_access, s)
  | some pn =>
    match pn.next_node with
    | some _ => (.error .assertion, s)               -- assert(*node_ptr == nullptr)
    | none =>
      match new_Node copy_ctor val none s with             -- new Node(*from, nullptr)
      | (.error e, s1) => (.error e, s1)
      | (.ok a, s1) =>
        let s2 := s1.set_next node_ptr (some a)            -- *node_ptr = ...
        let s3 := s2.set_size tmp (s2.size_ tmp + 1)       -- ++tmp.size_
        match s3.node node_ptr with                        -- node_ptr = &((*node_ptr)->next_node)
        | none => (.error .invalid_access, s3)
        | some pn3 =>
          match pn3.next_node with
          | none => (.error .invalid_access, s3)
          | some np => (.ok np, s3)

/-- The loop of `assign(from, to)` when the range is that of an
`initializer_list`, given by the elements still to visit. -/
def assign_loop_il {α : Type} (copy_ctor : α → Option α) (tmp : Nat) :
    Nat → List α → Memory α → Except Fault Unit × Memory α
  | _, [], s => (.ok (), s)
  | node_ptr, val :: rest, s =>
    match assign_body copy_ctor tmp node_ptr val s with
    | (.error e, s1) => (.error e, s1)
    | (.ok np, s1) => assign_loop_il copy_ctor tmp np rest s1  -- ++from

/-- The loop of `assign(from, to)` when the range is given by two list
iterators (`first` is the `from` of the source, `last` its `to`). -/
def assign_loop_it {α : Type} (copy_ctor : α → Option α) (tmp : Nat) :
    Nat → Nat → BasicIterator → BasicIterator → Memory α → Except Fault Unit × Memory α
  | fuel, node_ptr, first, last, s =>
    if first.operator_ne last then                         -- while (from != to)
      match fuel with
      | 0 => (.error .out_of_fuel, s)
      | fuel + 1 =>
        match first.operator_deref s with                  -- *from
        | .error e => (.error e, s)
        | .ok val =>
          match assign_body copy_ctor tmp node_ptr val s with
          | (.error e, s1) => (.error e, s1)
          | (.ok np, s1) =>
            match first.operator_inc s1 with               -- ++from
            | .error e => (.error e, s1)
            | .ok nxt => assign_loop_it copy_ctor tmp fuel np nxt last s1
    else (.ok (), s)

/-- What follows the loop in `assign`: `swap(tmp);`, then `tmp` goes out of scope. -/
def assign_commit {α : Type} (fuel : Nat) (self tmp : Nat) (s : Memory α) :
    Except Fault Unit × Memory α :=
  match swap self tmp s with
  | (.error e, s1) => (.error e, s1)
  | (.ok _, s1) => dtor fuel tmp s1

/-- The private `assign(from, to)` over the range of an `initializer_list`. -/
def assign_il {α : Type} [Inhabited α] (copy_ctor : α → Option α) (fuel : Nat) (self : Nat)
    (values : List α) (s : Memory α) : Except Fault Unit × Memory α :=
  match ctor_default s with                                -- SingleLinkedList<Type> tmp;
  | (tmp, s0) =>
    match assign_loop_il copy_ctor tmp tmp values s0 with  -- node_ptr = &tmp.head_.next_node
    | (.error e, s1) => unwind fuel e tmp s1
    | (.ok _, s1) => assign_commit fuel self tmp s1

/-- The private `assign(from, to)` over a range of list iterators. -/
def assign_it {α : Type} [Inhabited α] (copy_ctor : α → Option α) (fuel : Nat) (self : Nat)
    (first last : BasicIterator) (s : Memory α) : Except Fault Unit × Memory α :=
  match ctor_default s with                                -- SingleLinkedList<Type> tmp;
  | (tmp, s0) =>
    match assign_loop_it copy_ctor tmp fuel tmp first last s0 with
    | (.error e, s1) => unwind fuel e tmp s1
    | (.ok _, s1) => assign_commit fuel self tmp s1

/-- A constructor left by the failure `e`: after an exception the storage of the
object under construction is released (its destructor does not run). -/
def ctor_failed {α ρ : Type} (e : Fault) (self : Nat) (s : Memory α) :
    Except Fault ρ × Memory α :=
  match e with
  | .bad_alloc => (.error .bad_alloc, s.set_node self none)
  | e => (.error e, s)

/-- The constructor `SingleLinkedList(std::initializer_list<Type> values)`; returns
the address of the new object. -/
def ctor_il {α : Type} [Inhabited α] (copy_ctor : α → Option α) (fuel : Nat) (values : List α)
    (s : Memory α) : Except Fault Nat × Memory α :=
  match ctor_default s with                                -- members: head_, size_ = 0
  | (self, s0) =>
    match assign_il copy_ctor fuel self values s0 with     -- assign(values.begin(), values.end())
    | (.error e, s1) => ctor_failed e self s1
    | (.ok _, s1) => (.ok self, s1)

/-- The copy constructor `SingleLinkedList(const SingleLinkedList& other)`; returns
the address of the new object. -/
def ctor_copy {α : Type} [Inhabited α] (copy_ctor : α → Option α) (fuel : Nat) (other : Nat)
    (s : Memory α) : Except Fault Nat × Memory α :=
  match ctor_default s with                                -- members: head_, size_ = 0
  | (self, s0) =>
    match s0.node self with
    | none => (.error .invalid_access, s0)
    | some head_ =>
      -- assert(size_ == 0 && head_.next_node == nullptr)
      if s0.size_ self = 0 ∧ head_.next_node = none then
        match begin other s0 with                          -- other.begin(), other.end()
        | .error e => (.error e, s0)
        | .ok first =>
          match assign_it copy_ctor fuel self first (end_ other) s0 with
          | (.error e, s1) => ctor_failed e self s1
          | (.ok _, s1) => (.ok self, s1)
      else (.error .assertion, s0)

/-- The copy assignment `operator=(rhs)` of `custom_list.h`; returns `*this`. -/
def operator_assign {α : Type} [Inhabited α] (copy_ctor : α → Option α) (fuel : Nat)
    (self rhs : Nat) (s : Memory α) : Except Fault Nat × Memory α :=
  if self ≠ rhs then                                       -- if (this != &rhs)
    match (if empty rhs s then clear fuel self s else (.ok (), s)) with  -- if (rhs.empty()) clear();
    | (.error e, s1) => (.error e, s1)
    | (.ok _, s1) =>
      match ctor_copy copy_ctor fuel rhs s1 with           -- SingleLinkedList rhs_copy(rhs);
      | (.error e, s2) => (.error e, s2)
      | (.ok rhs_copy, s2) =>
        match swap self rhs_copy s2 with                   -- swap(rhs_copy);
        | (.error e, s3) => (.error e, s3)
        | (.ok _, s3) =>
          match dtor fuel rhs_copy s3 with                 -- rhs_copy goes out of scope
          | (.error e, s4) => (.error e, s4)
          | (.ok _, s4) => (.ok self, s4)
  else (.ok self, s)

/-- Function `swap(other)` of `CustomForwardList.cpp`:
`tempHead = head_.next_node; tempSize = size_; head_.next_node = other.head_.next_node;
size_ = other.size_; other.head_.next_node = tempHead; other.size_ = tempSize;`. -/
def swap_cpp {α : Type} (self other : Nat) (s : Memory α) : Except Fault Unit × Memory α :=
  match s.node self with
  | none => (.error .invalid_access, s)
  | some sh =>
    let tempHead := sh.next_node
    let tempSize := s.size_ self
    match s.node other with
    | none => (.error .invalid_access, s)
    | some oh =>
      let s1 := s.set_next self oh.next_node               -- head_.next_node = other.head_.next_node
      let s2 := s1.set_size self (s1.size_ other)          -- size_ = other.size_
      let s3 := s2.set_next other tempHead                 -- other.head_.next_node = tempHead
      (.ok (), s3.set_size other tempSize)                 -- other.size_ = tempSize

/-- Modelled from the spec: the member `PushFront`, which `assign` of
`CustomForwardList.cpp` calls and the class does not define.  The spec has one
operation that adds at the front, `push_front(value)`: it "allocates one node
holding a copy of `value`, links it as the new first node, increments size",
which is the `push_front` of the same class. -/
def PushFront {α : Type} (copy_ctor : α → Option α) (self : Nat) (value : α)
    (s : Memory α) : Except Fault Unit × Memory α :=
  push_front copy_ctor self value s

/-- A loop of `assign(elem)` of `CustomForwardList.cpp` over list iterators:
`for (auto it = first; it != last; ++it) dst.PushFront(*it);`. -/
def assign_cpp_loop {α : Type} (copy_ctor : α → Option α) (dst : Nat) :
    Nat → BasicIterator → BasicIterator → Memory α → Except Fault Unit × Memory α
  | fuel, it, last, s =>
    if it.operator_ne last then
      match fuel with
      | 0 => (.error .out_of_fuel, s)
      | fuel + 1 =>
        match it.operator_deref s with                     -- *it
        | .error e => (.error e, s)
        | .ok val =>
          match PushFront copy_ctor dst val s with
          | (.error e, s1) => (.error e, s1)
          | (.ok _, s1) =>
            match it.operator_inc s1 with                  -- ++it
            | .error e => (.error e, s1)
            | .ok nxt => assign_cpp_loop copy_ctor dst fuel nxt last s1
    else (.ok (), s)

/-- The first loop of `assign(elem)` of `CustomForwardList.cpp` when `elem` is an
`initializer_list`, given by the elements still to visit. -/
def assign_cpp_loop_il {α : Type} (copy_ctor : α → Option α) (dst : Nat) :
    List α → Memory α → Except Fault Unit × Memory α
  | [], s => (.ok (), s)
  | val :: rest, s =>
    match PushFront copy_ctor dst val s with
    | (.error e, s1) => (.error e, s1)
    | (.ok _, s1) => assign_cpp_loop_il copy_ctor dst rest s1

/-- Leaving `assign` of `CustomForwardList.cpp` with the failure `e`: an exception
runs the destructor of `tmp_reverse`, then that of `tmp`. -/
def unwind_cpp {α : Type} (fuel : Nat) (e : Fault) (tmp_reverse tmp : Nat) (s : Memory α) :
    Except Fault Unit × Memory α :=
  match (unwind fuel e tmp_reverse s : Except Fault Unit × Memory α) with
  | (.error e1, s1) => unwind fuel e1 tmp s1
  | (.ok _, s1) => (.ok (), s1)

/-- What follows the first loop in `assign` of `CustomForwardList.cpp`: the second
loop, over `tmp_reverse`, then `swap(tmp);`, then `tmp_reverse` and `tmp` go out
of scope. -/
def assign_cpp_rest {α : Type} (copy_ctor : α → Option α) (fuel : Nat)
    (self tmp tmp_reverse : Nat) (s : Memory α) : Except Fault Unit × Memory α :=
  match begin tmp_reverse s with
  | .error e => (.error e, s)
  | .ok first =>
    match assign_cpp_loop copy_ctor tmp fuel first (end_ tmp_reverse) s with
    | (.error e, s1) => unwind_cpp fuel e tmp_reverse tmp s1
    | (.ok _, s1) =>
      match swap_cpp self tmp s1 with                      -- swap(tmp);
      | (.error e, s2) => (.error e, s2)
      | (.ok _, s2) =>
        match dtor fuel tmp_reverse s2 with
        | (.error e, s3) => (.error e, s3)
        | (.ok _, s3) => dtor fuel tmp s3

/-- The private `assign(elem)` of `CustomForwardList.cpp`, `elem` being an
`initializer_list`. -/
def assign_cpp_il {α : Type} [Inhabited α] (copy_ctor : α → Option α) (fuel : Nat) (self : Nat)
    (values : List α) (s : Memory α) : Except Fault Unit × Memory α :=
  match ctor_default s with                                -- SingleLinkedList tmp;
  | (tmp, s0) =>
    match ctor_default s0 with                             -- SingleLinkedList tmp_reverse;
    | (tmp_reverse, s1) =>
      match assign_cpp_loop_il copy_ctor tmp_reverse values s1 with
      | (.error e, s2) => unwind_cpp fuel e tmp_reverse tmp s2
      | (.ok _, s2) => assign_cpp_rest copy_ctor fuel self tmp tmp_reverse s2

/-- The private `assign(elem)` of `CustomForwardList.cpp`, `elem` being the list
object at `elem`. -/
def assign_cpp_list {α : Type} [Inhabited α] (copy_ctor : α → Option α) (fuel : Nat)
    (self elem : Nat) (s : Memory α) : Except Fault Unit × Memory α :=
  match ctor_default s with                                -- SingleLinkedList tmp;
  | (tmp, s0) =>
    match ctor_default s0 with                             -- SingleLinkedList tmp_reverse;
    | (tmp_reverse, s1) =>
      match begin elem s1 with
      | .error e => (.error e, s1)
      | .ok first =>
        match assign_cpp_loop copy_ctor tmp_reverse fuel first (end_ elem) s1 with
        | (.error e, s2) => unwind_cpp fuel e tmp_reverse tmp s2
        | (.ok _, s2) => assign_cpp_rest copy_ctor fuel self tmp tmp_reverse s2

/-- The standard algorithm `std::equal(first1, last1, first2)` over list iterators:
`for (; first1 != last1; ++first1, ++first2) if (!(*first1 == *first2)) return false;
return true;`. -/
def std_equal {α : Type} [DecidableEq α] :
    Nat → BasicIterator → BasicIterator → BasicIterator → Memory α → Except Fault Bool
  | fuel, first1, last1, first2, s =>
    if first1.operator_ne last1 then
      match fuel with
      | 0 => .error .out_of_fuel
      | fuel + 1 =>
        match first1.operator_deref s, first2.operator_deref s with
        | .error e, _ => .error e
        | .ok _, .error e => .error e
        | .ok a, .ok b =>
          if a = b then
            match first1.operator_inc s, first2.operator_inc s with
            | .error e, _ => .error e
            | .ok _, .error e => .error e
            | .ok n1, .ok n2 => std_equal fuel n1 last1 n2 s
          else .ok false
    else .ok true

/-- The free `operator==` of `custom_list.h`:
`&lhs == &rhs || lhs.size() == rhs.size() || std::equal(lhs.begin(), lhs.end(), rhs.begin())`. -/
def operator_eq {α : Type} [DecidableEq α] (fuel : Nat) (lhs rhs : Nat) (s : Memory α) :
    Except Fault Bool :=
  if lhs = rhs then .ok true
  else if size lhs s = size rhs s then .ok true
  else
    match begin lhs s, begin rhs s with
    | .error e, _ => .error e
    | .ok _, .error e => .error e
    | .ok b1, .ok b2 =>
      match std_equal fuel b1 (end_ lhs) b2 s with
      | .error e => .error e
      | .ok true => .ok true
      | .ok false => .ok false

/-- The free `operator!=` of `custom_list.h`: `!(lhs == rhs)`. -/
def operator_ne {α : Type} [DecidableEq α] (fuel : Nat) (lhs rhs : Nat) (s : Memory α) :
    Except Fault Bool :=
  match operator_eq fuel lhs rhs s with
  | .error e => .error e
  | .ok b => .ok (!b)

/-- The free `operator==` of `CustomForwardList.cpp`:
`equal(lhs.begin(), lhs.end(), rhs.begin())`. -/
def operator_eq_cpp {α : Type} [DecidableEq α] (fuel : Nat) (lhs rhs : Nat) (s : Memory α) :
    Except Fault Bool :=
  match begin lhs s, begin rhs s with
  | .error e, _ => .error e
  | .ok _, .error e => .error e
  | .ok b1, .ok b2 => std_equal fuel b1 (end_ lhs) b2 s

/-- The free `operator!=` of `CustomForwardList.cpp`: `!(lhs == rhs)`. -/
def operator_ne_cpp {α : Type} [DecidableEq α] (fuel : Nat) (lhs rhs : Nat) (s : Memory α) :
    Except Fault Bool :=
  match operator_eq_cpp fuel lhs rhs s with
  | .error e => .error e
  | .ok b => .ok (!b)

/-- The free function `swap(lhs, rhs)`: `lhs.swap(rhs);`. -/
def swap_free {α : Type} (lhs rhs : Nat) (s : Memory α) : Except Fault Unit × Memory α :=
  swap lhs rhs s

/-- The standard algorithm `std::lexicographical_compare(first1, last1, first2, last2)`
over list iterators:
`for (; first1 != last1 && first2 != last2; ++first1, ++first2) {
if (*first1 < *first2) return true; if (*first2 < *first1) return false; }
return first1 == last1 && first2 != last2;`. -/
def std_lexicographical_compare {α : Type} [LT α] [DecidableRel (fun (a b : α) => a < b)] :
    Nat → BasicIterator → BasicIterator → BasicIterator → BasicIterator → Memory α →
      Except Fault Bool
  | fuel, first1, last1, first2, last2, s =>
    if first1.operator_ne last1 && first2.operator_ne last2 then
      match fuel with
      | 0 => .error .out_of_fuel
      | fuel + 1 =>
        match first1.operator_deref s, first2.operator_deref s with
        | .error e, _ => .error e
        | .ok _, .error e => .error e
        | .ok a, .ok b =>
          if a < b then .ok true
          else if b < a then .ok false
          else
            match first1.operator_inc s, first2.operator_inc s with
            | .error e, _ => .error e
            | .ok _, .error e => .error e
            | .ok n1, .ok n2 => std_lexicographical_compare fuel n1 last1 n2 last2 s
    else .ok (first1.operator_eq last1 && first2.operator_ne last2)

/-- The free `operator<`:
`std::lexicographical_compare(lhs.begin(), lhs.end(), rhs.begin(), rhs.end())`. -/
def operator_lt {α : Type} [LT α] [DecidableRel (fun (a b : α) => a < b)] (fuel : Nat)
    (lhs rhs : Nat) (s : Memory α) : Except Fault Bool :=
  match begin lhs s, begin rhs s with
  | .error e, _ => .error e
  | .ok _, .error e => .error e
  | .ok b1, .ok b2 => std_lexicographical_compare fuel b1 (end_ lhs) b2 (end_ rhs) s

/-- The free `operator>`: `rhs < lhs`. -/
def operator_gt {α : Type} [LT α] [DecidableRel (fun (a b : α) => a < b)] (fuel : Nat)
    (lhs rhs : Nat) (s : Memory α) : Except Fault Bool :=
  operator_lt fuel rhs lhs s

/-- The free `operator<=` of `custom_list.h`: `!(lhs > rhs)`. -/
def operator_le {α : Type} [LT α] [DecidableRel (fun (a b : α) => a < b)] (fuel : Nat)
    (lhs rhs : Nat) (s : Memory α) : Except Fault Bool :=
  match operator_gt fuel lhs rhs s with
  | .error e => .error e
  | .ok b => .ok (!b)

/-- The free `operator>=`: `!(lhs < rhs)`. -/
def operator_ge {α : Type} [LT α] [DecidableRel (fun (a b : α) => a < b)] (fuel : Nat)
    (lhs rhs : Nat) (s : Memory α) : Except Fault Bool :=
  match operator_lt fuel lhs rhs s with
  | .error e => .error e
  | .ok b => .ok (!b)

/-- A traversal by a client: `for (it = first; it != last; ++it)` collecting `*it`. -/
def traverse {α : Type} : Nat → BasicIterator → BasicIterator → Memory α → Except Fault (List α)
  | fuel, it, last, s =>
    if it.operator_ne last then
      match fuel with
      | 0 => .error .out_of_fuel
      | fuel + 1 =>
        match it.operator_deref s with
        | .error e => .error e
        | .ok v =>
          match it.operator_inc s with
          | .error e => .error e
          | .ok nxt =>
            match traverse fuel nxt last s with
            | .error e => .error e
            | .ok vs => .ok (v :: vs)
    else .ok []

/-- The elements seen when iterating the list from `begin()` to `end()`. -/
def elements {α : Type} (fuel : Nat) (self : Nat) (s : Memory α) : Except Fault (List α) :=
  match begin self s with
  | .error e => .error e
  | .ok b => traverse fuel b (end_ self) s

/-- Client code: `++it` applied `k` times. -/
def advance {α : Type} : Nat → BasicIterator → Memory α → Except Fault BasicIterator
  | 0, it, _ => .ok it
  | k + 1, it, s =>
    match it.operator_inc s with
    | .error e => .error e
    | .ok nxt => advance k nxt s

/-- Client code: `push_front(v)` for each `v` of `values`, first to last. -/
def push_front_all {α : Type} (copy_ctor : α → Option α) (self : Nat) :
    List α → Memory α → Except Fault Unit × Memory α
  | [], s => (.ok (), s)
  | v :: vs, s =>
    match push_front copy_ctor self v s with
    | (.error e, s1) => (.error e, s1)
    | (.ok _, s1) => push_front_all copy_ctor self vs s1

/-- Client code: `pop_front()` called `n` times. -/
def pop_front_n {α : Type} (self : Nat) : Nat → Memory α → Except Fault Unit × Memory α
  | 0, s => (.ok (), s)
  | n + 1, s =>
    match pop_front self s with
    | (.error e, s1) => (.error e, s1)
    | (.ok _, s1) => pop_front_n self n s1

/-- The memories a program reaches, each with the list objects alive in it.  The
program starts in the empty memory, constructs lists (by default, from a
sequence, by copy) and calls `push_front`, `pop_front`, `insert`, `erase`,
`clear`, `swap` and the copy assignment on them: on its own lists, at positions
reached from `before_begin()`, every call returning (no assertion fails, no
invalid access).  A call may also end by the exception of an element copy;
the program then goes on from the memory that call left.  The bound `fuel` of
a call is at least the sizes of the lists it runs over, so that the call is
not cut short by the model. -/
inductive Reachable {α : Type} [Inhabited α] (copy_ctor : α → Option α) :
    Memory α → List Nat → Prop
  | init : Reachable copy_ctor Memory.init []
  | ctor_default {s : Memory α} {ls : List Nat} :
      Reachable copy_ctor s ls →
      Reachable copy_ctor (ctor_default s).2 ((ctor_default s).1 :: ls)
  | ctor_il {s t : Memory α} {ls : List Nat} {l : Nat} (fuel : Nat) (vals : List α) :
      Reachable copy_ctor s ls → vals.length ≤ fuel →
      ctor_il copy_ctor fuel vals s = (.ok l, t) → Reachable copy_ctor t (l :: ls)
  | ctor_il_throw {s t : Memory α} {ls : List Nat} (fuel : Nat) (vals : List α) :
      Reachable copy_ctor s ls → vals.length ≤ fuel →
      ctor_il copy_ctor fuel vals s = (.error .bad_alloc, t) → Reachable copy_ctor t ls
  | ctor_copy {s t : Memory α} {ls : List Nat} {l : Nat} (fuel : Nat) (other : Nat) :
      Reachable copy_ctor s ls → other ∈ ls → size other s ≤ fuel →
      ctor_copy copy_ctor fuel other s = (.ok l, t) → Reachable copy_ctor t (l :: ls)
  | ctor_copy_throw {s t : Memory α} {ls : List Nat} (fuel : Nat) (other : Nat) :
      Reachable copy_ctor s ls → other ∈ ls → size other s ≤ fuel →
      ctor_copy copy_ctor fuel other s = (.error .bad_alloc, t) → Reachable copy_ctor t ls
  | push_front {s t : Memory α} {ls : List Nat} (l : Nat) (v : α) :
      Reachable copy_ctor s ls → l ∈ ls →
      push_front copy_ctor l v s = (.ok (), t) → Reachable copy_ctor t ls
  | push_front_throw {s t : Memory α} {ls : List Nat} (l : Nat) (v : α) :
      Reachable copy_ctor s ls → l ∈ ls →
      push_front copy_ctor l v s = (.error .bad_alloc, t) → Reachable copy_ctor t ls
  | pop_front {s t : Memory α} {ls : List Nat} (l : Nat) :
      Reachable copy_ctor s ls → l ∈ ls →
      pop_front l s = (.ok (), t) → Reachable copy_ctor t ls
  | insert {s t : Memory α} {ls : List Nat} (l k : Nat) (pos r : BasicIterator) (v : α) :
      Reachable copy_ctor s ls → l ∈ ls → advance k (before_begin l) s = .ok pos →
      insert copy_ctor l pos v s = (.ok r, t) → Reachable copy_ctor t ls
  | insert_throw {s t : Memory α} {ls : List Nat} (l k : Nat) (pos : BasicIterator) (v : α) :
      Reachable copy_ctor s ls → l ∈ ls → advance k (before_begin l) s = .ok pos →
      insert copy_ctor l pos v s = (.error .bad_alloc, t) → Reachable copy_ctor t ls
  | erase {s t : Memory α} {ls : List Nat} (l k : Nat) (pos r : BasicIterator) :
      Reachable copy_ctor s ls → l ∈ ls → advance k (before_begin l) s = .ok pos →
      erase l pos s = (.ok r, t) → Reachable copy_ctor t ls
  | clear {s t : Memory α} {ls : List Nat} (fuel : Nat) (l : Nat) :
      Reachable copy_ctor s ls → l ∈ ls → size l s ≤ fuel →
      clear fuel l s = (.ok (), t) → Reachable copy_ctor t ls
  | swap {s t : Memory α} {ls : List Nat} (a b : Nat) :
      Reachable copy_ctor s ls → a ∈ ls → b ∈ ls →
      swap a b s = (.ok (), t) → Reachable copy_ctor t ls
  | operator_assign {s t : Memory α} {ls : List Nat} (fuel : Nat) (a b r : Nat) :
      Reachable copy_ctor s ls → a ∈ ls → b ∈ ls → size a s ≤ fuel → size b s ≤ fuel →
      operator_assign copy_ctor fuel a b s = (.ok r, t) → Reachable copy_ctor t ls
  | operator_assign_throw {s t : Memory α} {ls : List Nat} (fuel : Nat) (a b : Nat) :
      Reachable copy_ctor s ls → a ∈ ls → b ∈ ls → size a s ≤ fuel → size b s ≤ fuel →
      operator_assign copy_ctor fuel a b s = (.error .bad_alloc, t) → Reachable copy_ctor t ls

/-- One call that changes the list `l`, from the memory before it to the memory
after it: `push_front`, `pop_front`, `insert`, `erase`, `clear`, or the write of
an element through an iterator, at a position of `l` reached from
`before_begin()`.  The call returns (no assertion fails, no invalid access), or
ends by the exception of the element copy. -/
inductive Mutation {α : Type} (copy_ctor : α → Option α) (l : Nat) :
    Memory α → Memory α → Prop
  | push_front {s t : Memory α} (v : α) :
      push_front copy_ctor l v s = (.ok (), t) → Mutation copy_ctor l s t
  | push_front_throw {s t : Memory α} (v : α) :
      push_front copy_ctor l v s = (.error .bad_alloc, t) → Mutation copy_ctor l s t
  | pop_front {s t : Memory α} :
      pop_front l s = (.ok (), t) → Mutation copy_ctor l s t
  | insert {s t : Memory α} (k : Nat) (pos r : BasicIterator) (v : α) :
      advance k (before_begin l) s = .ok pos →
      insert copy_ctor l pos v s = (.ok r, t) → Mutation copy_ctor l s t
  | insert_throw {s t : Memory α} (k : Nat) (pos : BasicIterator) (v : α) :
      advance k (before_begin l) s = .ok pos →
      insert copy_ctor l pos v s = (.error .bad_alloc, t) → Mutation copy_ctor l s t
  | erase {s t : Memory α} (k : Nat) (pos r : BasicIterator) :
      advance k (before_begin l) s = .ok pos →
      erase l pos s = (.ok r, t) → Mutation copy_ctor l s t
  | clear {s t : Memory α} (fuel : Nat) :
      size l s ≤ fuel → clear fuel l s = (.ok (), t) → Mutation copy_ctor l s t
  | write {s t : Memory α} (k : Nat) (pos : BasicIterator) (v : α) :
      advance k (before_begin l) s = .ok pos →
      pos.write v s = (.ok (), t) → Mutation copy_ctor l s t

/-! ## Well-formed memories -/

/-- No object lives at an address that was never handed out. -/
def Memory.WF {α : Type} (s : Memory α) : Prop :=
  ∀ a, s.brk ≤ a → s.node a = none

/-- Predicate `Chain node p cs`: following `next_node` from the pointer `p` one visits
the live nodes at the addresses `cs.map Prod.fst`, holding the values
`cs.map Prod.snd`, in this order, and then reaches `nullptr`. -/
def Chain {α : Type} (node : Nat → Option (Node α)) : Option Nat → List (Nat × α) → Prop
  | p, [] => p = none
  | p, c :: cs => p = some c.1 ∧ ∃ nx, node c.1 = some ⟨c.2, nx⟩ ∧ Chain node nx cs

/-- Predicate `IsList s l cs`: the object at `l` is a list whose real nodes, from first
to last, are at the addresses `cs.map Prod.fst` and hold the values
`cs.map Prod.snd`; no node occurs twice and `size_` is the number of nodes. -/
def IsList {α : Type} (s : Memory α) (l : Nat) (cs : List (Nat × α)) : Prop :=
  (∃ hv, Chain s.node (some l) ((l, hv) :: cs)) ∧
    (l :: cs.map Prod.fst).Nodup ∧ s.size_ l = cs.length

/-- Relation `Frame F s t`: from `s` to `t` nothing allocated in `s` changed outside
the addresses `F`, and no address was handed out twice. -/
def Frame {α : Type} (F : List Nat) (s t : Memory α) : Prop :=
  s.brk ≤ t.brk ∧ ∀ a, a ∉ F → a < s.brk → t.node a = s.node a ∧ t.size_ a = s.size_ a

/-- How the loop of `assign` ends: every element was copied (`cs` are the new
nodes), or the copy of one element threw. -/
def CopyOutcome {α : Type} (copy_ctor : α → Option α) (r : Except Fault Unit)
    (cs : List (Nat × α)) (vals : List α) : Prop :=
  (r = .ok () ∧ List.Forall₂ (fun c x => copy_ctor x = some c.2) cs vals) ∨
    (r = .error .bad_alloc ∧ ∃ x ∈ vals, copy_ctor x = none)

/-- The lists `ls` of the memory `s` are well formed and no node belongs to two of
them; `cs l` names the nodes of the list `l`. -/
def Inv {α : Type} (s : Memory α) (ls : List Nat) : Prop :=
  s.WF ∧ ∃ cs : Nat → List (Nat × α), (∀ l ∈ ls, IsList s l (cs l)) ∧
    ∀ l ∈ ls, ∀ m ∈ ls, l ≠ m →
      ∀ x ∈ l :: (cs l).map Prod.fst, x ∉ m :: (cs m).map Prod.fst

/-- The loop of `std::lexicographical_compare` run on two sequences of values. -/
def lex_loop {α : Type} [LT α] [DecidableRel (fun (a b : α) => a < b)] :
    List α → List α → Bool
  | [], [] => false
  | [], _ :: _ => true
  | _ :: _, [] => false
  | x :: xs, y :: ys => if x < y then true else if y < x then false else lex_loop xs ys

/-- Lexicographic order in the words of the specification: `a` is a proper prefix
of `b`, or at the first index where they differ the element of `a` is less than
that of `b`. -/
def LexLess {α : Type} [LT α] (a b : List α) : Prop :=
  (∃ c, c ≠ [] ∧ b = a ++ c) ∨
    (∃ p x y u v, a = p ++ x :: u ∧ b = p ++ y :: v ∧ x ≠ y ∧ x < y)

/-! ## Memories used as examples -/

/-- The memory after `SingleLinkedList<int> numbers{3, 14, 15, 92, 6};` in an empty
memory: the list object is at address 0, its nodes are at 2, 3, 4, 5, 6. -/
def ex_numbers : Memory Int :=
  (ctor_il some 0 [3, 14, 15, 92, 6] Memory.init).2

/-- The memory after `SingleLinkedList<int> lst{1};` in an empty memory: the list
object is at address 0 and its only node at address 2. -/
def ex_single : Memory Int :=
  (ctor_il some 0 [1] Memory.init).2

/-- The memory of `Test3` before `receiver = source_list`: `source_list{1, 2, 3, 4}`
is the object at address 0 (nodes 2 to 5), `receiver{5, 4, 3, 2, 1}` the object
at address 6 (nodes 8 to 12). -/
def ex_two : Memory Int :=
  (ctor_il some 0 [5, 4, 3, 2, 1] (ctor_il some 0 [1, 2, 3, 4] Memory.init).2).2

/-- The copy constructor of the test type `ThrowOnCopy`, for elements that are
copied once.  An element is given by the value of the counter its
`countdown_ptr` points to, `none` for a null `countdown_ptr`: the copy throws
when the counter is 0 and decrements it otherwise.  In `test.h` the counter is
shared by an element and its copies; here the copy holds the counter after the
decrement and the original keeps the value it had, so that a second copy of
the same original is not what this function describes. -/
def ThrowOnCopy_copy : Option Nat → Option (Option Nat)
  | none => some none
  | some 0 => none
  | some (n + 1) => some (some n)

/-- The memory of `Test3` before `dst_list = src_list`: `src_list` is the object at
address 0 (nodes 2, 3, 4), its second element throwing on copy; `dst_list` is
the object at address 5 (nodes 7, 8), its second element counting down from 10. -/
def ex_throw : Memory (Option Nat) :=
  (ctor_il some 0 [none, some 10] (ctor_il some 0 [none, some 0, none] Memory.init).2).2

/-- The memory holding the lists `{1, 2}` (the object at address 0, nodes 2 and 3)
and `{1, 3}` (the object at address 4, nodes 6 and 7). -/
def ex_differ : Memory Int :=
  (ctor_il some 0 [1, 3] (ctor_il some 0 [1, 2] Memory.init).2).2

/-- The memory holding the lists of the ordering test of `Test3` and an empty
list: `{1, 2, 3}` is the object at address 0 (nodes 2 to 4), `{1, 2, 3, 1}` the
object at address 5 (nodes 7 to 10), `{1, 2, 4}` the object at address 11 (nodes
13 to 15), and the empty list the object at address 16. -/
def ex_order : Memory Int :=
  (ctor_default (ctor_il some 0 [1, 2, 4] (ctor_il some 0 [1, 2, 3, 1]
    (ctor_il some 0 [1, 2, 3] Memory.init).2).2).2).2

/-- The memory after `SingleLinkedList<int> a{1, 2, 3};` in an empty memory. -/
def ex_built : Memory Int := (ctor_il some 3 [1, 2, 3] Memory.init).2

/-- The memory after `a.pop_front();` in `ex_built`. -/
def ex_popped : Memory Int := (pop_front 0 ex_built).2

/-- The memory after `SingleLinkedList<int> b(a);` in `ex_popped`: the copy `b` is the
object at address 5. -/
def ex_copied : Memory Int := (ctor_copy some 3 0 ex_popped).2

/-! ## Memory accessors -/

@[simp] theorem set_node_node {α : Type} (s : Memory α) (a : Nat) (n : Option (Node α)) (b : Nat) :
    (s.set_node a n).node b = if b = a then n else s.node b := by
  simp [Memory.set_node, Function.update_apply]

@[simp] theorem set_node_size {α : Type} (s : Memory α) (a : Nat) (n : Option (Node α)) :
    (s.set_node a n).size_ = s.size_ := rfl

@[simp] theorem set_node_brk {α : Type} (s : Memory α) (a : Nat) (n : Option (Node α)) :
    (s.set_node a n).brk = s.brk := rfl

@[simp] theorem set_size_node {α : Type} (s : Memory α) (l : Nat) (n : Nat) :
    (s.set_size l n).node = s.node := rfl

@[simp] theorem set_size_size {α : Type} (s : Memory α) (l : Nat) (n : Nat) (b : Nat) :
    (s.set_size l n).size_ b = if b = l then n else s.size_ b := by
  simp [Memory.set_size, Function.update_apply]

@[simp] theorem set_size_brk {α : Type} (s : Memory α) (l : Nat) (n : Nat) :
    (s.set_size l n).brk = s.brk := rfl

theorem set_next_of_live {α : Type} {s : Memory α} {p : Nat} {n : Node α}
    (h : s.node p = some n) (q : Option Nat) :
    s.set_next p q = s.set_node p (some ⟨n.value, q⟩) := by
  simp [Memory.set_next, h]

/-! ## Chains -/

theorem Chain.congr {α : Type} {node node2 : Nat → Option (Node α)} :
    ∀ {cs : List (Nat × α)} {p : Option Nat}, Chain node p cs →
      (∀ c ∈ cs, node2 c.1 = node c.1) → Chain node2 p cs
  | [], _, h, _ => h
  | c :: cs, _, ⟨hp, nx, hn, hrest⟩, hagree =>
    ⟨hp, nx, by rw [hagree c (List.mem_cons_self _ _)]; exact hn,
      Chain.congr hrest (fun d hd => hagree d (List.mem_cons_of_mem _ hd))⟩

theorem Chain.live {α : Type} {node : Nat → Option (Node α)} :
    ∀ {cs : List (Nat × α)} {p : Option Nat}, Chain node p cs →
      ∀ c ∈ cs, ∃ nx, node c.1 = some ⟨c.2, nx⟩
  | [], _, _, c, hc => by simp at hc
  | d :: cs, _, ⟨_, nx, hn, hrest⟩, c, hc => by
    rcases List.mem_cons.1 hc with rfl | hc
    · exact ⟨nx, hn⟩
    · exact Chain.live hrest c hc

theorem Chain.lt_brk {α : Type} {s : Memory α} (hs : s.WF) {cs : List (Nat × α)}
    {p : Option Nat} (h : Chain s.node p cs) : ∀ a ∈ cs.map Prod.fst, a < s.brk := by
  intro a ha
  rcases List.mem_map.1 ha with ⟨c, hc, rfl⟩
  rcases h.live c hc with ⟨nx, hn⟩
  by_contra hlt
  rw [hs c.1 (Nat.le_of_not_lt hlt)] at hn
  cases hn

theorem Chain.head_eq {α : Type} {node : Nat → Option (Node α)} {p : Option Nat} :
    ∀ {cs : List (Nat × α)}, Chain node p cs → p = cs.head?.map Prod.fst
  | [], h => h
  | _ :: _, ⟨hp, _⟩ => hp

theorem traverse_chain {α : Type} {s : Memory α} :
    ∀ {cs : List (Nat × α)} {p : Option Nat} (fuel : Nat), Chain s.node p cs →
      cs.length ≤ fuel → traverse fuel ⟨p⟩ ⟨none⟩ s = .ok (cs.map Prod.snd)
  | [], p, fuel, h, _ => by
    have hp : p = none := h
    subst hp
    unfold traverse
    simp [BasicIterator.operator_ne]
  | c :: cs, p, 0, _, hf => by simp at hf
  | c :: cs, p, fuel + 1, ⟨hp, nx, hn, hrest⟩, hf => by
    subst hp
    have ih := traverse_chain fuel hrest (by simpa using hf)
    unfold traverse
    simp [BasicIterator.operator_ne, BasicIterator.operator_deref, BasicIterator.operator_inc,
      hn, ih]

theorem advance_chain {α : Type} {s : Memory α} :
    ∀ (pre : List (Nat × α)) {post : List (Nat × α)} {p : Option Nat},
      Chain s.node p (pre ++ post) →
      advance pre.length ⟨p⟩ s = .ok ⟨post.head?.map Prod.fst⟩
  | [], post, p, h => by
    have hp := Chain.head_eq h
    simp only [List.nil_append] at hp
    simp [advance, hp]
  | c :: pre, post, p, ⟨hp, nx, hn, hrest⟩ => by
    subst hp
    have ih := advance_chain pre hrest
    simp [advance, BasicIterator.operator_inc, hn, ih]

/-- Linking a fresh node `a` after the `k`-th node of a chain. -/
theorem Chain.insert_at {α : Type} {node node2 : Nat → Option (Node α)} {a : Nat} {w : α} :
    ∀ {full : List (Nat × α)} (k : Nat) {p : Option Nat} {q : Nat} {nq : Node α},
      Chain node p full → (full.map Prod.fst)[k]? = some q → node q = some nq →
      (full.map Prod.fst).Nodup → a ∉ full.map Prod.fst →
      node2 q = some ⟨nq.value, some a⟩ → node2 a = some ⟨w, nq.next_node⟩ →
      (∀ b, b ≠ q → b ≠ a → node2 b = node b) →
      Chain node2 p (full.take (k + 1) ++ (a, w) :: full.drop (k + 1))
  | [], k, _, _, _, _, hk, _, _, _, _, _, _ => by simp at hk
  | c :: cs, 0, p, q, nq, ⟨hp, nx, hn, hrest⟩, hk, hq, hnd, hfresh, hq2, ha2, hother => by
    have hqc : c.1 = q := by simpa using hk
    subst hqc
    rw [hn] at hq
    cases hq
    simp only [List.map_cons, List.nodup_cons, List.mem_cons, not_or] at hnd hfresh
    refine ⟨hp, some a, by simpa using hq2, rfl, nx, by simpa using ha2, ?_⟩
    simp only [List.drop_succ_cons, List.drop_zero]
    refine Chain.congr hrest (fun d hd => hother d.1 ?_ ?_)
    · intro h
      exact hnd.1 (h ▸ List.mem_map_of_mem Prod.fst hd)
    · intro h
      exact hfresh.2 (h ▸ List.mem_map_of_mem Prod.fst hd)
  | c :: cs, k + 1, p, q, nq, ⟨hp, nx, hn, hrest⟩, hk, hq, hnd, hfresh, hq2, ha2, hother => by
    simp only [List.map_cons, List.nodup_cons, List.mem_cons, not_or] at hnd hfresh
    have hk2 : (cs.map Prod.fst)[k]? = some q := by simpa using hk
    have hqmem : q ∈ cs.map Prod.fst := List.getElem?_mem hk2
    have ih := Chain.insert_at k hrest hk2 hq hnd.2 hfresh.2 hq2 ha2 hother
    refine ⟨hp, nx, ?_, ih⟩
    rw [hother c.1 ?_ (fun h => hfresh.1 h.symm)]
    · exact hn
    · intro h
      exact hnd.1 (h ▸ hqmem)

/-- Unlinking the node that follows the `k`-th node of a chain. -/
theorem Chain.erase_at {α : Type} {node node2 : Nat → Option (Node α)} :
    ∀ {full : List (Nat × α)} (k : Nat) {p : Option Nat} {q r : Nat} {nq nr : Node α},
      Chain node p full → (full.map Prod.fst)[k]? = some q →
      (full.map Prod.fst)[k + 1]? = some r → node q = some nq → node r = some nr →
      (full.map Prod.fst).Nodup →
      node2 q = some ⟨nq.value, nr.next_node⟩ →
      (∀ b, b ≠ q → b ≠ r → node2 b = node b) →
      Chain node2 p (full.eraseIdx (k + 1))
  | [], k, _, _, _, _, _, _, hk, _, _, _, _, _, _ => by simp at hk
  | [c], 0, _, _, _, _, _, _, _, hk1, _, _, _, _, _ => by simp at hk1
  | c :: d :: cs, 0, p, q, r, nq, nr, ⟨hp, nx, hn, hd, nx2, hn2, hrest⟩, hk, hk1, hq, hr, hnd,
      hq2, hother => by
    have hqc : c.1 = q := by simpa using hk
    have hrd : d.1 = r := by simpa using hk1
    subst hqc
    subst hrd
    rw [hn] at hq
    rw [hn2] at hr
    cases hq
    cases hr
    simp only [List.map_cons, List.nodup_cons, List.mem_cons, not_or] at hnd
    refine ⟨hp, nx2, by simpa using hq2, ?_⟩
    refine Chain.congr hrest (fun e he => hother e.1 ?_ ?_)
    · intro h
      exact hnd.1.2 (h ▸ List.mem_map_of_mem Prod.fst he)
    · intro h
      exact hnd.2.1 (h ▸ List.mem_map_of_mem Prod.fst he)
  | c :: cs, k + 1, p, q, r, nq, nr, ⟨hp, nx, hn, hrest⟩, hk, hk1, hq, hr, hnd, hq2, hother => by
    simp only [List.map_cons, List.nodup_cons] at hnd
    have hk2 : (cs.map Prod.fst)[k]? = some q := by simpa using hk
    have hk3 : (cs.map Prod.fst)[k + 1]? = some r := by simpa using hk1
    have ih := Chain.erase_at k hrest hk2 hk3 hq hr hnd.2 hq2 hother
    refine ⟨hp, nx, ?_, ih⟩
    rw [hother c.1 (fun h => hnd.1 (h ▸ List.getElem?_mem hk2))
      (fun h => hnd.1 (h ▸ List.getElem?_mem hk3))]
    exact hn

/-! ## Lists -/

theorem IsList.head_live {α : Type} {s : Memory α} {l : Nat} {cs : List (Nat × α)}
    (h : IsList s l cs) : ∃ hd, s.node l = some hd ∧ Chain s.node hd.next_node cs := by
  obtain ⟨⟨hv, _, nx, hn, hrest⟩, _, _⟩ := h
  exact ⟨_, hn, hrest⟩

theorem IsList.below_brk {α : Type} {s : Memory α} {l : Nat} {cs : List (Nat × α)}
    (hs : s.WF) (h : IsList s l cs) : ∀ a ∈ l :: cs.map Prod.fst, a < s.brk := by
  obtain ⟨⟨hv, hch⟩, _, _⟩ := h
  simpa using Chain.lt_brk hs hch

theorem IsList.nodes_live {α : Type} {s : Memory α} {l : Nat} {cs : List (Nat × α)}
    (h : IsList s l cs) : ∀ a ∈ l :: cs.map Prod.fst, ∃ n, s.node a = some n := by
  obtain ⟨⟨hv, hch⟩, _, _⟩ := h
  intro a ha
  have ha2 : a ∈ ((l, hv) :: cs).map Prod.fst := by simpa using ha
  rcases List.mem_map.1 ha2 with ⟨c, hc, rfl⟩
  rcases hch.live c hc with ⟨nx, hn⟩
  exact ⟨_, hn⟩

theorem IsList.size_eq {α : Type} {s : Memory α} {l : Nat} {cs : List (Nat × α)}
    (h : IsList s l cs) : size l s = cs.length := h.2.2

theorem IsList.elements_eq {α : Type} {s : Memory α} {l : Nat} {cs : List (Nat × α)}
    (h : IsList s l cs) {fuel : Nat} (hf : cs.length ≤ fuel) :
    elements fuel l s = .ok (cs.map Prod.snd) := by
  obtain ⟨hd, hn, hch⟩ := h.head_live
  simp [elements, begin, hn, end_, traverse_chain fuel hch hf]

theorem IsList.frame {α : Type} {s t : Memory α} {l : Nat} {cs : List (Nat × α)}
    {F : List Nat} (hs : s.WF) (h : IsList s l cs) (hf : Frame F s t)
    (hd : ∀ a ∈ l :: cs.map Prod.fst, a ∉ F) : IsList t l cs := by
  have hlt := h.below_brk hs
  obtain ⟨⟨hv, hch⟩, hnd, hsz⟩ := h
  refine ⟨⟨hv, Chain.congr hch (fun c hc => ?_)⟩, hnd, ?_⟩
  · have hc2 : c.1 ∈ l :: cs.map Prod.fst := by
      have := List.mem_map_of_mem Prod.fst hc
      simpa using this
    exact (hf.2 c.1 (hd _ hc2) (hlt _ hc2)).1
  · rw [(hf.2 l (hd _ (List.mem_cons_self _ _)) (hlt _ (List.mem_cons_self _ _))).2]
    exact hsz

/-! ## The operations on well-formed lists -/

theorem insert_spec {α : Type} {s : Memory α} {l : Nat} {cs : List (Nat × α)}
    {copy_ctor : α → Option α} {v w : α} {q : Nat}
    (hs : s.WF) (hl : IsList s l cs) (k : Nat) (hk : (l :: cs.map Prod.fst)[k]? = some q)
    (hc : copy_ctor v = some w) :
    ∃ t, insert copy_ctor l ⟨some q⟩ v s = (.ok ⟨some s.brk⟩, t) ∧
      IsList t l (cs.take k ++ (s.brk, w) :: cs.drop k) ∧ t.WF ∧ t.brk = s.brk + 1 ∧
      Frame [l, q] s t := by
  have hlt := hl.below_brk hs
  obtain ⟨nq, hq⟩ := hl.nodes_live q (List.getElem?_mem hk)
  have hqlt : q < s.brk := hlt q (List.getElem?_mem hk)
  obtain ⟨⟨hv, hch⟩, hnd, hsz⟩ := hl
  simp [insert, new_Node, hc, hq, Memory.set_next, Function.update_apply, Nat.ne_of_lt hqlt]
  have hk2 : k < cs.length + 1 := by
    have := (List.getElem?_eq_some.1 hk).1
    simpa using this
  have hfresh : s.brk ∉ l :: cs.map Prod.fst := fun h => Nat.lt_irrefl _ (hlt _ h)
  refine ⟨⟨⟨hv, ?_⟩, ?_, ?_⟩, ?_, ?_⟩
  · have key : ∀ node2 : Nat → Option (Node α),
        node2 q = some ⟨nq.value, some s.brk⟩ → node2 s.brk = some ⟨w, nq.next_node⟩ →
        (∀ b, b ≠ q → b ≠ s.brk → node2 b = s.node b) →
        Chain node2 (some l) ((l, hv) :: (cs.take k ++ (s.brk, w) :: cs.drop k)) := by
      intro node2 h1 h2 h3
      simpa using Chain.insert_at k hch (by simpa using hk) hq (by simpa using hnd)
        (by simpa using hfresh) h1 h2 h3
    exact key _ (by simp) (by simp [Nat.ne_of_gt hqlt])
      (fun b hb1 hb2 => by simp [hb1, Function.update_apply, hb2])
  · have h1 : l :: List.map Prod.fst (List.take k cs ++ (s.brk, w) :: List.drop k cs) =
        (l :: List.map Prod.fst (List.take k cs)) ++ s.brk :: List.map Prod.fst (List.drop k cs) := by
      simp
    have h2 : (l :: List.map Prod.fst (List.take k cs)) ++ List.map Prod.fst (List.drop k cs) =
        l :: cs.map Prod.fst := by
      simp [← List.map_append]
    rw [h1, List.nodup_middle, h2]
    exact List.nodup_cons.2 ⟨hfresh, hnd⟩
  · have h3 := congrArg List.length (List.take_append_drop k cs)
    simp only [List.length_append] at h3
    simp [hsz]
    omega
  · intro a ha
    have ha0 : s.brk + 1 ≤ a := ha
    have ha1 : a ≠ q := by omega
    have ha2 : a ≠ s.brk := by omega
    simp [ha1, Function.update_apply, ha2]
    exact hs a (by omega)
  · refine ⟨by simp, fun a ha halt => ?_⟩
    simp only [List.mem_cons, List.mem_singleton, not_or, List.not_mem_nil, or_false] at ha
    simp [ha.1, ha.2, Function.update_apply, Nat.ne_of_lt halt]


theorem Chain.next_eq {α : Type} {node : Nat → Option (Node α)} :
    ∀ {full : List (Nat × α)} (k : Nat) {p : Option Nat} {q : Nat} {n : Node α},
      Chain node p full → (full.map Prod.fst)[k]? = some q → node q = some n →
      n.next_node = (full.map Prod.fst)[k + 1]?
  | [], k, _, _, _, _, hk, _ => by simp at hk
  | c :: cs, 0, p, q, n, ⟨hp, nx, hn, hrest⟩, hk, hq => by
    have hqc : c.1 = q := by simpa using hk
    subst hqc
    rw [hn] at hq
    cases hq
    have := Chain.head_eq hrest
    simp [this, List.head?_eq_getElem?]
  | c :: cs, k + 1, p, q, n, ⟨hp, nx, hn, hrest⟩, hk, hq => by
    have hk2 : (cs.map Prod.fst)[k]? = some q := by simpa using hk
    simpa using Chain.next_eq k hrest hk2 hq

theorem erase_spec {α : Type} {s : Memory α} {l : Nat} {cs : List (Nat × α)} {q : Nat}
    (hs : s.WF) (hl : IsList s l cs) (k : Nat) (hk : (l :: cs.map Prod.fst)[k]? = some q)
    (hk1 : k < cs.length) :
    ∃ t, erase l ⟨some q⟩ s = (.ok ⟨(cs.map Prod.fst)[k + 1]?⟩, t) ∧
      IsList t l (cs.eraseIdx k) ∧ t.WF ∧ t.brk = s.brk ∧
      Frame (l :: cs.map Prod.fst) s t ∧
      (∀ r, (cs.map Prod.fst)[k]? = some r → t.node r = none) ∧
      (∃ vq, t.node q = some ⟨vq, (cs.map Prod.fst)[k + 1]?⟩) := by
  have hlt := hl.below_brk hs
  have hqmem := List.getElem?_mem hk
  obtain ⟨nq, hq⟩ := hl.nodes_live q hqmem
  obtain ⟨r, hr⟩ : ∃ r, (cs.map Prod.fst)[k]? = some r :=
    ⟨_, List.getElem?_eq_getElem (by simpa using hk1)⟩
  have hrmem : r ∈ l :: cs.map Prod.fst := List.mem_cons_of_mem _ (List.getElem?_mem hr)
  obtain ⟨nr, hnr⟩ := hl.nodes_live r hrmem
  obtain ⟨⟨hv, hch⟩, hnd, hsz⟩ := hl
  have hkf : (((l, hv) :: cs).map Prod.fst)[k]? = some q := by simpa using hk
  have hkr : (((l, hv) :: cs).map Prod.fst)[k + 1]? = some r := by simpa using hr
  have hqn : nq.next_node = some r := by rw [Chain.next_eq k hch hkf hq, hkr]
  have hrn : nr.next_node = (cs.map Prod.fst)[k + 1]? := by
    rw [Chain.next_eq (k + 1) hch hkr hnr]; simp
  have hqr : q ≠ r := by
    intro h
    subst h
    have := List.getElem?_inj (by simp; omega) (by simpa using hnd) (hkf.trans hkr.symm)
    omega
  have hne : s.size_ l ≠ 0 := by omega
  simp [erase, empty, hne, hq, hqn, hnr, delete_Node, Memory.set_next, hqr, hrn.symm]
  refine ⟨⟨⟨hv, ?_⟩, ?_, ?_⟩, ?_, ?_, ?_⟩
  · have key : ∀ node2 : Nat → Option (Node α),
        node2 q = some ⟨nq.value, nr.next_node⟩ →
        (∀ b, b ≠ q → b ≠ r → node2 b = s.node b) →
        Chain node2 (some l) ((l, hv) :: cs.eraseIdx k) := by
      intro node2 h1 h2
      simpa using Chain.erase_at k hch hkf hkr hq hnr (by simpa using hnd) h1 h2
    exact key _ (by simp) (fun b hb1 hb2 => by simp [hb1, hb2])
  · exact List.Nodup.sublist
      (List.Sublist.cons₂ l (List.Sublist.map Prod.fst (List.eraseIdx_sublist cs k))) hnd
  · simp [hsz, List.length_eraseIdx_of_lt hk1]
  · intro a ha
    have ha0 : s.brk ≤ a := ha
    have h1 := hlt q hqmem
    have h2 := hlt r hrmem
    have ha1 : a ≠ q := by omega
    have ha2 : a ≠ r := by omega
    simp [ha1, ha2]
    exact hs a ha0
  · refine ⟨Nat.le_refl _, fun a ha _ => ?_⟩
    have ha1 : a ≠ q := fun h => ha (h ▸ hqmem)
    have ha2 : a ≠ r := fun h => ha (h ▸ hrmem)
    have ha3 : a ≠ l := fun h => ha (h ▸ List.mem_cons_self _ _)
    simp [ha1, ha2, ha3]
  · intro r1 x h
    have : r1 = r := by simpa [List.getElem?_map, h] using hr
    subst this
    simp [hqr.symm]

theorem push_front_spec {α : Type} {s : Memory α} {l : Nat} {cs : List (Nat × α)}
    {copy_ctor : α → Option α} {v w : α}
    (hs : s.WF) (hl : IsList s l cs) (hc : copy_ctor v = some w) :
    ∃ t, push_front copy_ctor l v s = (.ok (), t) ∧ IsList t l ((s.brk, w) :: cs) ∧ t.WF ∧
      t.brk = s.brk + 1 ∧ Frame [l] s t := by
  obtain ⟨t, hins, hl2, hwf, hbrk, hfr⟩ := insert_spec (q := l) hs hl 0 (by simp) hc
  obtain ⟨hd, hn, _⟩ := hl.head_live
  have hlt := hl.below_brk hs l (List.mem_cons_self _ _)
  refine ⟨t, ?_, by simpa using hl2, hwf, hbrk, ?_⟩
  · simp [insert, new_Node, hc, hn, Memory.set_next, Function.update_apply, Nat.ne_of_lt hlt]
      at hins
    simp [push_front, new_Node, hc, hn, Memory.set_next, Function.update_apply, Nat.ne_of_lt hlt,
      hins]
  · refine ⟨hfr.1, fun a ha => hfr.2 a ?_⟩
    simpa using ha

theorem pop_front_spec {α : Type} {s : Memory α} {l : Nat} {c : Nat × α} {cs : List (Nat × α)}
    (hs : s.WF) (hl : IsList s l (c :: cs)) :
    ∃ t, pop_front l s = (.ok (), t) ∧ IsList t l cs ∧ t.WF ∧ t.brk = s.brk ∧
      Frame (l :: (c :: cs).map Prod.fst) s t ∧ t.node c.1 = none := by
  obtain ⟨t, her, hl2, hwf, hbrk, hfr, hdel, _⟩ := erase_spec (q := l) hs hl 0 (by simp) (by simp)
  obtain ⟨hd, hn, hp, nx, hc, _⟩ := hl.head_live
  have hne : s.size_ l ≠ 0 := by rw [hl.2.2]; simp
  refine ⟨t, ?_, by simpa using hl2, hwf, hbrk, hfr, hdel c.1 (by simp)⟩
  have hlc : l ≠ c.1 := by
    have := hl.2.1
    simp only [List.map_cons, List.nodup_cons, List.mem_cons, not_or] at this
    exact this.1.1
  simp [erase, empty, hne, hn, hp, hc, delete_Node, Memory.set_next, hlc] at her
  simp [pop_front, empty, hne, hn, hp, hc, delete_Node, Memory.set_next, hlc, her.2]

/-- The body of the loop of `assign` appends one node to the list under construction. -/
theorem assign_body_spec {α : Type} {s : Memory α} {tmp np : Nat} {built : List (Nat × α)}
    {copy_ctor : α → Option α} {v w : α}
    (hs : s.WF) (hl : IsList s tmp built)
    (hnp : (tmp :: built.map Prod.fst)[built.length]? = some np)
    (hc : copy_ctor v = some w) :
    ∃ t, assign_body copy_ctor tmp np v s = (.ok s.brk, t) ∧
      IsList t tmp (built ++ [(s.brk, w)]) ∧ t.WF ∧ t.brk = s.brk + 1 ∧
      Frame (tmp :: built.map Prod.fst) s t := by
  obtain ⟨t, hins, hl2, hwf, hbrk, hfr⟩ := insert_spec (q := np) hs hl built.length hnp hc
  have hmem := List.getElem?_mem hnp
  obtain ⟨nq, hq⟩ := hl.nodes_live np hmem
  have hlt := hl.below_brk hs np hmem
  obtain ⟨⟨hv, hch⟩, _, _⟩ := hl
  have hnx : nq.next_node = none := by
    rw [Chain.next_eq built.length hch (by simpa using hnp) hq]
    simp
  refine ⟨t, ?_, by simpa using hl2, hwf, hbrk, ?_⟩
  · simp [insert, new_Node, hc, hq, Memory.set_next, Function.update_apply, Nat.ne_of_lt hlt]
      at hins
    simp [assign_body, new_Node, hc, hq, hnx, Memory.set_next, Function.update_apply,
      Nat.ne_of_lt hlt]
    simpa [hnx] using hins
  · refine ⟨hfr.1, fun a ha => hfr.2 a ?_⟩
    intro h
    simp only [List.mem_cons, List.mem_singleton, List.not_mem_nil, or_false] at h
    rcases h with h | h
    · exact ha (h ▸ List.mem_cons_self _ _)
    · exact ha (h ▸ hmem)

/-- When the copy of the element throws, the body of the loop of `assign` leaves
the memory as it was. -/
theorem assign_body_throw {α : Type} {s : Memory α} {tmp np : Nat} {built : List (Nat × α)}
    {copy_ctor : α → Option α} {v : α}
    (hl : IsList s tmp built)
    (hnp : (tmp :: built.map Prod.fst)[built.length]? = some np)
    (hc : copy_ctor v = none) :
    assign_body copy_ctor tmp np v s = (.error .bad_alloc, s) := by
  have hmem := List.getElem?_mem hnp
  obtain ⟨nq, hq⟩ := hl.nodes_live np hmem
  obtain ⟨⟨hv, hch⟩, _, _⟩ := hl
  have hnx : nq.next_node = none := by
    rw [Chain.next_eq built.length hch (by simpa using hnp) hq]
    simp
  simp [assign_body, new_Node, hc, hq, hnx]

theorem ctor_default_spec {α : Type} [Inhabited α] {s : Memory α} (hs : s.WF) :
    (ctor_default s).1 = s.brk ∧ IsList (ctor_default s).2 s.brk [] ∧ (ctor_default s).2.WF ∧
      (ctor_default s).2.brk = s.brk + 1 ∧ Frame [] s (ctor_default s).2 := by
  refine ⟨rfl, ⟨⟨default, rfl, none, by simp [ctor_default], rfl⟩, by simp, by simp [ctor_default]⟩,
    ?_, rfl, ?_⟩
  · intro a ha
    have ha0 : s.brk + 1 ≤ a := ha
    have : a ≠ s.brk := by omega
    simp [ctor_default, Function.update_apply, this]
    exact hs a (by omega)
  · refine ⟨by simp [ctor_default], fun a _ halt => ?_⟩
    simp [ctor_default, Function.update_apply, Nat.ne_of_lt halt]

theorem clear_loop_spec {α : Type} {l : Nat} {hv : α} :
    ∀ (cs : List (Nat × α)) (fuel : Nat) (s : Memory α),
      Chain s.node (some l) ((l, hv) :: cs) → (l :: cs.map Prod.fst).Nodup →
      cs.length ≤ fuel →
      ∃ t, clear_loop fuel l s = (.ok (), t) ∧ t.node l = some ⟨hv, none⟩ ∧
        (∀ a ∈ cs.map Prod.fst, t.node a = none) ∧
        (∀ a, a ∉ l :: cs.map Prod.fst → t.node a = s.node a) ∧
        t.size_ = s.size_ ∧ t.brk = s.brk
  | [], fuel, s, ⟨_, nx, hn, hrest⟩, _, _ => by
    have hnx : nx = none := hrest
    subst hnx
    refine ⟨s, ?_, hn, by simp, fun _ _ => rfl, rfl, rfl⟩
    unfold clear_loop
    simp [hn]
  | c :: cs, 0, s, _, _, hf => by simp at hf
  | c :: cs, fuel + 1, s, ⟨_, nx, hn, hp, nx2, hn2, hrest⟩, hnd, hf => by
    have hp2 : nx = some c.1 := hp
    subst hp2
    simp only [List.map_cons, List.nodup_cons, List.mem_cons, not_or] at hnd
    have hlc : l ≠ c.1 := hnd.1.1
    have hch2 : Chain ((delete_Node c.1 s).set_next l nx2).node (some l) ((l, hv) :: cs) := by
      refine ⟨rfl, nx2, by simp [delete_Node, Memory.set_next, hn, hlc], ?_⟩
      refine Chain.congr hrest (fun d hd => ?_)
      have hd1 : d.1 ≠ l := fun h => hnd.1.2 (h ▸ List.mem_map_of_mem Prod.fst hd)
      have hd2 : d.1 ≠ c.1 := fun h => hnd.2.1 (h ▸ List.mem_map_of_mem Prod.fst hd)
      simp [delete_Node, Memory.set_next, hn, hlc, hd1, hd2]
    obtain ⟨t, ht, htl, hfree, hkeep, hsize, hbrk⟩ :=
      clear_loop_spec cs fuel _ hch2 (List.nodup_cons.2 ⟨hnd.1.2, hnd.2.2⟩) (by simpa using hf)
    refine ⟨t, ?_, htl, ?_, ?_, ?_, ?_⟩
    · unfold clear_loop
      simp [hn, hn2, ht]
    · intro a ha
      rcases List.mem_cons.1 ha with h | h
      · subst h
        rw [hkeep c.1 (by simp [hlc.symm, hnd.2.1])]
        simp [delete_Node, Memory.set_next, hn, hlc, hlc.symm]
      · exact hfree a h
    · intro a ha
      simp only [List.map_cons, List.mem_cons, not_or] at ha
      rw [hkeep a (by simp [ha.1, ha.2.2])]
      simp [delete_Node, Memory.set_next, hn, hlc, ha.1, ha.2.1]
    · rw [hsize]
      simp [delete_Node, Memory.set_next, hn, hlc]
    · rw [hbrk]
      simp [delete_Node, Memory.set_next, hn, hlc]

theorem clear_spec {α : Type} {s : Memory α} {l : Nat} {cs : List (Nat × α)} {fuel : Nat}
    (hs : s.WF) (hl : IsList s l cs) (hf : cs.length ≤ fuel) :
    ∃ t, clear fuel l s = (.ok (), t) ∧ IsList t l [] ∧ t.WF ∧ t.brk = s.brk ∧
      Frame (l :: cs.map Prod.fst) s t ∧ (∀ a ∈ cs.map Prod.fst, t.node a = none) := by
  obtain ⟨⟨hv, hch⟩, hnd, _⟩ := hl
  obtain ⟨t, ht, htl, hfree, hkeep, hsize, hbrk⟩ := clear_loop_spec cs fuel s hch hnd hf
  refine ⟨t.set_size l 0, by simp [clear, ht], ?_, ?_, by simpa using hbrk, ?_, by simpa using hfree⟩
  · exact ⟨⟨hv, rfl, none, by simpa using htl, rfl⟩, by simp, by simp⟩
  · intro a ha
    have ha0 : s.brk ≤ a := by simpa [hbrk] using ha
    have hlt := Chain.lt_brk hs hch
    rw [set_size_node, hkeep a (fun h => by
      have := hlt a (by simpa using h)
      omega)]
    exact hs a ha0
  · refine ⟨by simp [hbrk], fun a ha _ => ?_⟩
    have hal : a ≠ l := fun h => ha (h ▸ List.mem_cons_self _ _)
    simp [hkeep a ha, hsize, hal]

theorem dtor_spec {α : Type} {s : Memory α} {l : Nat} {cs : List (Nat × α)} {fuel : Nat}
    (hs : s.WF) (hl : IsList s l cs) (hf : cs.length ≤ fuel) :
    ∃ t, dtor fuel l s = (.ok (), t) ∧ t.WF ∧ t.brk = s.brk ∧
      Frame (l :: cs.map Prod.fst) s t := by
  obtain ⟨t, ht, _, hwf, hbrk, hfr, _⟩ := clear_spec hs hl hf
  refine ⟨t.set_node l none, by simp [dtor, ht], ?_, by simpa using hbrk, ?_⟩
  · intro a ha
    have := hwf a (by simpa using ha)
    simp only [set_node_node]
    split
    · rfl
    · exact this
  · refine ⟨by simp [hbrk], fun a ha halt => ?_⟩
    have hal : a ≠ l := fun h => ha (h ▸ List.mem_cons_self _ _)
    simpa [hal] using hfr.2 a ha halt

theorem swap_spec {α : Type} {s : Memory α} {a b : Nat} {ca cb : List (Nat × α)}
    (hs : s.WF) (ha : IsList s a ca) (hb : IsList s b cb)
    (hdisj : ∀ x ∈ a :: ca.map Prod.fst, x ∉ b :: cb.map Prod.fst) :
    ∃ t, swap a b s = (.ok (), t) ∧ IsList t a cb ∧ IsList t b ca ∧ t.WF ∧ t.brk = s.brk ∧
      Frame [a, b] s t := by
  obtain ⟨hda, hna, hcha⟩ := ha.head_live
  obtain ⟨hdb, hnb, hchb⟩ := hb.head_live
  have hlta := ha.below_brk hs a (List.mem_cons_self _ _)
  have hltb := hb.below_brk hs b (List.mem_cons_self _ _)
  have hab : a ≠ b := fun h => hdisj a (List.mem_cons_self _ _) (h ▸ List.mem_cons_self _ _)
  obtain ⟨_, hnda, hsza⟩ := ha
  obtain ⟨_, hndb, hszb⟩ := hb
  simp only [List.nodup_cons] at hnda hndb
  simp [swap, hna, hnb, Memory.set_next, hab, hab.symm]
  refine ⟨⟨⟨hda.value, rfl, hdb.next_node, by simp, ?_⟩, ?_, by simp [hszb]⟩,
    ⟨⟨hdb.value, rfl, hda.next_node, by simp [hab.symm], ?_⟩, ?_, by simp [hab.symm, hsza]⟩, ?_, ?_⟩
  · refine Chain.congr hchb (fun c hc => ?_)
    have hc1 := List.mem_map_of_mem Prod.fst hc
    have h1 : c.1 ≠ a := fun h => hdisj a (List.mem_cons_self _ _) (h ▸ List.mem_cons_of_mem _ hc1)
    have h2 : c.1 ≠ b := fun h => hndb.1 (h ▸ hc1)
    simp [h1, h2]
  · exact List.nodup_cons.2
      ⟨fun h => hdisj a (List.mem_cons_self _ _) (List.mem_cons_of_mem _ h), hndb.2⟩
  · refine Chain.congr hcha (fun c hc => ?_)
    have hc1 := List.mem_map_of_mem Prod.fst hc
    have h1 : c.1 ≠ a := fun h => hnda.1 (h ▸ hc1)
    have h2 : c.1 ≠ b := fun h => hdisj c.1 (List.mem_cons_of_mem _ hc1) (h ▸ List.mem_cons_self _ _)
    simp [h1, h2]
  · exact List.nodup_cons.2
      ⟨fun h => hdisj b (List.mem_cons_of_mem _ h) (List.mem_cons_self _ _), hnda.2⟩
  · intro x hx
    have hx0 : s.brk ≤ x := hx
    have h1 : x ≠ a := by omega
    have h2 : x ≠ b := by omega
    simp [h1, h2]
    exact hs x hx0
  · refine ⟨Nat.le_refl _, fun x hx _ => ?_⟩
    simp only [List.mem_cons, List.mem_singleton, List.not_mem_nil, or_false, not_or] at hx
    simp [hx.1, hx.2]

theorem Frame.refl {α : Type} (F : List Nat) (s : Memory α) : Frame F s s :=
  ⟨Nat.le_refl _, fun _ _ _ => ⟨rfl, rfl⟩⟩

theorem Frame.trans {α : Type} {F G : List Nat} {s s1 t : Memory α}
    (h1 : Frame F s s1) (h2 : Frame G s1 t) (hG : ∀ a ∈ G, a ∈ F ∨ s.brk ≤ a) : Frame F s t := by
  refine ⟨Nat.le_trans h1.1 h2.1, fun a ha halt => ?_⟩
  have haG : a ∉ G := fun h => by
    rcases hG a h with h | h
    · exact ha h
    · omega
  have e1 := h1.2 a ha halt
  have e2 := h2.2 a haG (Nat.lt_of_lt_of_le halt h1.1)
  exact ⟨e2.1.trans e1.1, e2.2.trans e1.2⟩

theorem Frame.mono {α : Type} {F G : List Nat} {s t : Memory α}
    (h : Frame F s t) (hFG : ∀ a ∈ F, a ∈ G) : Frame G s t :=
  ⟨h.1, fun a ha halt => h.2 a (fun hf => ha (hFG a hf)) halt⟩

theorem assign_loop_il_spec {α : Type} (copy_ctor : α → Option α) {tmp : Nat} :
    ∀ (vals : List α) (s : Memory α) (built : List (Nat × α)) (np : Nat),
      s.WF → IsList s tmp built → (tmp :: built.map Prod.fst)[built.length]? = some np →
      ∃ r t cs, assign_loop_il copy_ctor tmp np vals s = (r, t) ∧ IsList t tmp (built ++ cs) ∧
        t.WF ∧ Frame (tmp :: built.map Prod.fst) s t ∧ (∀ c ∈ cs, s.brk ≤ c.1) ∧
        cs.length ≤ vals.length ∧ CopyOutcome copy_ctor r cs vals
  | [], s, built, np, hs, hl, _ =>
    ⟨.ok (), s, [], rfl, by simpa using hl, hs, Frame.refl _ _, by simp, by simp,
      Or.inl ⟨rfl, List.Forall₂.nil⟩⟩
  | v :: vals, s, built, np, hs, hl, hnp => by
    cases hc : copy_ctor v with
    | none =>
      refine ⟨.error .bad_alloc, s, [], ?_, by simpa using hl, hs, Frame.refl _ _, by simp,
        by simp, Or.inr ⟨rfl, v, List.mem_cons_self _ _, hc⟩⟩
      simp [assign_loop_il, assign_body_throw hl hnp hc]
    | some w =>
      obtain ⟨s1, hb, hl1, hs1, hbrk1, hfr1⟩ := assign_body_spec hs hl hnp hc
      obtain ⟨r, t, cs, hloop, hl2, hs2, hfr2, hfresh, hlen, hout⟩ :=
        assign_loop_il_spec copy_ctor vals s1 (built ++ [(s.brk, w)]) s.brk hs1 hl1 (by simp)
      refine ⟨r, t, (s.brk, w) :: cs, ?_, by simpa using hl2, hs2, ?_, ?_, by simpa using hlen, ?_⟩
      · simp [assign_loop_il, hb, hloop]
      · refine Frame.trans hfr1 hfr2 (fun a ha => ?_)
        simp only [List.map_append, List.map_cons, List.map_nil, List.mem_cons, List.mem_append,
          List.mem_singleton, List.not_mem_nil, or_false] at ha
        rcases ha with h | h | h
        · exact Or.inl (h ▸ List.mem_cons_self _ _)
        · exact Or.inl (List.mem_cons_of_mem _ h)
        · exact Or.inr (Nat.le_of_eq h.symm)
      · intro c hc2
        rcases List.mem_cons.1 hc2 with h | h
        · subst h
          exact Nat.le_refl _
        · have := hfresh c h
          omega
      · rcases hout with ⟨hr, hall⟩ | ⟨hr, x, hx, hxn⟩
        · exact Or.inl ⟨hr, List.Forall₂.cons hc hall⟩
        · exact Or.inr ⟨hr, x, List.mem_cons_of_mem _ hx, hxn⟩

theorem assign_loop_it_spec {α : Type} (copy_ctor : α → Option α) {tmp : Nat} :
    ∀ (src : List (Nat × α)) (fuel : Nat) (s : Memory α) (built : List (Nat × α)) (np : Nat)
      (p : Option Nat),
      s.WF → IsList s tmp built → (tmp :: built.map Prod.fst)[built.length]? = some np →
      Chain s.node p src → (∀ a ∈ src.map Prod.fst, a ∉ tmp :: built.map Prod.fst) →
      src.length ≤ fuel →
      ∃ r t cs, assign_loop_it copy_ctor tmp fuel np ⟨p⟩ ⟨none⟩ s = (r, t) ∧
        IsList t tmp (built ++ cs) ∧ t.WF ∧ Frame (tmp :: built.map Prod.fst) s t ∧
        (∀ c ∈ cs, s.brk ≤ c.1) ∧ cs.length ≤ src.length ∧
        CopyOutcome copy_ctor r cs (src.map Prod.snd)
  | [], fuel, s, built, np, p, hs, hl, _, hch, _, _ => by
    have hp : p = none := hch
    subst hp
    refine ⟨.ok (), s, [], ?_, by simpa using hl, hs, Frame.refl _ _, by simp, by simp,
      Or.inl ⟨rfl, List.Forall₂.nil⟩⟩
    unfold assign_loop_it
    simp [BasicIterator.operator_ne]
  | c :: src, 0, s, built, np, p, _, _, _, _, _, hf => by simp at hf
  | c :: src, fuel + 1, s, built, np, p, hs, hl, hnp, ⟨hp, nx, hn, hrest⟩, hdisj, hf => by
    subst hp
    have hclt : c.1 < s.brk := by
      by_contra h
      rw [hs c.1 (Nat.le_of_not_lt h)] at hn
      cases hn
    have hsrclt := Chain.lt_brk hs hrest
    cases hc : copy_ctor c.2 with
    | none =>
      refine ⟨.error .bad_alloc, s, [], ?_, by simpa using hl, hs, Frame.refl _ _, by simp,
        by simp, Or.inr ⟨rfl, c.2, by simp, hc⟩⟩
      unfold assign_loop_it
      simp [BasicIterator.operator_ne, BasicIterator.operator_deref, hn,
        assign_body_throw hl hnp hc]
    | some w =>
      obtain ⟨s1, hb, hl1, hs1, hbrk1, hfr1⟩ := assign_body_spec hs hl hnp hc
      have hn1 : s1.node c.1 = some ⟨c.2, nx⟩ := by
        rw [(hfr1.2 c.1 (hdisj c.1 (by simp)) hclt).1]
        exact hn
      have hrest1 : Chain s1.node nx src := by
        refine Chain.congr hrest (fun d hd => ?_)
        have hd1 := List.mem_map_of_mem Prod.fst hd
        exact (hfr1.2 d.1 (hdisj d.1 (by simp [hd1])) (hsrclt _ hd1)).1
      have hdisj1 : ∀ a ∈ src.map Prod.fst,
          a ∉ tmp :: (built ++ [(s.brk, w)]).map Prod.fst := by
        intro a ha h
        simp only [List.map_append, List.map_cons, List.map_nil, List.mem_cons, List.mem_append,
          List.mem_singleton, List.not_mem_nil, or_false] at h
        have hlt := hsrclt a ha
        have hnot := hdisj a (by simp [ha])
        simp only [List.mem_cons, not_or] at hnot
        rcases h with h | h | h
        · exact hnot.1 h
        · exact hnot.2 h
        · omega
      obtain ⟨r, t, cs, hloop, hl2, hs2, hfr2, hfresh, hlen, hout⟩ :=
        assign_loop_it_spec copy_ctor src fuel s1 (built ++ [(s.brk, w)]) s.brk nx hs1 hl1
          (by simp) hrest1 hdisj1 (by simpa using hf)
      refine ⟨r, t, (s.brk, w) :: cs, ?_, by simpa using hl2, hs2, ?_, ?_, by simpa using hlen, ?_⟩
      · unfold assign_loop_it
        simp [BasicIterator.operator_ne, BasicIterator.operator_deref,
          BasicIterator.operator_inc, hn, hb, hn1, hloop]
      · refine Frame.trans hfr1 hfr2 (fun a ha => ?_)
        simp only [List.map_append, List.map_cons, List.map_nil, List.mem_cons, List.mem_append,
          List.mem_singleton, List.not_mem_nil, or_false] at ha
        rcases ha with h | h | h
        · exact Or.inl (h ▸ List.mem_cons_self _ _)
        · exact Or.inl (List.mem_cons_of_mem _ h)
        · exact Or.inr (Nat.le_of_eq h.symm)
      · intro d hd
        rcases List.mem_cons.1 hd with h | h
        · subst h
          exact Nat.le_refl _
        · have := hfresh d h
          omega
      · rcases hout with ⟨hr, hall⟩ | ⟨hr, x, hx, hxn⟩
        · exact Or.inl ⟨hr, List.Forall₂.cons hc hall⟩
        · exact Or.inr ⟨hr, x, List.mem_cons_of_mem _ hx, hxn⟩

theorem unwind_spec {α : Type} (ρ : Type) {s : Memory α} {tmp : Nat} {built : List (Nat × α)} {fuel : Nat}
    (hs : s.WF) (hl : IsList s tmp built) (hf : built.length ≤ fuel) :
    ∃ t, (unwind fuel .bad_alloc tmp s : Except Fault ρ × Memory α) = (.error .bad_alloc, t) ∧
      t.WF ∧ t.brk = s.brk ∧ Frame (tmp :: built.map Prod.fst) s t := by
  obtain ⟨t, ht, hwf, hbrk, hfr⟩ := dtor_spec hs hl hf
  exact ⟨t, by simp [unwind, ht], hwf, hbrk, hfr⟩

theorem assign_commit_spec {α : Type} {s : Memory α} {self tmp : Nat}
    {old fresh : List (Nat × α)} {fuel : Nat}
    (hs : s.WF) (hself : IsList s self old) (htmp : IsList s tmp fresh)
    (hdisj : ∀ x ∈ self :: old.map Prod.fst, x ∉ tmp :: fresh.map Prod.fst)
    (hf : old.length ≤ fuel) :
    ∃ t, assign_commit fuel self tmp s = (.ok (), t) ∧ IsList t self fresh ∧ t.WF ∧
      t.brk = s.brk ∧ Frame (self :: tmp :: old.map Prod.fst) s t := by
  obtain ⟨s2, hsw, hself2, htmp2, hs2, hbrk2, hfr2⟩ := swap_spec hs hself htmp hdisj
  obtain ⟨t, hd, hwf, hbrk, hfr⟩ := dtor_spec hs2 htmp2 hf
  have hnd := hself.2.1
  simp only [List.nodup_cons] at hnd
  refine ⟨t, by simp [assign_commit, hsw, hd], ?_, hwf, by rw [hbrk, hbrk2], ?_⟩
  · refine IsList.frame hs2 hself2 hfr (fun a ha h => ?_)
    rcases List.mem_cons.1 ha with ha | ha <;> rcases List.mem_cons.1 h with h | h
    · exact hdisj self (List.mem_cons_self _ _) (by rw [← ha, h]; exact List.mem_cons_self _ _)
    · exact hnd.1 (ha ▸ h)
    · exact (List.nodup_cons.1 htmp.2.1).1 (h ▸ ha)
    · exact hdisj a (List.mem_cons_of_mem _ h) (List.mem_cons_of_mem _ ha)
  · refine Frame.trans (Frame.mono hfr2 (fun a ha => ?_)) hfr (fun a ha => ?_)
    · simp only [List.mem_cons, List.mem_singleton, List.not_mem_nil, or_false] at ha
      rcases ha with h | h
      · exact h ▸ List.mem_cons_self _ _
      · exact h ▸ List.mem_cons_of_mem _ (List.mem_cons_self _ _)
    · exact Or.inl (List.mem_cons_of_mem _ ha)

theorem assign_il_spec {α : Type} [Inhabited α] (copy_ctor : α → Option α) {s : Memory α}
    {self : Nat} {old : List (Nat × α)} {fuel : Nat} (vals : List α)
    (hs : s.WF) (hself : IsList s self old) (hf : old.length ≤ fuel)
    (hf2 : (∃ x ∈ vals, copy_ctor x = none) → vals.length ≤ fuel) :
    ∃ r t, assign_il copy_ctor fuel self vals s = (r, t) ∧ t.WF ∧ s.brk ≤ t.brk ∧
      ((r = .ok () ∧ ∃ cs, IsList t self cs ∧
          List.Forall₂ (fun c x => copy_ctor x = some c.2) cs vals ∧
          (∀ c ∈ cs, s.brk ≤ c.1) ∧ Frame (self :: old.map Prod.fst) s t) ∨
        (r = .error .bad_alloc ∧ (∃ x ∈ vals, copy_ctor x = none) ∧ Frame [] s t)) := by
  obtain ⟨htmp, hl0, hs0, hbrk0, hfr0⟩ := ctor_default_spec hs
  have hselflt := hself.below_brk hs
  have hself0 : IsList (ctor_default s).2 self old := IsList.frame hs hself hfr0 (by simp)
  obtain ⟨r, s1, cs, hloop, hl1, hs1, hfr1, hfresh, hlen, hout⟩ :=
    assign_loop_il_spec copy_ctor vals (ctor_default s).2 [] s.brk hs0 hl0 (by simp)
  simp only [List.nil_append, List.map_nil] at hl1 hfr1
  rw [hbrk0] at hfresh
  have hself1 : IsList s1 self old := IsList.frame hs0 hself0 hfr1 (fun a ha h => by
    have := hselflt a ha
    simp only [List.mem_singleton] at h
    omega)
  have hfr01 : Frame [] s s1 := Frame.trans hfr0 hfr1 (fun a ha => by
    simp only [List.mem_singleton] at ha
    exact Or.inr (Nat.le_of_eq ha.symm))
  have hbrk1 : s.brk + 1 ≤ s1.brk := hbrk0 ▸ hfr1.1
  rcases hout with ⟨hr, hall⟩ | ⟨hr, hex⟩
  · subst hr
    obtain ⟨t, hcm, hlt, hwf, hbrk, hfr⟩ := assign_commit_spec hs1 hself1 hl1 (fun x hx h => by
      have h1 := hselflt x hx
      rcases List.mem_cons.1 h with h | h
      · omega
      · rcases List.mem_map.1 h with ⟨c, hc, rfl⟩
        have := hfresh c hc
        omega) hf
    refine ⟨.ok (), t, ?_, hwf, by omega,
      Or.inl ⟨rfl, cs, hlt, hall, fun c hc => by have := hfresh c hc; omega, ?_⟩⟩
    · simp only [assign_il]
      rw [show ctor_default s = (s.brk, (ctor_default s).2) from rfl]
      simp only [hloop, hcm]
    refine Frame.trans (Frame.mono hfr01 (by simp)) hfr (fun a ha => ?_)
    rcases List.mem_cons.1 ha with h | h
    · exact Or.inl (h ▸ List.mem_cons_self _ _)
    · rcases List.mem_cons.1 h with h | h
      · exact Or.inr (Nat.le_of_eq h.symm)
      · exact Or.inl (List.mem_cons_of_mem _ h)
  · subst hr
    obtain ⟨t, hun, hwf, hbrk, hfr⟩ := unwind_spec Unit hs1 hl1
      (Nat.le_trans hlen (hf2 hex))
    refine ⟨.error .bad_alloc, t, ?_, hwf, by omega, Or.inr ⟨rfl, hex, ?_⟩⟩
    · simp only [assign_il]
      rw [show ctor_default s = (s.brk, (ctor_default s).2) from rfl]
      simp only [hloop, hun]
    · refine Frame.trans hfr01 hfr (fun a ha => Or.inr ?_)
      rcases List.mem_cons.1 ha with h | h
      · exact Nat.le_of_eq h.symm
      · rcases List.mem_map.1 h with ⟨c, hc, rfl⟩
        have := hfresh c hc
        omega

theorem assign_it_spec {α : Type} [Inhabited α] (copy_ctor : α → Option α) {s : Memory α}
    {self : Nat} {old src : List (Nat × α)} {fuel : Nat} {p : Option Nat}
    (hs : s.WF) (hself : IsList s self old) (hsrc : Chain s.node p src)
    (hf : old.length ≤ fuel) (hf2 : src.length ≤ fuel) :
    ∃ r t, assign_it copy_ctor fuel self ⟨p⟩ ⟨none⟩ s = (r, t) ∧ t.WF ∧ s.brk ≤ t.brk ∧
      ((r = .ok () ∧ ∃ cs, IsList t self cs ∧
          List.Forall₂ (fun c x => copy_ctor x = some c.2) cs (src.map Prod.snd) ∧
          (∀ c ∈ cs, s.brk ≤ c.1) ∧ Frame (self :: old.map Prod.fst) s t) ∨
        (r = .error .bad_alloc ∧ (∃ x ∈ src.map Prod.snd, copy_ctor x = none) ∧
          Frame [] s t)) := by
  obtain ⟨htmp, hl0, hs0, hbrk0, hfr0⟩ := ctor_default_spec hs
  have hselflt := hself.below_brk hs
  have hsrclt := Chain.lt_brk hs hsrc
  have hself0 : IsList (ctor_default s).2 self old := IsList.frame hs hself hfr0 (by simp)
  have hsrc0 : Chain (ctor_default s).2.node p src :=
    Chain.congr hsrc (fun c hc =>
      (hfr0.2 c.1 (by simp) (hsrclt _ (List.mem_map_of_mem Prod.fst hc))).1)
  obtain ⟨r, s1, cs, hloop, hl1, hs1, hfr1, hfresh, hlen, hout⟩ :=
    assign_loop_it_spec copy_ctor src fuel (ctor_default s).2 [] s.brk p hs0 hl0 (by simp) hsrc0
      (fun a ha h => by
        have := hsrclt a ha
        simp only [List.map_nil, List.mem_singleton] at h
        omega) hf2
  simp only [List.nil_append, List.map_nil] at hl1 hfr1
  rw [hbrk0] at hfresh
  have hself1 : IsList s1 self old := IsList.frame hs0 hself0 hfr1 (fun a ha h => by
    have := hselflt a ha
    simp only [List.mem_singleton] at h
    omega)
  have hfr01 : Frame [] s s1 := Frame.trans hfr0 hfr1 (fun a ha => by
    simp only [List.mem_singleton] at ha
    exact Or.inr (Nat.le_of_eq ha.symm))
  have hbrk1 : s.brk + 1 ≤ s1.brk := hbrk0 ▸ hfr1.1
  rcases hout with ⟨hr, hall⟩ | ⟨hr, hex⟩
  · subst hr
    obtain ⟨t, hcm, hlt, hwf, hbrk, hfr⟩ := assign_commit_spec hs1 hself1 hl1 (fun x hx h => by
      have h1 := hselflt x hx
      rcases List.mem_cons.1 h with h | h
      · omega
      · rcases List.mem_map.1 h with ⟨c, hc, rfl⟩
        have := hfresh c hc
        omega) hf
    refine ⟨.ok (), t, ?_, hwf, by omega,
      Or.inl ⟨rfl, cs, hlt, hall, fun c hc => by have := hfresh c hc; omega, ?_⟩⟩
    · simp only [assign_it]
      rw [show ctor_default s = (s.brk, (ctor_default s).2) from rfl]
      simp only [hloop, hcm]
    refine Frame.trans (Frame.mono hfr01 (by simp)) hfr (fun a ha => ?_)
    rcases List.mem_cons.1 ha with h | h
    · exact Or.inl (h ▸ List.mem_cons_self _ _)
    · rcases List.mem_cons.1 h with h | h
      · exact Or.inr (Nat.le_of_eq h.symm)
      · exact Or.inl (List.mem_cons_of_mem _ h)
  · subst hr
    obtain ⟨t, hun, hwf, hbrk, hfr⟩ := unwind_spec Unit hs1 hl1 (Nat.le_trans hlen hf2)
    refine ⟨.error .bad_alloc, t, ?_, hwf, by omega, Or.inr ⟨rfl, hex, ?_⟩⟩
    · simp only [assign_it]
      rw [show ctor_default s = (s.brk, (ctor_default s).2) from rfl]
      simp only [hloop, hun]
    · refine Frame.trans hfr01 hfr (fun a ha => Or.inr ?_)
      rcases List.mem_cons.1 ha with h | h
      · exact Nat.le_of_eq h.symm
      · rcases List.mem_map.1 h with ⟨c, hc, rfl⟩
        have := hfresh c hc
        omega

theorem ctor_failed_spec {α : Type} (ρ : Type) {s : Memory α} (self : Nat) (hs : s.WF) :
    ∃ t, (ctor_failed .bad_alloc self s : Except Fault ρ × Memory α) = (.error .bad_alloc, t) ∧
      t.WF ∧ t.brk = s.brk ∧ Frame [self] s t := by
  refine ⟨s.set_node self none, rfl, ?_, rfl, Nat.le_refl _, fun a ha _ => ?_⟩
  · intro a ha
    simp only [set_node_node]
    split
    · rfl
    · exact hs a ha
  · simp only [List.mem_singleton] at ha
    simp [ha]

theorem ctor_il_spec {α : Type} [Inhabited α] (copy_ctor : α → Option α) {s : Memory α}
    (fuel : Nat) (vals : List α) (hs : s.WF)
    (hf2 : (∃ x ∈ vals, copy_ctor x = none) → vals.length ≤ fuel) :
    ∃ r t, ctor_il copy_ctor fuel vals s = (r, t) ∧ t.WF ∧ Frame [] s t ∧
      ((r = .ok s.brk ∧ ∃ cs, IsList t s.brk cs ∧ (∀ c ∈ cs, s.brk < c.1) ∧
          List.Forall₂ (fun c x => copy_ctor x = some c.2) cs vals) ∨
        (r = .error .bad_alloc ∧ ∃ x ∈ vals, copy_ctor x = none)) := by
  obtain ⟨hself, hl0, hs0, hbrk0, hfr0⟩ := ctor_default_spec hs
  obtain ⟨r, s1, hasg, hs1, hbrk1, hout⟩ :=
    assign_il_spec copy_ctor vals hs0 hl0 (Nat.zero_le _) hf2
  have hunf : ctor_il copy_ctor fuel vals s =
      (match assign_il copy_ctor fuel s.brk vals (ctor_default s).2 with
        | (.error e, s1) => ctor_failed e s.brk s1
        | (.ok _, s1) => (.ok s.brk, s1)) := rfl
  rw [hunf, hasg]
  rcases hout with ⟨hr, cs, hl1, hall, hfresh, hfr1⟩ | ⟨hr, hex, hfr1⟩
  · subst hr
    refine ⟨.ok s.brk, s1, rfl, hs1, ?_, Or.inl ⟨rfl, cs, hl1, fun c hc => by
      have := hfresh c hc
      omega, hall⟩⟩
    exact Frame.trans hfr0 hfr1 (fun a ha => by
      simp only [List.map_nil, List.mem_singleton] at ha
      exact Or.inr (Nat.le_of_eq ha.symm))
  · subst hr
    obtain ⟨t, hcf, hwf, hbrk, hfr⟩ := ctor_failed_spec Nat s.brk hs1
    refine ⟨.error .bad_alloc, t, hcf, hwf, ?_, Or.inr ⟨rfl, hex⟩⟩
    exact Frame.trans (Frame.trans hfr0 hfr1 (by simp)) hfr (fun a ha => by
      simp only [List.mem_singleton] at ha
      exact Or.inr (Nat.le_of_eq ha.symm))

theorem ctor_copy_spec {α : Type} [Inhabited α] (copy_ctor : α → Option α) {s : Memory α}
    {other : Nat} {src : List (Nat × α)} {fuel : Nat} (hs : s.WF) (hother : IsList s other src)
    (hf : src.length ≤ fuel) :
    ∃ r t, ctor_copy copy_ctor fuel other s = (r, t) ∧ t.WF ∧ Frame [] s t ∧
      ((r = .ok s.brk ∧ ∃ cs, IsList t s.brk cs ∧ (∀ c ∈ cs, s.brk < c.1) ∧
          List.Forall₂ (fun c x => copy_ctor x = some c.2) cs (src.map Prod.snd)) ∨
        (r = .error .bad_alloc ∧ ∃ x ∈ src.map Prod.snd, copy_ctor x = none)) := by
  obtain ⟨hself, hl0, hs0, hbrk0, hfr0⟩ := ctor_default_spec hs
  have hother0 : IsList (ctor_default s).2 other src := IsList.frame hs hother hfr0 (by simp)
  obtain ⟨hd, hn, hch⟩ := hother0.head_live
  obtain ⟨r, s1, hasg, hs1, hbrk1, hout⟩ :=
    assign_it_spec copy_ctor hs0 hl0 hch (Nat.zero_le _) hf
  have hunf : ctor_copy copy_ctor fuel other s =
      (match assign_it copy_ctor fuel s.brk ⟨hd.next_node⟩ ⟨none⟩ (ctor_default s).2 with
        | (.error e, s1) => ctor_failed e s.brk s1
        | (.ok _, s1) => (.ok s.brk, s1)) := by
    simp only [ctor_copy]
    rw [show ctor_default s = (s.brk, (ctor_default s).2) from rfl]
    have hn2 : Function.update s.node s.brk (some ⟨default, none⟩) other = some hd := hn
    simp [begin, hn2, end_, ctor_default]
  rw [hunf, hasg]
  rcases hout with ⟨hr, cs, hl1, hall, hfresh, hfr1⟩ | ⟨hr, hex, hfr1⟩
  · subst hr
    refine ⟨.ok s.brk, s1, rfl, hs1, ?_, Or.inl ⟨rfl, cs, hl1, fun c hc => by
      have := hfresh c hc
      omega, hall⟩⟩
    exact Frame.trans hfr0 hfr1 (fun a ha => by
      simp only [List.map_nil, List.mem_singleton] at ha
      exact Or.inr (Nat.le_of_eq ha.symm))
  · subst hr
    obtain ⟨t, hcf, hwf, hbrk, hfr⟩ := ctor_failed_spec Nat s.brk hs1
    refine ⟨.error .bad_alloc, t, hcf, hwf, ?_, Or.inr ⟨rfl, hex⟩⟩
    exact Frame.trans (Frame.trans hfr0 hfr1 (by simp)) hfr (fun a ha => by
      simp only [List.mem_singleton] at ha
      exact Or.inr (Nat.le_of_eq ha.symm))

/-- The copy assignment between two distinct lists, with what it leaves untouched:
nothing changes outside the old nodes of the destination, and the nodes the
destination receives are new. -/
theorem operator_assign_full {α : Type} [Inhabited α] (copy_ctor : α → Option α) {s : Memory α}
    {self rhs : Nat} {old src : List (Nat × α)} {fuel : Nat}
    (hs : s.WF) (hself : IsList s self old) (hrhs : IsList s rhs src)
    (hdisj : ∀ x ∈ self :: old.map Prod.fst, x ∉ rhs :: src.map Prod.fst)
    (hf1 : old.length ≤ fuel) (hf2 : src.length ≤ fuel) :
    ∃ r t, operator_assign copy_ctor fuel self rhs s = (r, t) ∧ t.WF ∧ IsList t rhs src ∧
      Frame (self :: old.map Prod.fst) s t ∧
      ((r = .ok self ∧ ∃ cs, IsList t self cs ∧ (∀ c ∈ cs, s.brk ≤ c.1) ∧
          List.Forall₂ (fun c x => copy_ctor x = some c.2) cs (src.map Prod.snd)) ∨
        (r = .error .bad_alloc ∧ (∃ x ∈ src.map Prod.snd, copy_ctor x = none) ∧
          IsList t self old)) := by
  have hne : self ≠ rhs := fun h =>
    hdisj self (List.mem_cons_self _ _) (h ▸ List.mem_cons_self _ _)
  have hselflt := hself.below_brk hs
  have hrhslt := hrhs.below_brk hs
  -- `if (rhs.empty()) clear();`
  obtain ⟨s1, old1, h1, hself1, hs1, hbrk1, hfr1, hlen1, hsub1, hkeep1⟩ :
      ∃ s1 old1, (if empty rhs s then clear fuel self s else (.ok (), s)) = (.ok (), s1) ∧
        IsList s1 self old1 ∧ s1.WF ∧ s1.brk = s.brk ∧ Frame (self :: old.map Prod.fst) s s1 ∧
        old1.length ≤ fuel ∧ (∀ a ∈ old1.map Prod.fst, a ∈ old.map Prod.fst) ∧
        (src ≠ [] → s1 = s ∧ old1 = old) := by
    by_cases hsrc : src = []
    · obtain ⟨s1, hc, hl, hwf, hbrk, hfr, _⟩ := clear_spec hs hself hf1
      have he : empty rhs s = true := by simp [empty, hrhs.2.2, hsrc]
      exact ⟨s1, [], by simp [he, hc], hl, hwf, hbrk, hfr, by simp, by simp,
        fun h => absurd hsrc h⟩
    · have he : empty rhs s = false := by simp [empty, hrhs.2.2, hsrc]
      exact ⟨s, old, by simp [he], hself, hs, rfl, Frame.refl _ _, hf1, fun _ h => h,
        fun _ => ⟨rfl, rfl⟩⟩
  have hrhs1 : IsList s1 rhs src := IsList.frame hs hrhs hfr1 (fun a ha h => hdisj a h ha)
  have hself1lt := hself1.below_brk hs1
  have hrhs1lt := hrhs1.below_brk hs1
  -- `SingleLinkedList rhs_copy(rhs);`
  obtain ⟨r2, s2, h2, hs2, hfr2, hout⟩ := ctor_copy_spec copy_ctor hs1 hrhs1 hf2
  have hrhs2 : IsList s2 rhs src := IsList.frame hs1 hrhs1 hfr2 (by simp)
  have hself2 : IsList s2 self old1 := IsList.frame hs1 hself1 hfr2 (by simp)
  rcases hout with ⟨hr, cs, hcopy, hfresh, hall⟩ | ⟨hr, hex⟩
  · subst hr
    -- `swap(rhs_copy);`
    obtain ⟨s3, h3, hself3, hcopy3, hs3, hbrk3, hfr3⟩ := swap_spec hs2 hself2 hcopy
      (fun x hx h => by
        have h1 := hself1lt x hx
        rcases List.mem_cons.1 h with h | h
        · omega
        · rcases List.mem_map.1 h with ⟨c, hc, rfl⟩
          have := hfresh c hc
          omega)
    have hrhs3 : IsList s3 rhs src := IsList.frame hs2 hrhs2 hfr3 (fun a ha h => by
      have h1 := hrhs1lt a ha
      simp only [List.mem_cons, List.mem_singleton, List.not_mem_nil, or_false] at h
      rcases h with h | h
      · exact hdisj self (List.mem_cons_self _ _) (h ▸ ha)
      · omega)
    -- the destructor of `rhs_copy`
    obtain ⟨s4, h4, hs4, hbrk4, hfr4⟩ := dtor_spec hs3 hcopy3 hlen1
    have hnd1 := hself1.2.1
    simp only [List.nodup_cons] at hnd1
    have hself4 : IsList s4 self cs := IsList.frame hs3 hself3 hfr4 (fun a ha h => by
      rcases List.mem_cons.1 ha with ha | ha <;> rcases List.mem_cons.1 h with h | h
      · have := hself1lt self (List.mem_cons_self _ _)
        omega
      · exact hnd1.1 (ha ▸ h)
      · exact (List.nodup_cons.1 hcopy.2.1).1 (h ▸ ha)
      · rcases List.mem_map.1 ha with ⟨c, hc, rfl⟩
        have h5 := hfresh c hc
        have h6 := hself1lt c.1 (List.mem_cons_of_mem _ h)
        omega)
    have hrhs4 : IsList s4 rhs src := IsList.frame hs3 hrhs3 hfr4 (fun a ha h => by
      have h1 := hrhs1lt a ha
      rcases List.mem_cons.1 h with h | h
      · omega
      · exact hdisj a (List.mem_cons_of_mem _ (hsub1 a h)) ha)
    refine ⟨.ok self, s4, ?_, hs4, hrhs4, ?_, Or.inl ⟨rfl, cs, hself4, fun c hc => by
      have := hfresh c hc
      omega, hall⟩⟩
    · simp only [operator_assign, hne, ne_eq, not_false_eq_true, if_true, h1, h2, h3, h4]
    · refine Frame.trans (Frame.trans (Frame.trans hfr1 hfr2 (by simp)) hfr3 (fun a ha => ?_))
        hfr4 (fun a ha => ?_)
      · simp only [List.mem_cons, List.mem_singleton, List.not_mem_nil, or_false] at ha
        rcases ha with h | h
        · exact Or.inl (h ▸ List.mem_cons_self _ _)
        · exact Or.inr (by omega)
      · rcases List.mem_cons.1 ha with h | h
        · exact Or.inr (by omega)
        · exact Or.inl (List.mem_cons_of_mem _ (hsub1 a h))
  · subst hr
    have hsrc : src ≠ [] := by
      rintro rfl
      simp at hex
    obtain ⟨e1, e2⟩ := hkeep1 hsrc
    subst e1
    subst e2
    refine ⟨.error .bad_alloc, s2, ?_, hs2, hrhs2, Frame.mono hfr2 (by simp),
      Or.inr ⟨rfl, hex, hself2⟩⟩
    simp only [operator_assign, hne, ne_eq, not_false_eq_true, if_true, h1, h2]

theorem operator_assign_spec {α : Type} [Inhabited α] (copy_ctor : α → Option α) {s : Memory α}
    {self rhs : Nat} {old src : List (Nat × α)} {fuel : Nat}
    (hs : s.WF) (hself : IsList s self old) (hrhs : IsList s rhs src)
    (hdisj : ∀ x ∈ self :: old.map Prod.fst, x ∉ rhs :: src.map Prod.fst)
    (hf1 : old.length ≤ fuel) (hf2 : src.length ≤ fuel) :
    ∃ r t, operator_assign copy_ctor fuel self rhs s = (r, t) ∧ t.WF ∧ IsList t rhs src ∧
      ((r = .ok self ∧ ∃ cs, IsList t self cs ∧
          List.Forall₂ (fun c x => copy_ctor x = some c.2) cs (src.map Prod.snd)) ∨
        (r = .error .bad_alloc ∧ (∃ x ∈ src.map Prod.snd, copy_ctor x = none) ∧
          IsList t self old)) := by
  obtain ⟨r, t, h, hwf, hrhs2, _, hout⟩ :=
    operator_assign_full copy_ctor hs hself hrhs hdisj hf1 hf2
  refine ⟨r, t, h, hwf, hrhs2, ?_⟩
  rcases hout with ⟨hr, cs, hl, _, hall⟩ | hthrow
  · exact Or.inl ⟨hr, cs, hl, hall⟩
  · exact Or.inr hthrow

theorem copies_map_snd {α : Type} {copy_ctor : α → Option α} :
    ∀ {cs : List (Nat × α)} {vals : List α},
      List.Forall₂ (fun c x => copy_ctor x = some c.2) cs vals →
      (∀ x ∈ vals, copy_ctor x = some x) → cs.map Prod.snd = vals
  | _, _, List.Forall₂.nil, _ => rfl
  | _, _, List.Forall₂.cons (a := c) (b := x) h hrest, hall => by
    have h1 := hall x (List.mem_cons_self _ _)
    rw [h] at h1
    cases h1
    simp [copies_map_snd hrest (fun y hy => hall y (List.mem_cons_of_mem _ hy))]

theorem copies_no_throw {α : Type} {copy_ctor : α → Option α} :
    ∀ {cs : List (Nat × α)} {vals : List α},
      List.Forall₂ (fun c x => copy_ctor x = some c.2) cs vals →
      ∀ x ∈ vals, copy_ctor x ≠ none
  | _, _, List.Forall₂.nil, x, hx => by simp at hx
  | _, _, List.Forall₂.cons (a := c) (b := y) h hrest, x, hx => by
    rcases List.mem_cons.1 hx with rfl | hx
    · rw [h]; simp
    · exact copies_no_throw hrest x hx

theorem IsList.advance_eq {α : Type} {s : Memory α} {l : Nat} {cs : List (Nat × α)}
    (h : IsList s l cs) {k : Nat} (hk : k ≤ cs.length + 1) :
    advance k (before_begin l) s = .ok ⟨(l :: cs.map Prod.fst)[k]?⟩ := by
  obtain ⟨⟨hv, hch⟩, _, _⟩ := h
  have hsplit : ((l, hv) :: cs).take k ++ ((l, hv) :: cs).drop k = (l, hv) :: cs :=
    List.take_append_drop _ _
  rw [← hsplit] at hch
  have := advance_chain (((l, hv) :: cs).take k) hch
  have hlen : (((l, hv) :: cs).take k).length = k := by
    simp only [List.length_take, List.length_cons]
    omega
  rw [hlen] at this
  rw [before_begin, this, List.head?_drop]
  simp [List.getElem?_map]
  cases k <;> simp [List.getElem?_map]

theorem push_front_all_spec {α : Type} (copy_ctor : α → Option α) {l : Nat} :
    ∀ (vs : List α) (s : Memory α) (cs : List (Nat × α)),
      s.WF → IsList s l cs → (∀ x ∈ vs, copy_ctor x = some x) →
      ∃ t cs2, push_front_all copy_ctor l vs s = (.ok (), t) ∧ IsList t l (cs2 ++ cs) ∧ t.WF ∧
        cs2.map Prod.snd = vs.reverse
  | [], s, cs, hs, hl, _ => ⟨s, [], rfl, by simpa using hl, hs, rfl⟩
  | v :: vs, s, cs, hs, hl, hc => by
    obtain ⟨s1, h1, hl1, hs1, _, _⟩ := push_front_spec hs hl (hc v (List.mem_cons_self _ _))
    obtain ⟨t, cs2, h2, hl2, hs2, hmap⟩ := push_front_all_spec copy_ctor vs s1 _ hs1 hl1
      (fun x hx => hc x (List.mem_cons_of_mem _ hx))
    refine ⟨t, cs2 ++ [(s.brk, v)], ?_, by simpa using hl2, hs2, by simp [hmap]⟩
    simp [push_front_all, h1, h2]

/-! ## The example memories -/

theorem Memory.init_WF {α : Type} : (Memory.init : Memory α).WF := fun _ _ => rfl

theorem ctor_il_WF {α : Type} [Inhabited α] (copy_ctor : α → Option α) (fuel : Nat)
    (vals : List α) {s : Memory α} (hs : s.WF) (hc : ∀ x ∈ vals, copy_ctor x = some x) :
    (ctor_il copy_ctor fuel vals s).2.WF := by
  obtain ⟨r, t, h, hwf, _⟩ := ctor_il_spec copy_ctor fuel vals hs
    (fun ⟨x, hx, hn⟩ => by rw [hc x hx] at hn; cases hn)
  rw [h]
  exact hwf

theorem ex_numbers_WF : ex_numbers.WF :=
  ctor_il_WF some 0 _ Memory.init_WF (fun _ _ => rfl)

theorem ex_numbers_isList :
    IsList ex_numbers 0 [(2, 3), (3, 14), (4, 15), (5, 92), (6, 6)] :=
  ⟨⟨0, rfl, some 2, rfl, rfl, some 3, rfl, rfl, some 4, rfl, rfl, some 5, rfl, rfl, some 6, rfl,
    rfl, none, rfl, rfl⟩, by decide, rfl⟩

theorem eraseIdx_map {α β : Type} (f : α → β) :
    ∀ (l : List α) (k : Nat), (l.eraseIdx k).map f = (l.map f).eraseIdx k
  | [], _ => rfl
  | _ :: _, 0 => rfl
  | a :: l, k + 1 => by simp [eraseIdx_map f l k]

/-- The two assertions of `erase`: an empty list, or `pos` equal to `end()`, fails
the assertion and leaves the memory as it was. -/
theorem erase_asserts {α : Type} (s : Memory α) (l : Nat) (pos : BasicIterator)
    (h : size l s = 0 ∨ pos = end_ l) : erase l pos s = (.error .assertion, s) := by
  rcases h with h | h
  · have h0 : s.size_ l = 0 := h
    simp [erase, empty, h0]
  · subst h
    by_cases h0 : s.size_ l = 0
    · simp [erase, empty, h0]
    · simp [erase, empty, h0, end_]

/-- On every non-empty list, `erase` at the position of the last real node passes
the assertions and reads through a null pointer. -/
theorem erase_last_invalid_access {α : Type} (s : Memory α) (l q : Nat) (cs : List (Nat × α))
    (hl : IsList s l cs) (hne : cs ≠ [])
    (hq : (l :: cs.map Prod.fst)[cs.length]? = some q) :
    erase l ⟨some q⟩ s = (.error .invalid_access, s) := by
  obtain ⟨nq, hnq⟩ := hl.nodes_live q (List.getElem?_mem hq)
  obtain ⟨⟨hv, hch⟩, _, hsz⟩ := hl
  have hnx : nq.next_node = none := by
    rw [Chain.next_eq cs.length hch (by simpa using hq) hnq]
    simp
  have h0 : s.size_ l ≠ 0 := by
    rw [hsz]
    exact fun h => hne (List.length_eq_zero.1 h)
  simp [erase, empty, h0, hnq, hnx]

theorem ex_two_WF : ex_two.WF :=
  ctor_il_WF some 0 _ (ctor_il_WF some 0 _ Memory.init_WF (fun _ _ => rfl)) (fun _ _ => rfl)

theorem ex_two_source : IsList ex_two 0 [(2, 1), (3, 2), (4, 3), (5, 4)] :=
  ⟨⟨0, rfl, some 2, rfl, rfl, some 3, rfl, rfl, some 4, rfl, rfl, some 5, rfl, rfl, none, rfl,
    rfl⟩, by decide, rfl⟩

theorem ex_two_receiver : IsList ex_two 6 [(8, 5), (9, 4), (10, 3), (11, 2), (12, 1)] :=
  ⟨⟨0, rfl, some 8, rfl, rfl, some 9, rfl, rfl, some 10, rfl, rfl, some 11, rfl, rfl, some 12,
    rfl, rfl, none, rfl, rfl⟩, by decide, rfl⟩

theorem ex_throw_WF : ex_throw.WF :=
  ctor_il_WF some 0 _ (ctor_il_WF some 0 _ Memory.init_WF (fun _ _ => rfl)) (fun _ _ => rfl)

theorem ex_throw_src : IsList ex_throw 0 [(2, none), (3, some 0), (4, none)] :=
  ⟨⟨none, rfl, some 2, rfl, rfl, some 3, rfl, rfl, some 4, rfl, rfl, none, rfl, rfl⟩,
    by decide, rfl⟩

theorem ex_throw_dst : IsList ex_throw 5 [(7, none), (8, some 10)] :=
  ⟨⟨none, rfl, some 7, rfl, rfl, some 8, rfl, rfl, none, rfl, rfl⟩, by decide, rfl⟩

/-- In `custom_list.h`, two lists of equal `size()` compare equal whatever they
hold: the second disjunct of `operator==` decides before any element is read. -/
theorem operator_eq_of_equal_sizes {α : Type} [DecidableEq α] (fuel : Nat) (lhs rhs : Nat)
    (s : Memory α) (h : size lhs s = size rhs s) :
    operator_eq fuel lhs rhs s = .ok true ∧ operator_ne fuel lhs rhs s = .ok false := by
  have h1 : operator_eq fuel lhs rhs s = .ok true := by
    by_cases hlr : lhs = rhs
    · simp [operator_eq, hlr]
    · simp [operator_eq, hlr, h]
  exact ⟨h1, by simp [operator_ne, h1]⟩

theorem ex_order_WF : ex_order.WF :=
  (ctor_default_spec (ctor_il_WF some 0 _ (ctor_il_WF some 0 _
    (ctor_il_WF some 0 _ Memory.init_WF (fun _ _ => rfl)) (fun _ _ => rfl))
    (fun _ _ => rfl))).2.2.1

theorem ex_order_first : IsList ex_order 0 [(2, 1), (3, 2), (4, 3)] :=
  ⟨⟨0, rfl, some 2, rfl, rfl, some 3, rfl, rfl, some 4, rfl, rfl, none, rfl, rfl⟩,
    by decide, rfl⟩

theorem ex_order_second : IsList ex_order 5 [(7, 1), (8, 2), (9, 3), (10, 1)] :=
  ⟨⟨0, rfl, some 7, rfl, rfl, some 8, rfl, rfl, some 9, rfl, rfl, some 10, rfl, rfl, none, rfl,
    rfl⟩, by decide, rfl⟩

theorem ex_order_third : IsList ex_order 11 [(13, 1), (14, 2), (15, 4)] :=
  ⟨⟨0, rfl, some 13, rfl, rfl, some 14, rfl, rfl, some 15, rfl, rfl, none, rfl, rfl⟩,
    by decide, rfl⟩

theorem ex_order_empty : IsList ex_order 16 [] :=
  ⟨⟨0, rfl, none, rfl, rfl⟩, by decide, rfl⟩

/-- The loop of `std::equal(first1, last1, first2)` on two chains: it stops at the
end of the first chain only, so it answers `true` when the first sequence is a
prefix of the second and dereferences `nullptr` (a failed assertion of
`operator*`) when the second sequence ends first. -/
theorem std_equal_chain {α : Type} [DecidableEq α] {s : Memory α} :
    ∀ {xs ys : List (Nat × α)} {p q : Option Nat} (fuel : Nat),
      Chain s.node p xs → Chain s.node q ys → xs.length ≤ fuel →
      std_equal fuel ⟨p⟩ ⟨none⟩ ⟨q⟩ s =
        if xs.map Prod.snd <+: ys.map Prod.snd then .ok true
        else if ys.map Prod.snd <+: xs.map Prod.snd then .error .assertion
        else .ok false
  | [], ys, p, q, fuel, hx, _, _ => by
    have hp : p = none := hx
    subst hp
    unfold std_equal
    simp [BasicIterator.operator_ne]
  | x :: xs, [], p, q, 0, _, _, hf => by simp at hf
  | x :: xs, [], p, q, fuel + 1, ⟨hp, nx, hn, _⟩, hy, _ => by
    have hq : q = none := hy
    subst hp
    subst hq
    unfold std_equal
    simp [BasicIterator.operator_ne, BasicIterator.operator_deref, hn]
  | x :: xs, y :: ys, p, q, 0, _, _, hf => by simp at hf
  | x :: xs, y :: ys, p, q, fuel + 1, ⟨hp, nx, hn, hxr⟩, ⟨hq, ny, hm, hyr⟩, hf => by
    subst hp
    subst hq
    have ih := std_equal_chain fuel hxr hyr (by simpa using hf)
    unfold std_equal
    by_cases hxy : x.2 = y.2
    · simp [BasicIterator.operator_ne, BasicIterator.operator_deref,
        BasicIterator.operator_inc, hn, hm, hxy, ih, List.prefix_cons_inj]
    · have h1 : ¬ (x.2 :: xs.map Prod.snd <+: y.2 :: ys.map Prod.snd) := by
        intro h
        exact hxy (List.cons_prefix_cons.1 h).1
      have h2 : ¬ (y.2 :: ys.map Prod.snd <+: x.2 :: xs.map Prod.snd) := by
        intro h
        exact hxy (List.cons_prefix_cons.1 h).1.symm
      simp [BasicIterator.operator_ne, BasicIterator.operator_deref, hn, hm, hxy, h1, h2]

/-- The loop of `std::lexicographical_compare` on two chains computes `lex_loop` of
the two sequences of values. -/
theorem std_lexicographical_compare_chain {α : Type} [LT α]
    [DecidableRel (fun (a b : α) => a < b)] {s : Memory α} :
    ∀ {xs ys : List (Nat × α)} {p q : Option Nat} (fuel : Nat),
      Chain s.node p xs → Chain s.node q ys → min xs.length ys.length ≤ fuel →
      std_lexicographical_compare fuel ⟨p⟩ ⟨none⟩ ⟨q⟩ ⟨none⟩ s =
        .ok (lex_loop (xs.map Prod.snd) (ys.map Prod.snd))
  | [], [], p, q, fuel, hx, hy, _ => by
    have hp : p = none := hx
    have hq : q = none := hy
    subst hp
    subst hq
    unfold std_lexicographical_compare
    simp [BasicIterator.operator_ne, BasicIterator.operator_eq, lex_loop]
  | [], y :: ys, p, q, fuel, hx, ⟨hq, _⟩, _ => by
    have hp : p = none := hx
    subst hp
    subst hq
    unfold std_lexicographical_compare
    simp [BasicIterator.operator_ne, BasicIterator.operator_eq, lex_loop]
  | x :: xs, [], p, q, fuel, ⟨hp, _⟩, hy, _ => by
    have hq : q = none := hy
    subst hp
    subst hq
    unfold std_lexicographical_compare
    simp [BasicIterator.operator_ne, BasicIterator.operator_eq, lex_loop]
  | x :: xs, y :: ys, p, q, 0, _, _, hf => by simp at hf
  | x :: xs, y :: ys, p, q, fuel + 1, ⟨hp, nx, hn, hxr⟩, ⟨hq, ny, hm, hyr⟩, hf => by
    subst hp
    subst hq
    have ih := std_lexicographical_compare_chain fuel hxr hyr (by
      simp only [List.length_cons] at hf
      omega)
    unfold std_lexicographical_compare
    by_cases h1 : x.2 < y.2
    · simp [BasicIterator.operator_ne, BasicIterator.operator_deref, hn, hm, h1, lex_loop]
    · by_cases h2 : y.2 < x.2
      · simp [BasicIterator.operator_ne, BasicIterator.operator_deref, hn, hm, h1, h2, lex_loop]
      · simp [BasicIterator.operator_ne, BasicIterator.operator_deref,
          BasicIterator.operator_inc, hn, hm, h1, h2, lex_loop, ih]

/-- On a totally ordered element type the loop of `std::lexicographical_compare`
decides the lexicographic order as the specification words it. -/
theorem lex_loop_iff {α : Type} [LinearOrder α] :
    ∀ (a b : List α), lex_loop a b = true ↔ LexLess a b
  | [], [] => by
    simp only [lex_loop, LexLess, Bool.false_eq_true, false_iff, not_or, not_exists]
    refine ⟨fun c hc => hc.1 (by simpa using hc.2.symm), fun p x y u v h => ?_⟩
    have := congrArg List.length h.1
    simp only [List.length_nil, List.length_append, List.length_cons] at this
    omega
  | [], y :: ys => by
    simp only [lex_loop, true_iff]
    exact Or.inl ⟨y :: ys, by simp, by simp⟩
  | x :: xs, [] => by
    simp only [lex_loop, LexLess, Bool.false_eq_true, false_iff, not_or, not_exists]
    refine ⟨fun c hc => by simpa using hc.2, fun p x y u v h => ?_⟩
    have := congrArg List.length h.2.1
    simp only [List.length_nil, List.length_append, List.length_cons] at this
    omega
  | x :: xs, y :: ys => by
    have ih := lex_loop_iff xs ys
    by_cases h1 : x < y
    · simp only [lex_loop, h1, if_true, true_iff]
      exact Or.inr ⟨[], x, y, xs, ys, rfl, rfl, ne_of_lt h1, h1⟩
    · by_cases h2 : y < x
      · simp only [lex_loop, h1, h2, if_true, if_false, Bool.false_eq_true, false_iff]
        rintro (⟨c, _, hc⟩ | ⟨p, x2, y2, u, v, ha, hb, hne, hlt⟩)
        · have : y = x := by simpa using (List.cons.inj hc).1
          exact absurd h2 (this ▸ lt_irrefl _)
        · cases p with
          | nil =>
            simp only [List.nil_append, List.cons.injEq] at ha hb
            exact h1 (ha.1 ▸ hb.1 ▸ hlt)
          | cons z p =>
            simp only [List.cons_append, List.cons.injEq] at ha hb
            exact absurd h2 (ha.1 ▸ hb.1 ▸ lt_irrefl _)
      · have hxy : x = y := le_antisymm (not_lt.1 h2) (not_lt.1 h1)
        subst hxy
        simp only [lex_loop, h1, if_false, ih]
        constructor
        · rintro (⟨c, hc, hb⟩ | ⟨p, x2, y2, u, v, ha, hb, hne, hlt⟩)
          · exact Or.inl ⟨c, hc, by simp [hb]⟩
          · exact Or.inr ⟨x :: p, x2, y2, u, v, by simp [ha], by simp [hb], hne, hlt⟩
        · rintro (⟨c, hc, hb⟩ | ⟨p, x2, y2, u, v, ha, hb, hne, hlt⟩)
          · exact Or.inl ⟨c, hc, by simpa using hb⟩
          · cases p with
            | nil =>
              simp only [List.nil_append, List.cons.injEq] at ha hb
              exact absurd (ha.1.symm.trans hb.1) hne
            | cons z p =>
              simp only [List.cons_append, List.cons.injEq] at ha hb
              exact Or.inr ⟨p, x2, y2, u, v, ha.2, hb.2, hne, hlt⟩

/-- On a totally ordered element type, `b` is not below `a` exactly when `a` is
below `b` or the two sequences are equal. -/
theorem lex_loop_not_gt {α : Type} [LinearOrder α] :
    ∀ (a b : List α), lex_loop b a = false ↔ (lex_loop a b = true ∨ a = b)
  | [], [] => by simp [lex_loop]
  | [], y :: ys => by simp [lex_loop]
  | x :: xs, [] => by simp [lex_loop]
  | x :: xs, y :: ys => by
    have ih := lex_loop_not_gt xs ys
    by_cases h1 : x < y
    · have h2 : ¬ y < x := not_lt.2 (le_of_lt h1)
      simp [lex_loop, h1, h2]
    · by_cases h2 : y < x
      · have hne : x ≠ y := fun h => absurd h2 (h ▸ lt_irrefl _)
        simp [lex_loop, h1, h2, hne]
      · have hxy : x = y := le_antisymm (not_lt.1 h2) (not_lt.1 h1)
        subst hxy
        simp [lex_loop, h1, ih]

theorem IsList.begin_eq {α : Type} {s : Memory α} {l : Nat} {cs : List (Nat × α)}
    (h : IsList s l cs) : begin l s = .ok ⟨cs.head?.map Prod.fst⟩ := by
  obtain ⟨hd, hn, hch⟩ := h.head_live
  simp [begin, hn, Chain.head_eq hch]

theorem operator_lt_spec {α : Type} [LT α] [DecidableRel (fun (a b : α) => a < b)]
    {s : Memory α} {a b : Nat} {ca cb : List (Nat × α)} {fuel : Nat}
    (ha : IsList s a ca) (hb : IsList s b cb) (hf : min ca.length cb.length ≤ fuel) :
    operator_lt fuel a b s = .ok (lex_loop (ca.map Prod.snd) (cb.map Prod.snd)) := by
  obtain ⟨hda, hna, hcha⟩ := ha.head_live
  obtain ⟨hdb, hnb, hchb⟩ := hb.head_live
  simp [operator_lt, begin, hna, hnb, end_, std_lexicographical_compare_chain fuel hcha hchb hf]

/-- Header `operator==` on two distinct well-formed lists of different sizes is the
loop of `std::equal`: `true` when the left list is a prefix of the right one, a
failed assertion when the right list is a proper prefix of the left one. -/
theorem operator_eq_of_different_sizes {α : Type} [DecidableEq α] {s : Memory α} {a b : Nat}
    {ca cb : List (Nat × α)} {fuel : Nat} (ha : IsList s a ca) (hb : IsList s b cb)
    (hne : ca.length ≠ cb.length) (hf : ca.length ≤ fuel) :
    operator_eq fuel a b s =
      if ca.map Prod.snd <+: cb.map Prod.snd then .ok true
      else if cb.map Prod.snd <+: ca.map Prod.snd then .error .assertion
      else .ok false := by
  obtain ⟨hda, hna, hcha⟩ := ha.head_live
  obtain ⟨hdb, hnb, hchb⟩ := hb.head_live
  have hab : a ≠ b := by
    rintro rfl
    have h1 := ha.2.2
    rw [hb.2.2] at h1
    exact hne h1.symm
  have hsz : size a s ≠ size b s := by
    rw [ha.size_eq, hb.size_eq]
    exact hne
  simp only [operator_eq, hab, if_false, hsz, begin, hna, hnb, end_,
    std_equal_chain fuel hcha hchb hf]
  split_ifs <;> rfl

/-- Reflexivity of header `operator==`, and equality of two lists holding the same
sequence. -/
theorem operator_eq_refl_and_same {α : Type} [DecidableEq α] (s : Memory α) (a b : Nat)
    (ca cb : List (Nat × α)) (fuel : Nat) (ha : IsList s a ca) (hb : IsList s b cb)
    (hsame : ca.map Prod.snd = cb.map Prod.snd) :
    operator_eq fuel a a s = .ok true ∧ operator_eq fuel a b s = .ok true ∧
      operator_eq fuel b a s = .ok true := by
  have hlen : ca.length = cb.length := by
    have := congrArg List.length hsame
    simpa using this
  have hsz : size a s = size b s := by rw [ha.size_eq, hb.size_eq, hlen]
  exact ⟨by simp [operator_eq], (operator_eq_of_equal_sizes fuel a b s hsz).1,
    (operator_eq_of_equal_sizes fuel b a s hsz.symm).1⟩

theorem push_front_all_grows {α : Type} (copy_ctor : α → Option α) {l : Nat} :
    ∀ (vs : List α) (s : Memory α) (cs : List (Nat × α)),
      s.WF → IsList s l cs → (∀ x ∈ vs, copy_ctor x ≠ none) →
      ∃ t cs2, push_front_all copy_ctor l vs s = (.ok (), t) ∧ IsList t l (cs2 ++ cs) ∧ t.WF ∧
        cs2.length = vs.length
  | [], s, cs, hs, hl, _ => ⟨s, [], rfl, by simpa using hl, hs, rfl⟩
  | v :: vs, s, cs, hs, hl, hc => by
    obtain ⟨w, hw⟩ := Option.ne_none_iff_exists'.1 (hc v (List.mem_cons_self _ _))
    obtain ⟨s1, h1, hl1, hs1, _, _⟩ := push_front_spec hs hl hw
    obtain ⟨t, cs2, h2, hl2, hs2, hlen⟩ := push_front_all_grows copy_ctor vs s1 _ hs1 hl1
      (fun x hx => hc x (List.mem_cons_of_mem _ hx))
    refine ⟨t, cs2 ++ [(s.brk, w)], ?_, by simpa using hl2, hs2, by simp [hlen]⟩
    simp [push_front_all, h1, h2]

theorem pop_front_n_spec {α : Type} {l : Nat} {cs : List (Nat × α)} :
    ∀ (cs2 : List (Nat × α)) (s : Memory α), s.WF → IsList s l (cs2 ++ cs) →
      ∃ u, pop_front_n l cs2.length s = (.ok (), u) ∧ IsList u l cs ∧ u.WF
  | [], s, hs, hl => ⟨s, rfl, by simpa using hl, hs⟩
  | c :: cs2, s, hs, hl => by
    obtain ⟨s1, h1, hl1, hs1, _, _, _⟩ := pop_front_spec hs hl
    obtain ⟨u, h2, hl2, hs2⟩ := pop_front_n_spec cs2 s1 hs1 hl1
    exact ⟨u, by simp [pop_front_n, h1, h2], hl2, hs2⟩

theorem advance_mem {α : Type} {s : Memory α} {pos : BasicIterator} :
    ∀ (k : Nat) {cs : List (Nat × α)} {p : Option Nat}, Chain s.node p cs →
      advance k ⟨p⟩ s = .ok pos → pos.node_ = none ∨ ∃ a ∈ cs.map Prod.fst, pos.node_ = some a
  | 0, cs, p, hch, h => by
    simp only [advance, Except.ok.injEq] at h
    subst h
    cases cs with
    | nil => exact Or.inl hch
    | cons c cs => exact Or.inr ⟨c.1, by simp, hch.1⟩
  | k + 1, [], p, hch, h => by
    have hp : p = none := hch
    subst hp
    simp [advance, BasicIterator.operator_inc] at h
  | k + 1, c :: cs, p, ⟨hp, nx, hn, hrest⟩, h => by
    subst hp
    simp only [advance, BasicIterator.operator_inc, hn] at h
    rcases advance_mem k hrest h with h1 | ⟨a, ha, h1⟩
    · exact Or.inl h1
    · exact Or.inr ⟨a, by simp only [List.map_cons, List.mem_cons]; exact Or.inr ha, h1⟩

theorem IsList.advance_pos {α : Type} {s : Memory α} {l : Nat} {cs : List (Nat × α)}
    (h : IsList s l cs) {k : Nat} {pos : BasicIterator}
    (hpos : advance k (before_begin l) s = .ok pos) :
    pos = ⟨none⟩ ∨ ∃ (j : Nat) (q : Nat), (l :: cs.map Prod.fst)[j]? = some q ∧ pos = ⟨some q⟩ := by
  obtain ⟨⟨hv, hch⟩, _, _⟩ := h
  rcases advance_mem k hch hpos with h1 | ⟨a, ha, h1⟩
  · left
    cases pos
    simpa using h1
  · right
    obtain ⟨j, hj⟩ := List.getElem?_of_mem (by simpa using ha : a ∈ l :: cs.map Prod.fst)
    refine ⟨j, a, hj, ?_⟩
    cases pos
    simpa using h1

theorem swap_self {α : Type} {s : Memory α} {a : Nat} {ca : List (Nat × α)}
    (hs : s.WF) (ha : IsList s a ca) :
    ∃ t, swap a a s = (.ok (), t) ∧ IsList t a ca ∧ t.WF ∧ Frame [a] s t := by
  obtain ⟨hd, hn, hch⟩ := ha.head_live
  obtain ⟨_, hnd, hsz⟩ := ha
  simp only [List.nodup_cons] at hnd
  simp [swap, hn, Memory.set_next]
  refine ⟨⟨⟨hd.value, rfl, hd.next_node, by simp, ?_⟩, List.nodup_cons.2 hnd, by simp [hsz]⟩,
    ?_, ?_⟩
  · refine Chain.congr hch (fun c hc => ?_)
    have h1 : c.1 ≠ a := fun h => hnd.1 (h ▸ List.mem_map_of_mem Prod.fst hc)
    simp [h1]
  · intro x hx
    have hx0 : s.brk ≤ x := hx
    have := hs x hx0
    simp only [set_size_node, set_node_node]
    split
    · rename_i h
      rw [h] at this
      rw [hn] at this
      cases this
    · exact this
  · refine ⟨Nat.le_refl _, fun x hx _ => ?_⟩
    simp only [List.mem_singleton] at hx
    simp [hx]

theorem Inv.of_frame {α : Type} {s t : Memory α} {ls : List Nat} (hinv : Inv s ls)
    (hfr : Frame [] s t) (hwf : t.WF) : Inv t ls := by
  obtain ⟨hs, cs, hall, hdisj⟩ := hinv
  exact ⟨hwf, cs, fun l hl => IsList.frame hs (hall l hl) hfr (by simp), hdisj⟩

theorem Inv.new {α : Type} {s t : Memory α} {ls : List Nat} {l : Nat} {cl : List (Nat × α)}
    (hinv : Inv s ls) (hfr : Frame [] s t) (hwf : t.WF) (hl : IsList t l cl)
    (hfresh : s.brk ≤ l) (hfresh2 : ∀ c ∈ cl, s.brk ≤ c.1) : Inv t (l :: ls) := by
  obtain ⟨hs, cs, hall, hdisj⟩ := hinv
  have hlt : ∀ m ∈ ls, ∀ x ∈ m :: (cs m).map Prod.fst, x < s.brk :=
    fun m hm => (hall m hm).below_brk hs
  have hnew : ∀ x ∈ l :: cl.map Prod.fst, s.brk ≤ x := by
    intro x hx
    rcases List.mem_cons.1 hx with h | h
    · omega
    · rcases List.mem_map.1 h with ⟨c, hc, rfl⟩
      exact hfresh2 c hc
  have hlnot : l ∉ ls := fun h => by
    have := hlt l h l (List.mem_cons_self _ _)
    omega
  have hne : ∀ m ∈ ls, m ≠ l := fun m hm h => hlnot (h ▸ hm)
  refine ⟨hwf, Function.update cs l cl, ?_, ?_⟩
  · intro m hm
    by_cases hml : m = l
    · subst hml
      simpa using hl
    · have hm2 : m ∈ ls := (List.mem_cons.1 hm).resolve_left hml
      rw [Function.update_noteq hml]
      exact IsList.frame hs (hall m hm2) hfr (by simp)
  · intro m hm n hn hmn x hx
    by_cases hml : m = l
    · subst hml
      have hnl : n ≠ m := fun h => hmn h.symm
      have hn2 : n ∈ ls := (List.mem_cons.1 hn).resolve_left hnl
      rw [Function.update_same] at hx
      rw [Function.update_noteq hnl]
      intro h
      have h1 := hnew x hx
      have h2 := hlt n hn2 x h
      omega
    · have hm2 : m ∈ ls := (List.mem_cons.1 hm).resolve_left hml
      rw [Function.update_noteq hml] at hx
      by_cases hnl : n = l
      · subst hnl
        rw [Function.update_same]
        intro h
        have h1 := hnew x h
        have h2 := hlt m hm2 x hx
        omega
      · have hn2 : n ∈ ls := (List.mem_cons.1 hn).resolve_left hnl
        rw [Function.update_noteq hnl]
        exact hdisj m hm2 n hn2 hmn x hx

theorem Inv.step {α : Type} {s t : Memory α} {ls : List Nat} {l : Nat}
    {cs : Nat → List (Nat × α)} {cs2 : List (Nat × α)}
    (hs : s.WF) (hall : ∀ m ∈ ls, IsList s m (cs m))
    (hdisj : ∀ m ∈ ls, ∀ n ∈ ls, m ≠ n →
      ∀ x ∈ m :: (cs m).map Prod.fst, x ∉ n :: (cs n).map Prod.fst)
    (hl : l ∈ ls) (hl2 : IsList t l cs2) (hwf : t.WF)
    (hsub : ∀ c ∈ cs2, c.1 ∈ (cs l).map Prod.fst ∨ s.brk ≤ c.1)
    (hfr : Frame (l :: (cs l).map Prod.fst) s t) : Inv t ls := by
  have hlt : ∀ m ∈ ls, ∀ x ∈ m :: (cs m).map Prod.fst, x < s.brk :=
    fun m hm => (hall m hm).below_brk hs
  have hnew : ∀ x ∈ l :: cs2.map Prod.fst, x ∈ l :: (cs l).map Prod.fst ∨ s.brk ≤ x := by
    intro x hx
    rcases List.mem_cons.1 hx with h | h
    · exact Or.inl (h ▸ List.mem_cons_self _ _)
    · rcases List.mem_map.1 h with ⟨c, hc, rfl⟩
      rcases hsub c hc with h1 | h1
      · exact Or.inl (List.mem_cons_of_mem _ h1)
      · exact Or.inr h1
  refine ⟨hwf, Function.update cs l cs2, ?_, ?_⟩
  · intro m hm
    by_cases hml : m = l
    · subst hml
      simpa using hl2
    · rw [Function.update_noteq hml]
      exact IsList.frame hs (hall m hm) hfr (fun a ha h => hdisj m hm l hl hml a ha h)
  · intro m hm n hn hmn x hx
    by_cases hml : m = l
    · subst hml
      have hnl : n ≠ m := fun h => hmn h.symm
      rw [Function.update_same] at hx
      rw [Function.update_noteq hnl]
      intro h
      rcases hnew x hx with h1 | h1
      · exact hdisj m hm n hn hmn x h1 h
      · have := hlt n hn x h
        omega
    · rw [Function.update_noteq hml] at hx
      by_cases hnl : n = l
      · subst hnl
        rw [Function.update_same]
        intro h
        rcases hnew x h with h1 | h1
        · exact hdisj m hm n hn hmn x hx h1
        · have := hlt m hm x hx
          omega
      · rw [Function.update_noteq hnl]
        exact hdisj m hm n hn hmn x hx

theorem Inv.swap_step {α : Type} {s t : Memory α} {ls : List Nat} {a b : Nat}
    (hinv : Inv s ls) (ha : a ∈ ls) (hb : b ∈ ls) (hab : a ≠ b)
    (hsw : swap a b s = (.ok (), t)) : Inv t ls := by
  obtain ⟨hs, cs, hall, hdisj⟩ := hinv
  obtain ⟨t2, h, hA, hB, hwf, _, hfr⟩ :=
    swap_spec hs (hall a ha) (hall b hb) (hdisj a ha b hb hab)
  have ht : t2 = t := by
    rw [h] at hsw
    exact (Prod.mk.inj hsw).2
  subst ht
  have hown : ∀ m ∈ ls, ∀ n ∈ ls, ∀ x, x ∈ m :: (cs m).map Prod.fst →
      x ∈ n :: (cs n).map Prod.fst → m = n := by
    intro m hm n hn x hx1 hx2
    by_contra hmn
    exact hdisj m hm n hn hmn x hx1 hx2
  have hnd : ∀ m ∈ ls, m ∉ (cs m).map Prod.fst :=
    fun m hm => (List.nodup_cons.1 (hall m hm).2.1).1
  have hσmem : ∀ m ∈ ls, (if m = a then b else if m = b then a else m) ∈ ls := by
    intro m hm
    split
    · exact hb
    · split
      · exact ha
      · exact hm
  have hσinj : ∀ m n : Nat, (if m = a then b else if m = b then a else m) =
      (if n = a then b else if n = b then a else n) → m = n := by
    intro m n h
    split_ifs at h <;> omega
  refine ⟨hwf, fun m => cs (if m = a then b else if m = b then a else m), ?_, ?_⟩
  · intro m hm
    by_cases h1 : m = a
    · subst h1
      simpa using hA
    · by_cases h2 : m = b
      · subst h2
        simpa [h1] using hB
      · simp only [h1, h2, if_false]
        refine IsList.frame hs (hall m hm) hfr (fun x hx h => ?_)
        simp only [List.mem_cons, List.mem_singleton, List.not_mem_nil, or_false] at h
        rcases h with h | h
        · exact h1 (hown m hm a ha x hx (h ▸ List.mem_cons_self _ _))
        · exact h2 (hown m hm b hb x hx (h ▸ List.mem_cons_self _ _))
  · intro m hm n hn hmn x hx h
    have hm2 := hσmem m hm
    have hn2 := hσmem n hn
    rcases List.mem_cons.1 hx with hx | hx <;> rcases List.mem_cons.1 h with h | h
    · exact hmn (hx.symm.trans h)
    · have e := hown m hm _ hn2 x (hx ▸ List.mem_cons_self _ _) (List.mem_cons_of_mem _ h)
      beta_reduce at h
      rw [← e] at h
      exact hnd m hm (hx ▸ h)
    · have e := hown n hn _ hm2 x (h ▸ List.mem_cons_self _ _) (List.mem_cons_of_mem _ hx)
      beta_reduce at hx
      rw [← e] at hx
      exact hnd n hn (h ▸ hx)
    · exact hmn (hσinj m n (hown _ hm2 _ hn2 x (List.mem_cons_of_mem _ hx)
        (List.mem_cons_of_mem _ h)))

/-- Every memory a program reaches holds well-formed lists that share no node. -/
theorem inv_of_reachable {α : Type} [Inhabited α] {copy_ctor : α → Option α} {s : Memory α}
    {ls : List Nat} (h : Reachable copy_ctor s ls) : Inv s ls := by
  induction h with
  | init => exact ⟨Memory.init_WF, fun _ => [], by simp, by simp⟩
  | @ctor_default s ls _ ih =>
    obtain ⟨_, hl, hwf, _, hfr⟩ := ctor_default_spec ih.1
    exact Inv.new ih hfr hwf hl (Nat.le_refl _) (by simp)
  | @ctor_il s t ls l fuel vals _ hf hstep ih =>
    obtain ⟨r, t2, h2, hwf, hfr, hout⟩ := ctor_il_spec copy_ctor fuel vals ih.1 (fun _ => hf)
    rw [h2] at hstep
    obtain ⟨hr, ht⟩ := Prod.mk.inj hstep
    subst ht
    rcases hout with ⟨hr2, cs, hl, hfresh, _⟩ | ⟨hr2, _⟩
    · rw [hr2] at hr
      cases hr
      exact Inv.new ih hfr hwf hl (Nat.le_refl _) (fun c hc => Nat.le_of_lt (hfresh c hc))
    · rw [hr2] at hr
      cases hr
  | @ctor_il_throw s t ls fuel vals _ hf hstep ih =>
    obtain ⟨r, t2, h2, hwf, hfr, _⟩ := ctor_il_spec copy_ctor fuel vals ih.1 (fun _ => hf)
    rw [h2] at hstep
    obtain ⟨_, ht⟩ := Prod.mk.inj hstep
    subst ht
    exact Inv.of_frame ih hfr hwf
  | @ctor_copy s t ls l fuel other _ hmem hf hstep ih =>
    obtain ⟨hs, cs, hall, hdisj⟩ := id ih
    have hf2 : (cs other).length ≤ fuel := by
      rw [← (hall other hmem).size_eq]
      exact hf
    obtain ⟨r, t2, h2, hwf, hfr, hout⟩ := ctor_copy_spec copy_ctor hs (hall other hmem) hf2
    rw [h2] at hstep
    obtain ⟨hr, ht⟩ := Prod.mk.inj hstep
    subst ht
    rcases hout with ⟨hr2, cs2, hl, hfresh, _⟩ | ⟨hr2, _⟩
    · rw [hr2] at hr
      cases hr
      exact Inv.new ih hfr hwf hl (Nat.le_refl _) (fun c hc => Nat.le_of_lt (hfresh c hc))
    · rw [hr2] at hr
      cases hr
  | @ctor_copy_throw s t ls fuel other _ hmem hf hstep ih =>
    obtain ⟨hs, cs, hall, hdisj⟩ := id ih
    have hf2 : (cs other).length ≤ fuel := by
      rw [← (hall other hmem).size_eq]
      exact hf
    obtain ⟨r, t2, h2, hwf, hfr, _⟩ := ctor_copy_spec copy_ctor hs (hall other hmem) hf2
    rw [h2] at hstep
    obtain ⟨_, ht⟩ := Prod.mk.inj hstep
    subst ht
    exact Inv.of_frame ih hfr hwf
  | @push_front s t ls l v _ hmem hstep ih =>
    obtain ⟨hs, cs, hall, hdisj⟩ := id ih
    obtain ⟨hd, hn, _⟩ := (hall l hmem).head_live
    cases hc : copy_ctor v with
    | none => simp [push_front, new_Node, hc, hn] at hstep
    | some w =>
      obtain ⟨t2, h2, hl2, hwf, _, hfr⟩ := push_front_spec hs (hall l hmem) hc
      rw [h2] at hstep
      obtain ⟨_, ht⟩ := Prod.mk.inj hstep
      subst ht
      refine Inv.step hs hall hdisj hmem hl2 hwf (fun c hc2 => ?_)
        (Frame.mono hfr (by simp))
      rcases List.mem_cons.1 hc2 with h | h
      · exact Or.inr (by rw [h])
      · exact Or.inl (List.mem_map_of_mem Prod.fst h)
  | @push_front_throw s t ls l v _ hmem hstep ih =>
    obtain ⟨hs, cs, hall, hdisj⟩ := id ih
    obtain ⟨hd, hn, _⟩ := (hall l hmem).head_live
    cases hc : copy_ctor v with
    | none =>
      simp [push_front, new_Node, hc, hn] at hstep
      subst hstep
      exact ih
    | some w =>
      obtain ⟨t2, h2, _⟩ := push_front_spec hs (hall l hmem) hc
      rw [h2] at hstep
      cases (Prod.mk.inj hstep).1
  | @pop_front s t ls l _ hmem hstep ih =>
    obtain ⟨hs, cs, hall, hdisj⟩ := id ih
    have hl := hall l hmem
    cases hcs : cs l with
    | nil =>
      rw [hcs] at hl
      have h0 : s.size_ l = 0 := hl.2.2
      simp [pop_front, empty, h0] at hstep
    | cons c R =>
      rw [hcs] at hl
      obtain ⟨t2, h2, hl2, hwf, _, hfr, _⟩ := pop_front_spec hs hl
      rw [h2] at hstep
      obtain ⟨_, ht⟩ := Prod.mk.inj hstep
      subst ht
      refine Inv.step hs hall hdisj hmem hl2 hwf (fun d hd => Or.inl ?_) (by rw [hcs]; exact hfr)
      rw [hcs]
      exact List.mem_map_of_mem Prod.fst (List.mem_cons_of_mem _ hd)
  | @insert s t ls l k pos r v _ hmem hpos hstep ih =>
    obtain ⟨hs, cs, hall, hdisj⟩ := id ih
    have hl := hall l hmem
    rcases hl.advance_pos hpos with rfl | ⟨j, q, hj, rfl⟩
    · simp [insert] at hstep
    · obtain ⟨nq, hnq⟩ := hl.nodes_live q (List.getElem?_mem hj)
      cases hc : copy_ctor v with
      | none => simp [insert, new_Node, hc, hnq] at hstep
      | some w =>
        obtain ⟨t2, h2, hl2, hwf, _, hfr⟩ := insert_spec hs hl j hj hc
        rw [h2] at hstep
        obtain ⟨_, ht⟩ := Prod.mk.inj hstep
        subst ht
        refine Inv.step hs hall hdisj hmem hl2 hwf (fun c hc2 => ?_) (Frame.mono hfr ?_)
        · rcases List.mem_append.1 hc2 with h | h
          · exact Or.inl (List.mem_map_of_mem Prod.fst (List.mem_of_mem_take h))
          · rcases List.mem_cons.1 h with h | h
            · exact Or.inr (by rw [h])
            · exact Or.inl (List.mem_map_of_mem Prod.fst (List.mem_of_mem_drop h))
        · intro a ha
          simp only [List.mem_cons, List.mem_singleton, List.not_mem_nil, or_false] at ha
          rcases ha with h | h
          · exact h ▸ List.mem_cons_self _ _
          · exact h ▸ List.getElem?_mem hj
  | @insert_throw s t ls l k pos v _ hmem hpos hstep ih =>
    obtain ⟨hs, cs, hall, hdisj⟩ := id ih
    have hl := hall l hmem
    rcases hl.advance_pos hpos with rfl | ⟨j, q, hj, rfl⟩
    · simp [insert] at hstep
    · obtain ⟨nq, hnq⟩ := hl.nodes_live q (List.getElem?_mem hj)
      cases hc : copy_ctor v with
      | none =>
        simp [insert, new_Node, hc, hnq] at hstep
        subst hstep
        exact ih
      | some w =>
        obtain ⟨t2, h2, _⟩ := insert_spec hs hl j hj hc
        rw [h2] at hstep
        cases (Prod.mk.inj hstep).1
  | @erase s t ls l k pos r _ hmem hpos hstep ih =>
    obtain ⟨hs, cs, hall, hdisj⟩ := id ih
    have hl := hall l hmem
    rcases hl.advance_pos hpos with rfl | ⟨j, q, hj, rfl⟩
    · rw [erase_asserts s l ⟨none⟩ (Or.inr rfl)] at hstep
      cases (Prod.mk.inj hstep).1
    · have hjlt : j < (cs l).length + 1 := by
        have := (List.getElem?_eq_some.1 hj).1
        simpa using this
      by_cases hlast : j < (cs l).length
      · obtain ⟨t2, h2, hl2, hwf, _, hfr, _⟩ := erase_spec hs hl j hj hlast
        rw [h2] at hstep
        obtain ⟨_, ht⟩ := Prod.mk.inj hstep
        subst ht
        exact Inv.step hs hall hdisj hmem hl2 hwf
          (fun c hc => Or.inl (List.mem_map_of_mem Prod.fst
            ((List.eraseIdx_sublist _ _).subset hc))) hfr
      · have hjeq : j = (cs l).length := by omega
        subst hjeq
        by_cases hnil : cs l = []
        · rw [erase_asserts s l _ (Or.inl (by rw [hl.size_eq, hnil]; rfl))] at hstep
          cases (Prod.mk.inj hstep).1
        · rw [erase_last_invalid_access s l q _ hl hnil hj] at hstep
          cases (Prod.mk.inj hstep).1
  | @clear s t ls fuel l _ hmem hf hstep ih =>
    obtain ⟨hs, cs, hall, hdisj⟩ := id ih
    have hl := hall l hmem
    have hf2 : (cs l).length ≤ fuel := by
      rw [← hl.size_eq]
      exact hf
    obtain ⟨t2, h2, hl2, hwf, _, hfr, _⟩ := clear_spec hs hl hf2
    rw [h2] at hstep
    obtain ⟨_, ht⟩ := Prod.mk.inj hstep
    subst ht
    exact Inv.step hs hall hdisj hmem hl2 hwf (by simp) hfr
  | @swap s t ls a b _ ha hb hstep ih =>
    by_cases hab : a = b
    · subst hab
      obtain ⟨hs, cs, hall, hdisj⟩ := id ih
      obtain ⟨t2, h2, hl2, hwf, hfr⟩ := swap_self hs (hall a ha)
      rw [h2] at hstep
      obtain ⟨_, ht⟩ := Prod.mk.inj hstep
      subst ht
      exact Inv.step hs hall hdisj ha hl2 hwf
        (fun c hc => Or.inl (List.mem_map_of_mem Prod.fst hc)) (Frame.mono hfr (by simp))
    · exact Inv.swap_step ih ha hb hab hstep
  | @operator_assign s t ls fuel a b r _ ha hb hfa hfb hstep ih =>
    by_cases hab : a = b
    · subst hab
      simp [operator_assign] at hstep
      rw [← hstep.2]
      exact ih
    · obtain ⟨hs, cs, hall, hdisj⟩ := id ih
      have hfa2 : (cs a).length ≤ fuel := by
        rw [← (hall a ha).size_eq]
        exact hfa
      have hfb2 : (cs b).length ≤ fuel := by
        rw [← (hall b hb).size_eq]
        exact hfb
      obtain ⟨r2, t2, h2, hwf, _, hfr, hout⟩ :=
        operator_assign_full copy_ctor hs (hall a ha) (hall b hb) (hdisj a ha b hb hab)
          hfa2 hfb2
      rw [h2] at hstep
      obtain ⟨_, ht⟩ := Prod.mk.inj hstep
      subst ht
      rcases hout with ⟨_, cs2, hl2, hfresh, _⟩ | ⟨_, _, hl2⟩
      · exact Inv.step hs hall hdisj ha hl2 hwf (fun c hc => Or.inr (hfresh c hc)) hfr
      · exact Inv.step hs hall hdisj ha hl2 hwf
          (fun c hc => Or.inl (List.mem_map_of_mem Prod.fst hc)) hfr
  | @operator_assign_throw s t ls fuel a b _ ha hb hfa hfb hstep ih =>
    by_cases hab : a = b
    · subst hab
      simp [operator_assign] at hstep
    · obtain ⟨hs, cs, hall, hdisj⟩ := id ih
      have hfa2 : (cs a).length ≤ fuel := by
        rw [← (hall a ha).size_eq]
        exact hfa
      have hfb2 : (cs b).length ≤ fuel := by
        rw [← (hall b hb).size_eq]
        exact hfb
      obtain ⟨r2, t2, h2, hwf, _, hfr, hout⟩ :=
        operator_assign_full copy_ctor hs (hall a ha) (hall b hb) (hdisj a ha b hb hab)
          hfa2 hfb2
      rw [h2] at hstep
      obtain ⟨_, ht⟩ := Prod.mk.inj hstep
      subst ht
      rcases hout with ⟨_, cs2, hl2, hfresh, _⟩ | ⟨_, _, hl2⟩
      · exact Inv.step hs hall hdisj ha hl2 hwf (fun c hc => Or.inr (hfresh c hc)) hfr
      · exact Inv.step hs hall hdisj ha hl2 hwf
          (fun c hc => Or.inl (List.mem_map_of_mem Prod.fst hc)) hfr

/-- A chain is determined by the memory and the pointer it starts from. -/
theorem Chain.unique {α : Type} {node : Nat → Option (Node α)} :
    ∀ {xs ys : List (Nat × α)} {p : Option Nat}, Chain node p xs → Chain node p ys → xs = ys
  | [], [], _, _, _ => rfl
  | [], _ :: _, _, h1, h2 => by
    have h1 : _ = none := h1
    rw [h1] at h2
    cases h2.1
  | _ :: _, [], _, h1, h2 => by
    have h2 : _ = none := h2
    rw [h2] at h1
    cases h1.1
  | x :: xs, y :: ys, p, h1, h2 => by
    obtain ⟨e1, n1, hn1, c1⟩ := h1
    obtain ⟨e2, n2, hn2, c2⟩ := h2
    have e : x.1 = y.1 := Option.some.inj (e1.symm.trans e2)
    rw [e, hn2] at hn1
    have hn := Option.some.inj hn1
    have hx : y.2 = x.2 ∧ n2 = n1 := by
      simpa using hn
    rw [hx.2] at c2
    have := Chain.unique c1 c2
    rw [this]
    congr 1
    exact Prod.ext e hx.1.symm

theorem IsList.same_nodes {α : Type} {s : Memory α} {l : Nat} {ca cb : List (Nat × α)}
    (ha : IsList s l ca) (hb : IsList s l cb) : ca = cb := by
  obtain ⟨hda, hna, hcha⟩ := ha.head_live
  obtain ⟨hdb, hnb, hchb⟩ := hb.head_live
  rw [hna] at hnb
  cases hnb
  exact Chain.unique hcha hchb

theorem eraseIdx_insert_at {β : Type} (x : β) :
    ∀ (cs : List β) (k : Nat), k ≤ cs.length → (cs.take k ++ x :: cs.drop k).eraseIdx k = cs
  | cs, 0, _ => by simp
  | [], k + 1, h => by simp at h
  | c :: cs, k + 1, h => by
    simp [eraseIdx_insert_at x cs k (by simpa using h)]

theorem getElem?_insert_at_lt {β : Type} (x : β) :
    ∀ (cs : List β) (k j : Nat), j < k → k ≤ cs.length →
      (cs.take k ++ x :: cs.drop k)[j]? = cs[j]?
  | _, 0, _, hj, _ => by omega
  | [], k + 1, _, _, h => by simp at h
  | c :: cs, k + 1, 0, _, _ => by simp
  | c :: cs, k + 1, j + 1, hj, h => by
    simpa using getElem?_insert_at_lt x cs k j (by omega) (by simpa using h)

theorem getElem?_insert_at_succ {β : Type} (x : β) :
    ∀ (cs : List β) (k : Nat), k ≤ cs.length →
      (cs.take k ++ x :: cs.drop k)[k + 1]? = cs[k]?
  | cs, 0, _ => by simp
  | [], k + 1, h => by simp at h
  | c :: cs, k + 1, h => by
    simpa using getElem?_insert_at_succ x cs k (by simpa using h)

theorem Chain.set_value {α : Type} {node : Nat → Option (Node α)} {q : Nat} {n : Node α}
    (v : α) (hq : node q = some n) :
    ∀ {cs : List (Nat × α)} {p : Option Nat}, Chain node p cs →
      Chain (Function.update node q (some { n with value := v })) p
        (cs.map (fun c => if c.1 = q then (c.1, v) else c))
  | [], _, h => h
  | c :: cs, p, h => by
    obtain ⟨hp, nx, hn, hch⟩ := h
    have ih := Chain.set_value v hq hch
    by_cases hcq : c.1 = q
    · refine ⟨by simp [hcq, hp], nx, ?_, ih⟩
      rw [hcq, hq] at hn
      cases hn
      beta_reduce
      rw [if_pos hcq]
      show Function.update node q _ c.1 = _
      rw [hcq, Function.update_same]
    · refine ⟨by simp [hcq, hp], nx, ?_, ih⟩
      simp [hcq, hn]

theorem write_spec {α : Type} {s : Memory α} {l q : Nat} {cs : List (Nat × α)} (v : α)
    (hs : s.WF) (hl : IsList s l cs) (hq : q ∈ l :: cs.map Prod.fst) :
    ∃ t, (⟨some q⟩ : BasicIterator).write v s = (.ok (), t) ∧
      IsList t l (cs.map (fun c => if c.1 = q then (c.1, v) else c)) ∧ t.WF ∧
      t.brk = s.brk ∧ Frame (l :: cs.map Prod.fst) s t := by
  obtain ⟨n, hn⟩ := hl.nodes_live q hq
  have hlt := hl.below_brk hs q hq
  obtain ⟨⟨hv, hch⟩, hnd, hsz⟩ := hl
  have hfst : (cs.map (fun c => if c.1 = q then (c.1, v) else c)).map Prod.fst
      = cs.map Prod.fst := by
    rw [List.map_map]
    apply List.map_congr_left
    intro c _
    by_cases h : c.1 = q <;> simp [h]
  refine ⟨s.set_node q (some { n with value := v }), by simp [BasicIterator.write, hn],
    ⟨?_, by rw [hfst]; exact hnd, by simpa using hsz⟩, ?_, rfl, ?_⟩
  · have := Chain.set_value v hn hch
    simp only [List.map_cons] at this
    by_cases hlq : l = q
    · exact ⟨v, by simpa [hlq, Memory.set_node] using this⟩
    · exact ⟨hv, by simpa [hlq, Memory.set_node] using this⟩
  · intro a ha
    have ha2 : s.brk ≤ a := ha
    have : a ≠ q := by omega
    simp [Memory.set_node, this, hs a ha2]
  · refine ⟨Nat.le_refl _, fun a ha _ => ⟨?_, rfl⟩⟩
    have : a ≠ q := fun h => ha (h ▸ hq)
    simp [Memory.set_node, this]

/-- A call that changes the list `l` keeps it a list, made of nodes it had and of
new ones, and touches nothing else. -/
theorem mutation_frame {α : Type} {copy_ctor : α → Option α} {s t : Memory α} {l : Nat}
    {cl : List (Nat × α)} (hs : s.WF) (hl : IsList s l cl) (hm : Mutation copy_ctor l s t) :
    t.WF ∧ Frame (l :: cl.map Prod.fst) s t ∧
      ∃ cl2, IsList t l cl2 ∧ ∀ c ∈ cl2, c.1 ∈ cl.map Prod.fst ∨ s.brk ≤ c.1 := by
  have hsame : s.WF ∧ Frame (l :: cl.map Prod.fst) s s ∧
      ∃ cl2, IsList s l cl2 ∧ ∀ c ∈ cl2, c.1 ∈ cl.map Prod.fst ∨ s.brk ≤ c.1 :=
    ⟨hs, Frame.refl _ _, cl, hl, fun c hc => Or.inl (List.mem_map_of_mem Prod.fst hc)⟩
  cases hm with
  | push_front v hstep =>
    obtain ⟨hd, hn, _⟩ := hl.head_live
    cases hc : copy_ctor v with
    | none => simp [push_front, new_Node, hc, hn] at hstep
    | some w =>
      obtain ⟨t2, h2, hl2, hwf, _, hfr⟩ := push_front_spec hs hl hc
      rw [h2] at hstep
      obtain ⟨_, ht⟩ := Prod.mk.inj hstep
      subst ht
      refine ⟨hwf, Frame.mono hfr (by simp), _, hl2, fun c hc2 => ?_⟩
      rcases List.mem_cons.1 hc2 with h | h
      · exact Or.inr (by rw [h])
      · exact Or.inl (List.mem_map_of_mem Prod.fst h)
  | push_front_throw v hstep =>
    obtain ⟨hd, hn, _⟩ := hl.head_live
    cases hc : copy_ctor v with
    | none =>
      simp [push_front, new_Node, hc, hn] at hstep
      subst hstep
      exact hsame
    | some w =>
      obtain ⟨t2, h2, _⟩ := push_front_spec hs hl hc
      rw [h2] at hstep
      cases (Prod.mk.inj hstep).1
  | pop_front hstep =>
    cases cl with
    | nil =>
      have h0 : s.size_ l = 0 := hl.2.2
      simp [pop_front, empty, h0] at hstep
    | cons c R =>
      obtain ⟨t2, h2, hl2, hwf, _, hfr, _⟩ := pop_front_spec hs hl
      rw [h2] at hstep
      obtain ⟨_, ht⟩ := Prod.mk.inj hstep
      subst ht
      exact ⟨hwf, hfr, _, hl2, fun d hd =>
        Or.inl (List.mem_map_of_mem Prod.fst (List.mem_cons_of_mem _ hd))⟩
  | insert k pos r v hpos hstep =>
    rcases hl.advance_pos hpos with rfl | ⟨j, q, hj, rfl⟩
    · simp [insert] at hstep
    · obtain ⟨nq, hnq⟩ := hl.nodes_live q (List.getElem?_mem hj)
      cases hc : copy_ctor v with
      | none => simp [insert, new_Node, hc, hnq] at hstep
      | some w =>
        obtain ⟨t2, h2, hl2, hwf, _, hfr⟩ := insert_spec hs hl j hj hc
        rw [h2] at hstep
        obtain ⟨_, ht⟩ := Prod.mk.inj hstep
        subst ht
        refine ⟨hwf, Frame.mono hfr ?_, _, hl2, fun c hc2 => ?_⟩
        · intro a ha
          simp only [List.mem_cons, List.mem_singleton, List.not_mem_nil, or_false] at ha
          rcases ha with h | h
          · exact h ▸ List.mem_cons_self _ _
          · exact h ▸ List.getElem?_mem hj
        · rcases List.mem_append.1 hc2 with h | h
          · exact Or.inl (List.mem_map_of_mem Prod.fst (List.mem_of_mem_take h))
          · rcases List.mem_cons.1 h with h | h
            · exact Or.inr (by rw [h])
            · exact Or.inl (List.mem_map_of_mem Prod.fst (List.mem_of_mem_drop h))
  | insert_throw k pos v hpos hstep =>
    rcases hl.advance_pos hpos with rfl | ⟨j, q, hj, rfl⟩
    · simp [insert] at hstep
    · obtain ⟨nq, hnq⟩ := hl.nodes_live q (List.getElem?_mem hj)
      cases hc : copy_ctor v with
      | none =>
        simp [insert, new_Node, hc, hnq] at hstep
        subst hstep
        exact hsame
      | some w =>
        obtain ⟨t2, h2, _⟩ := insert_spec hs hl j hj hc
        rw [h2] at hstep
        cases (Prod.mk.inj hstep).1
  | erase k pos r hpos hstep =>
    rcases hl.advance_pos hpos with rfl | ⟨j, q, hj, rfl⟩
    · rw [erase_asserts s l ⟨none⟩ (Or.inr rfl)] at hstep
      cases (Prod.mk.inj hstep).1
    · have hjlt : j < cl.length + 1 := by
        have := (List.getElem?_eq_some.1 hj).1
        simpa using this
      by_cases hlast : j < cl.length
      · obtain ⟨t2, h2, hl2, hwf, _, hfr, _⟩ := erase_spec hs hl j hj hlast
        rw [h2] at hstep
        obtain ⟨_, ht⟩ := Prod.mk.inj hstep
        subst ht
        exact ⟨hwf, hfr, _, hl2, fun c hc => Or.inl (List.mem_map_of_mem Prod.fst
          ((List.eraseIdx_sublist _ _).subset hc))⟩
      · have hjeq : j = cl.length := by omega
        subst hjeq
        by_cases hnil : cl = []
        · rw [erase_asserts s l _ (Or.inl (by rw [hl.size_eq, hnil]; rfl))] at hstep
          cases (Prod.mk.inj hstep).1
        · rw [erase_last_invalid_access s l q _ hl hnil hj] at hstep
          cases (Prod.mk.inj hstep).1
  | clear fuel hf hstep =>
    have hf2 : cl.length ≤ fuel := by
      rw [← hl.size_eq]
      exact hf
    obtain ⟨t2, h2, hl2, hwf, _, hfr, _⟩ := clear_spec hs hl hf2
    rw [h2] at hstep
    obtain ⟨_, ht⟩ := Prod.mk.inj hstep
    subst ht
    exact ⟨hwf, hfr, _, hl2, by simp⟩
  | write k pos v hpos hstep =>
    rcases hl.advance_pos hpos with rfl | ⟨j, q, hj, rfl⟩
    · simp [BasicIterator.write] at hstep
    · obtain ⟨t2, h2, hl2, hwf, _, hfr⟩ := write_spec v hs hl (List.getElem?_mem hj)
      rw [h2] at hstep
      obtain ⟨_, ht⟩ := Prod.mk.inj hstep
      subst ht
      refine ⟨hwf, hfr, _, hl2, fun c hc => Or.inl ?_⟩
      rcases List.mem_map.1 hc with ⟨d, hd, rfl⟩
      by_cases h : d.1 = q
      · simp only [h, if_true]
        exact h ▸ List.mem_map_of_mem Prod.fst hd
      · simp only [h, if_false]
        exact List.mem_map_of_mem Prod.fst hd

/-- Calls that change the list `X` leave a list `Y` that shares no node with it as
it was, however many they are. -/
theorem mutations_keep_other {α : Type} {copy_ctor : α → Option α} {s u : Memory α}
    {X Y : Nat} {cx cy : List (Nat × α)} (hs : s.WF) (hX : IsList s X cx)
    (hY : IsList s Y cy) (hdisj : ∀ x ∈ X :: cx.map Prod.fst, x ∉ Y :: cy.map Prod.fst)
    (h : Relation.ReflTransGen (Mutation copy_ctor X) s u) :
    u.WF ∧ IsList u Y cy ∧
      ∃ cx2, IsList u X cx2 ∧ ∀ x ∈ X :: cx2.map Prod.fst, x ∉ Y :: cy.map Prod.fst := by
  induction h with
  | refl => exact ⟨hs, hY, cx, hX, hdisj⟩
  | tail _ hstep ih =>
    obtain ⟨hwb, hYb, cxb, hXb, hdb⟩ := ih
    obtain ⟨hwc, hfr, cxc, hXc, hsub⟩ := mutation_frame hwb hXb hstep
    refine ⟨hwc, IsList.frame hwb hYb hfr (fun a ha h => hdb a h ha), cxc, hXc, ?_⟩
    intro x hx hxy
    rcases List.mem_cons.1 hx with h | h
    · exact hdb X (List.mem_cons_self _ _) (h ▸ hxy)
    · rcases List.mem_map.1 h with ⟨c, hc, rfl⟩
      rcases hsub c hc with h1 | h1
      · exact hdb c.1 (List.mem_cons_of_mem _ h1) hxy
      · have := hYb.below_brk hwb c.1 hxy
        omega

theorem swap_cpp_spec {α : Type} {s : Memory α} {a b : Nat} {ca cb : List (Nat × α)}
    (hs : s.WF) (ha : IsList s a ca) (hb : IsList s b cb)
    (hdisj : ∀ x ∈ a :: ca.map Prod.fst, x ∉ b :: cb.map Prod.fst) :
    ∃ t, swap_cpp a b s = (.ok (), t) ∧ IsList t a cb ∧ IsList t b ca ∧ t.WF ∧
      t.brk = s.brk ∧ Frame [a, b] s t := by
  obtain ⟨hda, hna, hcha⟩ := ha.head_live
  obtain ⟨hdb, hnb, hchb⟩ := hb.head_live
  have hlta := ha.below_brk hs a (List.mem_cons_self _ _)
  have hltb := hb.below_brk hs b (List.mem_cons_self _ _)
  have hab : a ≠ b := fun h => hdisj a (List.mem_cons_self _ _) (h ▸ List.mem_cons_self _ _)
  obtain ⟨_, hnda, hsza⟩ := ha
  obtain ⟨_, hndb, hszb⟩ := hb
  simp only [List.nodup_cons] at hnda hndb
  simp [swap_cpp, hna, hnb, Memory.set_next, Memory.set_size, Memory.set_node, hab, hab.symm]
  refine ⟨⟨⟨hda.value, rfl, hdb.next_node, by simp [hab], ?_⟩, ?_, by simp [hab, hszb]⟩,
    ⟨⟨hdb.value, rfl, hda.next_node, by simp, ?_⟩, ?_, by simp [hsza]⟩, ?_, ?_⟩
  · refine Chain.congr hchb (fun c hc => ?_)
    have hc1 := List.mem_map_of_mem Prod.fst hc
    have h1 : c.1 ≠ a := fun h => hdisj a (List.mem_cons_self _ _) (h ▸ List.mem_cons_of_mem _ hc1)
    have h2 : c.1 ≠ b := fun h => hndb.1 (h ▸ hc1)
    simp [h1, h2]
  · exact List.nodup_cons.2
      ⟨fun h => hdisj a (List.mem_cons_self _ _) (List.mem_cons_of_mem _ h), hndb.2⟩
  · refine Chain.congr hcha (fun c hc => ?_)
    have hc1 := List.mem_map_of_mem Prod.fst hc
    have h1 : c.1 ≠ a := fun h => hnda.1 (h ▸ hc1)
    have h2 : c.1 ≠ b := fun h => hdisj c.1 (List.mem_cons_of_mem _ hc1) (h ▸ List.mem_cons_self _ _)
    simp [h1, h2]
  · exact List.nodup_cons.2
      ⟨fun h => hdisj b (List.mem_cons_of_mem _ h) (List.mem_cons_self _ _), hnda.2⟩
  · intro x hx
    have hx0 : s.brk ≤ x := hx
    have h1 : x ≠ a := by omega
    have h2 : x ≠ b := by omega
    simp [h1, h2]
    exact hs x hx0
  · refine ⟨Nat.le_refl _, fun x hx _ => ?_⟩
    simp only [List.mem_cons, List.mem_singleton, List.not_mem_nil, or_false, not_or] at hx
    simp [hx.1, hx.2]

theorem assign_cpp_loop_il_spec {α : Type} (copy_ctor : α → Option α) {dst : Nat} :
    ∀ (vals : List α) (s : Memory α) (cd : List (Nat × α)),
      s.WF → IsList s dst cd → (∀ x ∈ vals, copy_ctor x = some x) →
      ∃ t cs2, assign_cpp_loop_il copy_ctor dst vals s = (.ok (), t) ∧
        IsList t dst (cs2 ++ cd) ∧ t.WF ∧ cs2.map Prod.snd = vals.reverse ∧
        Frame [dst] s t ∧ ∀ c ∈ cs2, s.brk ≤ c.1
  | [], s, cd, hs, hl, _ => ⟨s, [], rfl, by simpa using hl, hs, rfl, Frame.refl _ _, by simp⟩
  | v :: vs, s, cd, hs, hl, hc => by
    obtain ⟨s1, hp, hl1, hs1, hbrk1, hfr1⟩ := push_front_spec hs hl (hc v (by simp))
    obtain ⟨t, cs2, hloop, hlt, hwf, hval, hfr, hfresh⟩ :=
      assign_cpp_loop_il_spec copy_ctor vs s1 _ hs1 hl1 (fun x hx => hc x (by simp [hx]))
    refine ⟨t, cs2 ++ [(s.brk, v)], ?_, by simpa using hlt, hwf, by simp [hval],
      Frame.trans hfr1 hfr (fun a ha => Or.inl ha), fun c hc2 => ?_⟩
    · simp only [assign_cpp_loop_il, PushFront, hp, hloop]
    · rcases List.mem_append.1 hc2 with h | h
      · have := hfresh c h
        omega
      · simp only [List.mem_singleton] at h
        rw [h]

theorem assign_cpp_loop_spec {α : Type} (copy_ctor : α → Option α) {dst : Nat} :
    ∀ (rem : List (Nat × α)) (s : Memory α) (cd : List (Nat × α)) (p : Option Nat)
      (fuel : Nat),
      s.WF → IsList s dst cd → Chain s.node p rem →
      (∀ a ∈ rem.map Prod.fst, a ∉ dst :: cd.map Prod.fst) →
      (∀ x ∈ rem.map Prod.snd, copy_ctor x = some x) → rem.length ≤ fuel →
      ∃ t cs2, assign_cpp_loop copy_ctor dst fuel ⟨p⟩ ⟨none⟩ s = (.ok (), t) ∧
        IsList t dst (cs2 ++ cd) ∧ t.WF ∧ cs2.map Prod.snd = (rem.map Prod.snd).reverse ∧
        Frame [dst] s t ∧ ∀ c ∈ cs2, s.brk ≤ c.1
  | [], s, cd, p, fuel, hs, hl, hch, _, _, _ => by
    have hp : p = none := hch
    subst hp
    refine ⟨s, [], ?_, by simpa using hl, hs, rfl, Frame.refl _ _, by simp⟩
    unfold assign_cpp_loop
    simp [BasicIterator.operator_ne]
  | c :: rem, s, cd, p, 0, _, _, _, _, _, hf => by simp at hf
  | c :: rem, s, cd, p, fuel + 1, hs, hl, hch, hdisj, hc, hf => by
    have hlt := Chain.lt_brk hs hch
    obtain ⟨hp, nx, hn, hch2⟩ := hch
    subst hp
    obtain ⟨s1, hpf, hl1, hs1, hbrk1, hfr1⟩ := push_front_spec hs hl (hc c.2 (by simp))
    have hcd : c.1 ≠ dst := fun h => hdisj c.1 (by simp) (by simp [h])
    have hn1 : s1.node c.1 = some ⟨c.2, nx⟩ := by
      rw [(hfr1.2 c.1 (by simpa using hcd) (hlt c.1 (by simp))).1, hn]
    have hch1 : Chain s1.node nx rem := Chain.congr hch2 (fun d hd => by
      have hd1 : d.1 ∈ (c :: rem).map Prod.fst :=
        List.mem_cons_of_mem _ (List.mem_map_of_mem Prod.fst hd)
      have hne : d.1 ≠ dst := fun h => hdisj d.1 hd1 (by simp [h])
      exact (hfr1.2 d.1 (by simpa using hne) (hlt d.1 hd1)).1)
    obtain ⟨t, cs2, hloop, hlt2, hwf, hval, hfr, hfresh⟩ :=
      assign_cpp_loop_spec copy_ctor rem s1 _ nx fuel hs1 hl1 hch1 (fun a ha h => by
        have ha1 : a ∈ (c :: rem).map Prod.fst := by
          simp only [List.map_cons, List.mem_cons]
          exact Or.inr ha
        have h1 := hlt a ha1
        simp only [List.map_cons, List.mem_cons] at h
        rcases h with h | h | h
        · exact hdisj a ha1 (by simp [h])
        · omega
        · exact hdisj a ha1 (List.mem_cons_of_mem _ h))
        (fun x hx => hc x (by simp only [List.map_cons, List.mem_cons]; exact Or.inr hx))
        (by simpa using hf)
    refine ⟨t, cs2 ++ [(s.brk, c.2)], ?_, by simpa using hlt2, hwf, by simp [hval],
      Frame.trans hfr1 hfr (fun a ha => Or.inl ha), fun d hd => ?_⟩
    · unfold assign_cpp_loop
      simp [BasicIterator.operator_ne, BasicIterator.operator_deref, hn, PushFront, hpf,
        BasicIterator.operator_inc, hn1, hloop]
    · rcases List.mem_append.1 hd with h | h
      · have := hfresh d h
        omega
      · simp only [List.mem_singleton] at h
        rw [h]

theorem assign_cpp_rest_spec {α : Type} (copy_ctor : α → Option α) {s : Memory α}
    {self tmp trev : Nat} {old R : List (Nat × α)} {fuel : Nat}
    (hs : s.WF) (hself : IsList s self old) (htmp : IsList s tmp [])
    (htrev : IsList s trev R)
    (h1 : ∀ x ∈ self :: old.map Prod.fst, x ≠ tmp)
    (h2 : ∀ x ∈ self :: old.map Prod.fst, x ∉ trev :: R.map Prod.fst)
    (h3 : tmp ∉ trev :: R.map Prod.fst)
    (hc : ∀ x ∈ R.map Prod.snd, copy_ctor x = some x)
    (hfo : old.length ≤ fuel) (hfR : R.length ≤ fuel) :
    ∃ t T, assign_cpp_rest copy_ctor fuel self tmp trev s = (.ok (), t) ∧ IsList t self T ∧
      T.map Prod.snd = (R.map Prod.snd).reverse ∧ t.WF := by
  have hselflt := hself.below_brk hs
  have htmplt := htmp.below_brk hs tmp (List.mem_cons_self _ _)
  have htrevlt := htrev.below_brk hs
  obtain ⟨hd, hnd, hchR⟩ := htrev.head_live
  have hbegin : begin trev s = .ok ⟨hd.next_node⟩ := by simp [begin, hnd]
  -- the second loop
  obtain ⟨s1, T, hloop, htmp1, hs1, hval, hfr1, hfresh⟩ :=
    assign_cpp_loop_spec copy_ctor R s [] hd.next_node fuel hs htmp hchR
      (fun a ha h => by
        simp only [List.map_nil, List.mem_singleton] at h
        exact h3 (h ▸ List.mem_cons_of_mem _ ha)) hc hfR
  simp only [List.append_nil] at htmp1
  have hself1 : IsList s1 self old := IsList.frame hs hself hfr1 (fun a ha h => by
    simp only [List.mem_singleton] at h
    exact h1 a ha h)
  have htrev1 : IsList s1 trev R := IsList.frame hs htrev hfr1 (fun a ha h => by
    simp only [List.mem_singleton] at h
    exact h3 (h ▸ ha))
  -- swap(tmp)
  obtain ⟨s2, hsw, hself2, htmp2, hs2, hbrk2, hfr2⟩ := swap_cpp_spec hs1 hself1 htmp1
    (fun x hx h => by
      have hx1 := hselflt x hx
      rcases List.mem_cons.1 h with h | h
      · exact h1 x hx h
      · rcases List.mem_map.1 h with ⟨c, hcm, rfl⟩
        have := hfresh c hcm
        omega)
  have htrev2 : IsList s2 trev R := IsList.frame hs1 htrev1 hfr2 (fun a ha h => by
    simp only [List.mem_cons, List.mem_singleton, List.not_mem_nil, or_false] at h
    rcases h with h | h
    · exact h2 self (List.mem_cons_self _ _) (h ▸ ha)
    · exact h3 (h ▸ ha))
  -- tmp_reverse goes out of scope
  obtain ⟨s3, hd3, hs3, hbrk3, hfr3⟩ := dtor_spec hs2 htrev2 hfR
  have hself3 : IsList s3 self T := IsList.frame hs2 hself2 hfr3 (fun a ha h => by
    rcases List.mem_cons.1 ha with ha | ha
    · exact h2 self (List.mem_cons_self _ _) (ha ▸ h)
    · rcases List.mem_map.1 ha with ⟨c, hcm, rfl⟩
      have := hfresh c hcm
      have := htrevlt c.1 h
      omega)
  have htmp3 : IsList s3 tmp old := IsList.frame hs2 htmp2 hfr3 (fun a ha h => by
    rcases List.mem_cons.1 ha with ha | ha
    · exact h3 (ha ▸ h)
    · exact h2 a (List.mem_cons_of_mem _ ha) h)
  -- tmp goes out of scope
  obtain ⟨s4, hd4, hs4, hbrk4, hfr4⟩ := dtor_spec hs3 htmp3 hfo
  have hnd := hself.2.1
  simp only [List.nodup_cons] at hnd
  have hself4 : IsList s4 self T := IsList.frame hs3 hself3 hfr4 (fun a ha h => by
    rcases List.mem_cons.1 ha with ha | ha
    · rcases List.mem_cons.1 h with h | h
      · exact h1 self (List.mem_cons_self _ _) (by rw [← ha, h])
      · exact hnd.1 (ha ▸ h)
    · rcases List.mem_map.1 ha with ⟨c, hcm, rfl⟩
      have := hfresh c hcm
      rcases List.mem_cons.1 h with h | h
      · omega
      · have := hselflt c.1 (List.mem_cons_of_mem _ h)
        omega)
  refine ⟨s4, T, ?_, hself4, hval, hs4⟩
  simp only [assign_cpp_rest, hbegin, end_]
  simp only [hloop, hsw, hd3, hd4]

theorem assign_cpp_il_spec {α : Type} [Inhabited α] (copy_ctor : α → Option α) {s : Memory α}
    {self : Nat} {old : List (Nat × α)} {fuel : Nat} (vals : List α)
    (hs : s.WF) (hself : IsList s self old) (hfo : old.length ≤ fuel)
    (hfv : vals.length ≤ fuel) (hc : ∀ x ∈ vals, copy_ctor x = some x) :
    ∃ t T, assign_cpp_il copy_ctor fuel self vals s = (.ok (), t) ∧ IsList t self T ∧
      T.map Prod.snd = vals ∧ t.WF := by
  have hselflt := hself.below_brk hs
  obtain ⟨_, htmp0, hs0, hbrk0, hfr0⟩ := ctor_default_spec hs
  obtain ⟨_, htrev1, hs1, hbrk1, hfr1⟩ := ctor_default_spec hs0
  rw [hbrk0] at htrev1
  have hself0 : IsList (ctor_default s).2 self old := IsList.frame hs hself hfr0 (by simp)
  have hself1 : IsList (ctor_default (ctor_default s).2).2 self old :=
    IsList.frame hs0 hself0 hfr1 (by simp)
  have htmp1 : IsList (ctor_default (ctor_default s).2).2 s.brk [] :=
    IsList.frame hs0 htmp0 hfr1 (by simp)
  obtain ⟨s2, R, hloop, htrev2, hs2, hval, hfr2, hfresh⟩ :=
    assign_cpp_loop_il_spec copy_ctor vals _ [] hs1 htrev1 hc
  simp only [List.append_nil] at htrev2
  rw [hbrk1, hbrk0] at hfresh
  have hself2 : IsList s2 self old := IsList.frame hs1 hself1 hfr2 (fun a ha h => by
    have := hselflt a ha
    simp only [List.mem_singleton] at h
    omega)
  have htmp2 : IsList s2 s.brk [] := IsList.frame hs1 htmp1 hfr2 (by simp)
  have hlenR : R.length = vals.length := by
    have := congrArg List.length hval
    simpa using this
  obtain ⟨t, T, hrest, hselft, hvalT, hwf⟩ :=
    assign_cpp_rest_spec copy_ctor hs2 hself2 htmp2 htrev2
      (fun x hx h => by have := hselflt x hx; omega)
      (fun x hx h => by
        have := hselflt x hx
        rcases List.mem_cons.1 h with h | h
        · omega
        · rcases List.mem_map.1 h with ⟨c, hcm, rfl⟩
          have := hfresh c hcm
          omega)
      (fun h => by
        rcases List.mem_cons.1 h with h | h
        · omega
        · rcases List.mem_map.1 h with ⟨c, hcm, hce⟩
          have := hfresh c hcm
          omega)
      (fun x hx => hc x (by rw [hval] at hx; simpa using hx)) hfo (by omega)
  refine ⟨t, T, ?_, hselft, by rw [hvalT, hval, List.reverse_reverse], hwf⟩
  simp only [assign_cpp_il]
  rw [show ctor_default s = (s.brk, (ctor_default s).2) from rfl]
  simp only []
  rw [show ctor_default (ctor_default s).2 = (s.brk + 1, (ctor_default (ctor_default s).2).2)
    from rfl]
  simp only [hloop, hrest]

theorem assign_cpp_list_spec {α : Type} [Inhabited α] (copy_ctor : α → Option α) {s : Memory α}
    {self elem : Nat} {old src : List (Nat × α)} {fuel : Nat}
    (hs : s.WF) (hself : IsList s self old) (hsrc : IsList s elem src)
    (hfo : old.length ≤ fuel) (hfv : src.length ≤ fuel)
    (hc : ∀ x ∈ src.map Prod.snd, copy_ctor x = some x) :
    ∃ t T, assign_cpp_list copy_ctor fuel self elem s = (.ok (), t) ∧ IsList t self T ∧
      T.map Prod.snd = src.map Prod.snd ∧ t.WF := by
  have hselflt := hself.below_brk hs
  have hsrclt := hsrc.below_brk hs
  obtain ⟨_, htmp0, hs0, hbrk0, hfr0⟩ := ctor_default_spec hs
  obtain ⟨_, htrev1, hs1, hbrk1, hfr1⟩ := ctor_default_spec hs0
  rw [hbrk0] at htrev1
  have hself0 : IsList (ctor_default s).2 self old := IsList.frame hs hself hfr0 (by simp)
  have hself1 : IsList (ctor_default (ctor_default s).2).2 self old :=
    IsList.frame hs0 hself0 hfr1 (by simp)
  have hsrc0 : IsList (ctor_default s).2 elem src := IsList.frame hs hsrc hfr0 (by simp)
  have hsrc1 : IsList (ctor_default (ctor_default s).2).2 elem src :=
    IsList.frame hs0 hsrc0 hfr1 (by simp)
  have htmp1 : IsList (ctor_default (ctor_default s).2).2 s.brk [] :=
    IsList.frame hs0 htmp0 hfr1 (by simp)
  obtain ⟨hd, hnd, hch⟩ := hsrc1.head_live
  have hbegin : begin elem (ctor_default (ctor_default s).2).2 = .ok ⟨hd.next_node⟩ := by
    simp [begin, hnd]
  obtain ⟨s2, R, hloop, htrev2, hs2, hval, hfr2, hfresh⟩ :=
    assign_cpp_loop_spec copy_ctor src _ [] hd.next_node fuel hs1 htrev1 hch
      (fun a ha h => by
        have := hsrclt a (List.mem_cons_of_mem _ ha)
        simp only [List.map_nil, List.mem_singleton] at h
        omega) hc hfv
  simp only [List.append_nil] at htrev2
  rw [hbrk1, hbrk0] at hfresh
  have hself2 : IsList s2 self old := IsList.frame hs1 hself1 hfr2 (fun a ha h => by
    have := hselflt a ha
    simp only [List.mem_singleton] at h
    omega)
  have htmp2 : IsList s2 s.brk [] := IsList.frame hs1 htmp1 hfr2 (by simp)
  have hlenR : R.length = src.length := by
    have := congrArg List.length hval
    simpa using this
  obtain ⟨t, T, hrest, hselft, hvalT, hwf⟩ :=
    assign_cpp_rest_spec copy_ctor hs2 hself2 htmp2 htrev2
      (fun x hx h => by have := hselflt x hx; omega)
      (fun x hx h => by
        have := hselflt x hx
        rcases List.mem_cons.1 h with h | h
        · omega
        · rcases List.mem_map.1 h with ⟨c, hcm, rfl⟩
          have := hfresh c hcm
          omega)
      (fun h => by
        rcases List.mem_cons.1 h with h | h
        · omega
        · rcases List.mem_map.1 h with ⟨c, hcm, hce⟩
          have := hfresh c hcm
          omega)
      (fun x hx => hc x (by rw [hval] at hx; simpa using hx)) hfo (by omega)
  refine ⟨t, T, ?_, hselft, by rw [hvalT, hval, List.reverse_reverse], hwf⟩
  simp only [assign_cpp_list]
  rw [show ctor_default s = (s.brk, (ctor_default s).2) from rfl]
  simp only []
  rw [show ctor_default (ctor_default s).2 = (s.brk + 1, (ctor_default (ctor_default s).2).2)
    from rfl]
  simp only [hbegin, end_]
  simp only [hloop, hrest]

/-! ## The claims -/

/-- Claim C1: for every finite sequence `S`, the list constructed from `S` by the
initializer-list constructor has `size()` equal to the length of `S`, and
iterating it from `begin()` to `end()` yields exactly the elements of `S`, in
order (the element copies not throwing). -/
theorem ctor_il_holds_sequence {α : Type} [Inhabited α] (copy_ctor : α → Option α)
    (s : Memory α) (S : List α) (fuel : Nat) (hs : s.WF)
    (hc : ∀ x ∈ S, copy_ctor x = some x) :
    ∃ l t, ctor_il copy_ctor fuel S s = (.ok l, t) ∧ size l t = S.length ∧
      ∀ f, S.length ≤ f → elements f l t = .ok S := by
  obtain ⟨r, t, h, _, _, hout⟩ := ctor_il_spec copy_ctor fuel S hs
    (fun ⟨x, hx, hn⟩ => by rw [hc x hx] at hn; cases hn)
  rcases hout with ⟨hr, cs, hl, _, hall⟩ | ⟨_, x, hx, hn⟩
  · subst hr
    have hmap := copies_map_snd hall hc
    have hlen : cs.length = S.length := by rw [← hmap, List.length_map]
    refine ⟨s.brk, t, h, by rw [hl.size_eq, hlen], fun f hf => ?_⟩
    rw [hl.elements_eq (by omega), hmap]
  · rw [hc x hx] at hn
    cases hn

/-- Witness of C1: the list `{1, 2, 3, 4, 5}` of `Test3`. -/
theorem ctor_il_holds_sequence_witness :
    (Memory.init : Memory Int).WF ∧ (∀ x ∈ [(1 : Int), 2, 3, 4, 5], some x = some x) ∧
      ∃ l t, ctor_il some 0 [(1 : Int), 2, 3, 4, 5] Memory.init = (.ok l, t) ∧ size l t = 5 ∧
        ∀ f, 5 ≤ f → elements f l t = .ok [1, 2, 3, 4, 5] :=
  ⟨Memory.init_WF, fun _ _ => rfl,
    ctor_il_holds_sequence some Memory.init [1, 2, 3, 4, 5] 0 Memory.init_WF (fun _ _ => rfl)⟩

/-- Claim C2: `push_front(v)` on a list with contents `L` yields the contents `v`
followed by `L` and a size increased by one; and the values `a1, ..., an` pushed
in that order are then iterated most recent first, `an, ..., a1`, in front of
what the list held (nothing, when pushed onto an empty list, whose size is
then `n`). -/
theorem push_front_most_recent_first {α : Type} (copy_ctor : α → Option α) (s : Memory α)
    (l : Nat) (cs : List (Nat × α)) (hs : s.WF) (hl : IsList s l cs) :
    (∀ v, copy_ctor v = some v →
      ∃ t, push_front copy_ctor l v s = (.ok (), t) ∧ size l t = size l s + 1 ∧
        ∀ f, cs.length + 1 ≤ f → elements f l t = .ok (v :: cs.map Prod.snd)) ∧
    (∀ vs : List α, (∀ x ∈ vs, copy_ctor x = some x) →
      ∃ t, push_front_all copy_ctor l vs s = (.ok (), t) ∧ size l t = cs.length + vs.length ∧
        ∀ f, cs.length + vs.length ≤ f →
          elements f l t = .ok (vs.reverse ++ cs.map Prod.snd)) := by
  constructor
  · intro v hv
    obtain ⟨t, h, hl2, _, _, _⟩ := push_front_spec hs hl hv
    refine ⟨t, h, by rw [hl2.size_eq, hl.size_eq]; simp, fun f hf => ?_⟩
    rw [hl2.elements_eq (by simpa using hf)]
    simp
  · intro vs hvs
    obtain ⟨t, cs2, h, hl2, _, hmap⟩ := push_front_all_spec copy_ctor vs s cs hs hl hvs
    have hlen : cs2.length = vs.length := by
      have := congrArg List.length hmap
      simpa using this
    refine ⟨t, h, by rw [hl2.size_eq]; simp [hlen]; omega, fun f hf => ?_⟩
    rw [hl2.elements_eq (by simp [hlen]; omega)]
    simp [hmap]

/-- Witness of C2: pushing 1, 2, 3 onto the empty list made by the default
constructor gives `{3, 2, 1}`. -/
theorem push_front_most_recent_first_witness :
    (ctor_default (Memory.init : Memory Int)).2.WF ∧
      IsList (ctor_default (Memory.init : Memory Int)).2 0 [] ∧
      ∃ t, push_front_all some 0 [1, 2, 3] (ctor_default (Memory.init : Memory Int)).2
          = (.ok (), t) ∧ size 0 t = 3 ∧ elements 3 0 t = .ok [3, 2, 1] := by
  have hwf := (ctor_default_spec (Memory.init_WF : (Memory.init : Memory Int).WF)).2.2.1
  have hl := (ctor_default_spec (Memory.init_WF : (Memory.init : Memory Int).WF)).2.1
  obtain ⟨t, h, hsz, hel⟩ :=
    (push_front_most_recent_first some _ 0 [] hwf hl).2 [1, 2, 3] (fun _ _ => rfl)
  exact ⟨hwf, hl, t, h, hsz, hel 3 (Nat.le_refl _)⟩

/-- Claim C3: `pop_front` fails by assertion when the list is empty, and on a list
with contents `x` followed by `R` it leaves exactly `R`, in the same order, with
the size decreased by one. -/
theorem pop_front_drops_first {α : Type} (s : Memory α) (l : Nat) (cs : List (Nat × α))
    (hs : s.WF) (hl : IsList s l cs) :
    (cs = [] → pop_front l s = (.error .assertion, s)) ∧
    (∀ c R, cs = c :: R →
      ∃ t, pop_front l s = (.ok (), t) ∧ size l t + 1 = size l s ∧
        ∀ f, R.length ≤ f → elements f l t = .ok (R.map Prod.snd)) := by
  constructor
  · rintro rfl
    have : s.size_ l = 0 := hl.2.2
    simp [pop_front, empty, this]
  · rintro c R rfl
    obtain ⟨t, h, hl2, _, _, _, _⟩ := pop_front_spec hs hl
    exact ⟨t, h, by rw [hl2.size_eq, hl.size_eq]; simp, fun f hf => hl2.elements_eq hf⟩

/-- Witness of C3: `{3, 14, 15, 92, 6}` becomes `{14, 15, 92, 6}` (`Test4`). -/
theorem pop_front_drops_first_witness :
    ex_numbers.WF ∧ IsList ex_numbers 0 [(2, 3), (3, 14), (4, 15), (5, 92), (6, 6)] ∧
      ∃ t, pop_front 0 ex_numbers = (.ok (), t) ∧ size 0 t + 1 = size 0 ex_numbers ∧
        elements 4 0 t = .ok [14, 15, 92, 6] := by
  obtain ⟨t, h, hsz, hel⟩ :=
    (pop_front_drops_first ex_numbers 0 _ ex_numbers_WF ex_numbers_isList).2 _ _ rfl
  exact ⟨ex_numbers_WF, ex_numbers_isList, t, h, hsz, hel 4 (Nat.le_refl _)⟩

/-- Claim C4: for a list with contents `L` and a valid position `pos` (the position
reached from `before_begin()` by `k` increments, `k = 0` being `before_begin()`
itself and `k = i` the `i`-th element), `insert(pos, v)` yields the contents of
`L` with `v` placed immediately after `pos` and all other elements in their
original order, increases `size()` by exactly one, and returns a position that
is the successor of `pos` and dereferences to `v`. -/
theorem insert_places_after_pos {α : Type} (copy_ctor : α → Option α) (s : Memory α)
    (l : Nat) (cs : List (Nat × α)) (k : Nat) (pos : BasicIterator) (v : α)
    (hs : s.WF) (hl : IsList s l cs) (hk : k ≤ cs.length)
    (hpos : advance k (before_begin l) s = .ok pos) (hc : copy_ctor v = some v) :
    ∃ r t, insert copy_ctor l pos v s = (.ok r, t) ∧
      (∀ f, cs.length + 1 ≤ f →
        elements f l t = .ok ((cs.map Prod.snd).take k ++ v :: (cs.map Prod.snd).drop k)) ∧
      size l t = size l s + 1 ∧
      pos.operator_inc t = .ok r ∧ r.operator_deref t = .ok v := by
  rw [hl.advance_eq (by omega)] at hpos
  cases hpos
  obtain ⟨q, hq⟩ : ∃ q, (l :: cs.map Prod.fst)[k]? = some q :=
    ⟨_, List.getElem?_eq_getElem (by simp; omega)⟩
  rw [hq]
  obtain ⟨t, h, hl2, _, _, _⟩ := insert_spec hs hl k hq hc
  have hlen : (cs.take k ++ (s.brk, v) :: cs.drop k).length = cs.length + 1 := by
    have h3 := congrArg List.length (List.take_append_drop k cs)
    simp only [List.length_append] at h3
    simp only [List.length_append, List.length_cons]
    omega
  obtain ⟨nq, hnq⟩ := hl2.nodes_live q (by
    have := List.getElem?_mem hq
    rcases List.mem_cons.1 this with h1 | h1
    · exact h1 ▸ List.mem_cons_self _ _
    · refine List.mem_cons_of_mem _ ?_
      rw [← List.take_append_drop k cs] at h1
      simp only [List.map_append, List.mem_append, List.map_cons, List.mem_cons] at h1 ⊢
      tauto)
  obtain ⟨⟨hv, hch⟩, _, _⟩ := id hl2
  have hidx : (((l, hv) :: (cs.take k ++ (s.brk, v) :: cs.drop k)).map Prod.fst)[k]? = some q := by
    rw [← hq]
    cases k with
    | zero => simp
    | succ k =>
      simp only [List.map_cons, List.getElem?_cons_succ, List.map_append]
      rw [List.getElem?_append_left (by simp; omega)]
      simp [List.getElem?_map]
  have hnext := Chain.next_eq k hch hidx hnq
  have hnext2 : nq.next_node = some s.brk := by
    rw [hnext]
    simp only [List.map_cons, List.getElem?_cons_succ, List.map_append]
    rw [List.getElem?_append_right (by simp)]
    simp [Nat.min_eq_left hk]
  obtain ⟨nx, hnew⟩ := hch.live (s.brk, v) (by simp)
  refine ⟨⟨some s.brk⟩, t, h, fun f hf => ?_, ?_, ?_, ?_⟩
  · rw [hl2.elements_eq (by omega)]
    simp [List.map_take, List.map_drop]
  · rw [hl2.size_eq, hl.size_eq, hlen]
  · simp [BasicIterator.operator_inc, hnq, hnext2]
  · simp [BasicIterator.operator_deref, hnew]

/-- Witness of C4: inserting 555 after the first element of `{3, 14, 15, 92, 6}`. -/
theorem insert_places_after_pos_witness :
    ex_numbers.WF ∧ IsList ex_numbers 0 [(2, 3), (3, 14), (4, 15), (5, 92), (6, 6)] ∧
      1 ≤ 5 ∧ advance 1 (before_begin 0) ex_numbers = .ok ⟨some 2⟩ ∧
      ∃ r t, insert some 0 ⟨some 2⟩ 555 ex_numbers = (.ok r, t) ∧
        elements 6 0 t = .ok [3, 555, 14, 15, 92, 6] ∧ size 0 t = size 0 ex_numbers + 1 ∧
        BasicIterator.operator_inc ⟨some 2⟩ t = .ok r ∧ r.operator_deref t = .ok 555 := by
  obtain ⟨r, t, h, hel, hsz, hinc, hder⟩ :=
    insert_places_after_pos some ex_numbers 0 _ 1 ⟨some 2⟩ 555 ex_numbers_WF ex_numbers_isList
      (by decide) rfl rfl
  exact ⟨ex_numbers_WF, ex_numbers_isList, by decide, rfl, r, t, h, hel 6 (Nat.le_refl _), hsz,
    hinc, hder⟩

/-- Claim C5: for a list and a position `pos` that has a successor (the position
reached from `before_begin()` by `k` increments, `k` less than the size),
`erase(pos)` removes exactly the element immediately after `pos`, keeps every
other element in its original order, decreases `size()` by exactly one, and
returns the position that now follows `pos`: that of the element that followed
the removed one, or `end()` when `pos` has become the last position. -/
theorem erase_removes_after_pos {α : Type} (s : Memory α) (l : Nat) (cs : List (Nat × α))
    (k : Nat) (pos : BasicIterator) (hs : s.WF) (hl : IsList s l cs) (hk : k < cs.length)
    (hpos : advance k (before_begin l) s = .ok pos) :
    ∃ r t, erase l pos s = (.ok r, t) ∧
      (∀ f, cs.length - 1 ≤ f → elements f l t = .ok ((cs.map Prod.snd).eraseIdx k)) ∧
      size l t + 1 = size l s ∧
      pos.operator_inc t = .ok r ∧
      (k + 1 = cs.length → r = end_ l) ∧
      (∀ x, (cs.map Prod.snd)[k + 1]? = some x → r.operator_deref t = .ok x) := by
  rw [hl.advance_eq (by omega)] at hpos
  cases hpos
  obtain ⟨q, hq⟩ : ∃ q, (l :: cs.map Prod.fst)[k]? = some q :=
    ⟨_, List.getElem?_eq_getElem (by simp; omega)⟩
  rw [hq]
  obtain ⟨t, h, hl2, _, _, _, _, vq, hnq⟩ := erase_spec hs hl k hq hk
  have hlen : (cs.eraseIdx k).length = cs.length - 1 := List.length_eraseIdx_of_lt hk
  refine ⟨_, t, h, fun f hf => ?_, ?_, ?_, fun hlast => ?_, fun x hx => ?_⟩
  · rw [hl2.elements_eq (by omega), eraseIdx_map]
  · rw [hl2.size_eq, hl.size_eq, hlen]
    omega
  · simp [BasicIterator.operator_inc, hnq]
  · simp [end_, hlast]
  · obtain ⟨⟨hv, hch⟩, _, _⟩ := hl2
    obtain ⟨c, hc, hcx⟩ : ∃ c, cs[k + 1]? = some c ∧ c.2 = x := by
      simpa [List.getElem?_map] using hx
    have hmem : c ∈ (l, hv) :: cs.eraseIdx k := by
      refine List.mem_cons_of_mem _ (List.mem_eraseIdx_iff_getElem?.2 ⟨k + 1, by omega, hc⟩)
    obtain ⟨nx, hn⟩ := hch.live c hmem
    simp [BasicIterator.operator_deref, List.getElem?_map, hc, hn, hcx]

/-- Witness of C5: erasing after the first element of `{3, 14, 15, 92, 6}`. -/
theorem erase_removes_after_pos_witness :
    ex_numbers.WF ∧ IsList ex_numbers 0 [(2, 3), (3, 14), (4, 15), (5, 92), (6, 6)] ∧
      1 < 5 ∧ advance 1 (before_begin 0) ex_numbers = .ok ⟨some 2⟩ ∧
      ∃ r t, erase 0 ⟨some 2⟩ ex_numbers = (.ok r, t) ∧
        elements 4 0 t = .ok [3, 15, 92, 6] ∧ size 0 t + 1 = size 0 ex_numbers ∧
        BasicIterator.operator_inc ⟨some 2⟩ t = .ok r ∧ r.operator_deref t = .ok 15 := by
  obtain ⟨r, t, h, hel, hsz, hinc, _, hder⟩ :=
    erase_removes_after_pos ex_numbers 0 _ 1 ⟨some 2⟩ ex_numbers_WF ex_numbers_isList
      (by decide) rfl
  exact ⟨ex_numbers_WF, ex_numbers_isList, by decide, rfl, r, t, h, hel 4 (by decide), hsz,
    hinc, hder 15 rfl⟩

/-- Claim C6, evaluation at the failing input: on the one-element list `{1}`,
`erase(begin())` (the position of the last real node) passes both assertions
and then reads `pos.node_->next_node->next_node` through a null pointer; no
assertion fails. -/
theorem erase_at_last_node_is_invalid_access :
    elements 1 0 ex_single = .ok [1] ∧ size 0 ex_single = 1 ∧
      begin 0 ex_single = .ok ⟨some 2⟩ ∧
      BasicIterator.operator_inc ⟨some 2⟩ ex_single = .ok (end_ 0) ∧
      (erase 0 ⟨some 2⟩ ex_single).1 = .error .invalid_access ∧
      (erase 0 ⟨some 2⟩ ex_single).1 ≠ .error .assertion :=
  ⟨rfl, rfl, rfl, rfl, rfl, fun h => by cases h⟩

/-- Claim C7: copy construction from a list `L` yields a list with the same size and
the same sequence of element values in the same order, and leaves the contents
and size of `L` unchanged; an empty `L` gives an empty copy. -/
theorem ctor_copy_same_sequence {α : Type} [Inhabited α] (copy_ctor : α → Option α)
    (s : Memory α) (L : Nat) (cs : List (Nat × α)) (fuel : Nat)
    (hs : s.WF) (hl : IsList s L cs) (hf : cs.length ≤ fuel)
    (hc : ∀ x ∈ cs.map Prod.snd, copy_ctor x = some x) :
    ∃ c t, ctor_copy copy_ctor fuel L s = (.ok c, t) ∧ c ≠ L ∧
      size c t = size L s ∧ (∀ f, cs.length ≤ f → elements f c t = .ok (cs.map Prod.snd)) ∧
      size L t = size L s ∧ (∀ f, cs.length ≤ f → elements f L t = .ok (cs.map Prod.snd)) ∧
      (cs = [] → empty c t = true) := by
  obtain ⟨r, t, h, _, hfr, hout⟩ := ctor_copy_spec copy_ctor hs hl hf
  have hl2 : IsList t L cs := IsList.frame hs hl hfr (by simp)
  rcases hout with ⟨hr, cs2, hc2, _, hall⟩ | ⟨_, x, hx, hn⟩
  · subst hr
    have hmap := copies_map_snd hall hc
    have hlen : cs2.length = cs.length := by
      have := congrArg List.length hmap
      simpa using this
    have hlt := hl.below_brk hs L (List.mem_cons_self _ _)
    refine ⟨s.brk, t, h, by omega, by rw [hc2.size_eq, hl.size_eq, hlen],
      fun f hf2 => by rw [hc2.elements_eq (by omega), hmap], by rw [hl2.size_eq, hl.size_eq],
      fun f hf2 => hl2.elements_eq hf2, fun hnil => ?_⟩
    have h0 : t.size_ s.brk = 0 := by
      rw [hc2.2.2, hlen, hnil]
      rfl
    simp [empty, h0]
  · rw [hc x hx] at hn
    cases hn

/-- Witness of C7: a copy of `{3, 14, 15, 92, 6}`. -/
theorem ctor_copy_same_sequence_witness :
    ex_numbers.WF ∧ IsList ex_numbers 0 [(2, 3), (3, 14), (4, 15), (5, 92), (6, 6)] ∧
      ∃ c t, ctor_copy some 5 0 ex_numbers = (.ok c, t) ∧ c ≠ 0 ∧
        size c t = size 0 ex_numbers ∧ elements 5 c t = .ok [3, 14, 15, 92, 6] ∧
        size 0 t = size 0 ex_numbers ∧ elements 5 0 t = .ok [3, 14, 15, 92, 6] := by
  obtain ⟨c, t, h, hne, hsz, hel, hsz2, hel2, _⟩ :=
    ctor_copy_same_sequence some ex_numbers 0 _ 5 ex_numbers_WF ex_numbers_isList (by decide)
      (fun _ _ => rfl)
  exact ⟨ex_numbers_WF, ex_numbers_isList, c, t, h, hne, hsz, hel 5 (by decide), hsz2,
    hel2 5 (by decide)⟩

/-- Claim C8: for lists `A` and `B` (any sizes, `A` possibly empty), after the copy
assignment `B = A` with no element copy failing, `B` has exactly the sequence
of element values and the size of `A`, whatever `B` held before, and `A` is
unchanged; assigning a list to itself changes nothing. -/
theorem operator_assign_copies {α : Type} [Inhabited α] (copy_ctor : α → Option α)
    (s : Memory α) (A B : Nat) (ca cb : List (Nat × α)) (fuel : Nat)
    (hs : s.WF) (hA : IsList s A ca) (hB : IsList s B cb)
    (hdisj : ∀ x ∈ B :: cb.map Prod.fst, x ∉ A :: ca.map Prod.fst)
    (hfa : ca.length ≤ fuel) (hfb : cb.length ≤ fuel)
    (hc : ∀ x ∈ ca.map Prod.snd, copy_ctor x = some x) :
    (∃ t, operator_assign copy_ctor fuel B A s = (.ok B, t) ∧
      size B t = size A s ∧ (∀ f, ca.length ≤ f → elements f B t = .ok (ca.map Prod.snd)) ∧
      size A t = size A s ∧ (∀ f, ca.length ≤ f → elements f A t = .ok (ca.map Prod.snd))) ∧
    operator_assign copy_ctor fuel A A s = (.ok A, s) := by
  refine ⟨?_, by simp [operator_assign]⟩
  obtain ⟨r, t, h, _, hA2, hout⟩ := operator_assign_spec copy_ctor hs hB hA hdisj hfb hfa
  rcases hout with ⟨hr, cs2, hB2, hall⟩ | ⟨_, ⟨x, hx, hn⟩, _⟩
  · subst hr
    have hmap := copies_map_snd hall hc
    have hlen : cs2.length = ca.length := by
      have := congrArg List.length hmap
      simpa using this
    exact ⟨t, h, by rw [hB2.size_eq, hA.size_eq, hlen],
      fun f hf => by rw [hB2.elements_eq (by omega), hmap], by rw [hA2.size_eq, hA.size_eq],
      fun f hf => hA2.elements_eq hf⟩
  · rw [hc x hx] at hn
    cases hn

/-- Witness of C8: `receiver = source_list` of `Test3`. -/
theorem operator_assign_copies_witness :
    ex_two.WF ∧ IsList ex_two 0 [(2, 1), (3, 2), (4, 3), (5, 4)] ∧
      IsList ex_two 6 [(8, 5), (9, 4), (10, 3), (11, 2), (12, 1)] ∧
      ∃ t, operator_assign some 5 6 0 ex_two = (.ok 6, t) ∧ size 6 t = 4 ∧
        elements 4 6 t = .ok [1, 2, 3, 4] ∧ size 0 t = 4 ∧
        elements 4 0 t = .ok [1, 2, 3, 4] := by
  obtain ⟨t, h, hsz, hel, hsz2, hel2⟩ :=
    (operator_assign_copies some ex_two 0 6 _ _ 5 ex_two_WF ex_two_source ex_two_receiver
      (by decide) (by decide) (by decide) (fun _ _ => rfl)).1
  exact ⟨ex_two_WF, ex_two_source, ex_two_receiver, t, h, hsz, hel 4 (by decide), hsz2,
    hel2 4 (by decide)⟩

/-- Claim C9: copy assignment is atomic on failure: when the copy of an element of
`A` throws during `B = A`, the exception reaches the caller and `B` has exactly
the size and the element sequence it had before the call. -/
theorem operator_assign_atomic {α : Type} [Inhabited α] (copy_ctor : α → Option α)
    (s : Memory α) (A B : Nat) (ca cb : List (Nat × α)) (fuel : Nat)
    (hs : s.WF) (hA : IsList s A ca) (hB : IsList s B cb)
    (hdisj : ∀ x ∈ B :: cb.map Prod.fst, x ∉ A :: ca.map Prod.fst)
    (hfa : ca.length ≤ fuel) (hfb : cb.length ≤ fuel)
    (hthrow : ∃ x ∈ ca.map Prod.snd, copy_ctor x = none) :
    ∃ t, operator_assign copy_ctor fuel B A s = (.error .bad_alloc, t) ∧
      size B t = size B s ∧
      ∀ f, cb.length ≤ f →
        elements f B t = .ok (cb.map Prod.snd) ∧ elements f B s = .ok (cb.map Prod.snd) := by
  obtain ⟨r, t, h, _, _, hout⟩ := operator_assign_spec copy_ctor hs hB hA hdisj hfb hfa
  rcases hout with ⟨_, cs2, _, hall⟩ | ⟨hr, _, hB2⟩
  · obtain ⟨x, hx, hn⟩ := hthrow
    exact absurd hn (copies_no_throw hall x hx)
  · subst hr
    exact ⟨t, h, by rw [hB2.size_eq, hB.size_eq],
      fun f hf => ⟨hB2.elements_eq hf, hB.elements_eq hf⟩⟩

/-- Witness of C9: `dst_list = src_list` of `Test3`, the second element of
`src_list` throwing on copy. -/
theorem operator_assign_atomic_witness :
    ex_throw.WF ∧ IsList ex_throw 0 [(2, none), (3, some 0), (4, none)] ∧
      IsList ex_throw 5 [(7, none), (8, some 10)] ∧
      (∃ x ∈ [none, some 0, none], ThrowOnCopy_copy x = none) ∧
      ∃ t, operator_assign ThrowOnCopy_copy 3 5 0 ex_throw = (.error .bad_alloc, t) ∧
        size 5 t = 2 ∧ elements 2 5 t = .ok [none, some 10] := by
  have hthrow : ∃ x ∈ [none, some 0, none], ThrowOnCopy_copy x = none :=
    ⟨some 0, by decide, rfl⟩
  obtain ⟨t, h, hsz, hel⟩ :=
    operator_assign_atomic ThrowOnCopy_copy ex_throw 0 5 _ _ 3 ex_throw_WF ex_throw_src
      ex_throw_dst (by decide) (by decide) (by decide) hthrow
  exact ⟨ex_throw_WF, ex_throw_src, ex_throw_dst, hthrow, t, h, hsz, (hel 2 (by decide)).1⟩

/-- Claim C10, evaluation at the failing input: the lists `{1, 2}` and `{1, 3}` have
equal length and differ at their second element, yet `operator==` of
`custom_list.h` returns `true` and its `operator!=` returns `false` (the
disjunct `lhs.size() == rhs.size()` decides); `operator==` of
`CustomForwardList.cpp` returns `false` on the same lists. -/
theorem operator_eq_true_on_equal_sizes :
    elements 2 0 ex_differ = .ok [1, 2] ∧ elements 2 4 ex_differ = .ok [1, 3] ∧
      operator_eq 2 0 4 ex_differ = .ok true ∧ operator_ne 2 0 4 ex_differ = .ok false ∧
      operator_eq_cpp 2 0 4 ex_differ = .ok false ∧
      operator_ne_cpp 2 0 4 ex_differ = .ok true :=
  ⟨rfl, rfl, rfl, rfl, rfl, rfl⟩

/-- Claim C11, evaluation at the failing input: the lists `{1, 2, 3}` and
`{1, 2, 3, 1}` have different lengths, yet `{1, 2, 3} == {1, 2, 3, 1}` returns
`true` and `!=` returns `false`, in `custom_list.h` and in
`CustomForwardList.cpp`; the empty list compares equal to `{1, 2, 3}` too; and
with the longer list on the left the comparison dereferences `end()` and
fails an assertion instead of returning `false`. -/
theorem operator_eq_true_on_prefix :
    elements 3 0 ex_order = .ok [1, 2, 3] ∧ elements 4 5 ex_order = .ok [1, 2, 3, 1] ∧
      elements 0 16 ex_order = .ok [] ∧
      operator_eq 4 0 5 ex_order = .ok true ∧ operator_ne 4 0 5 ex_order = .ok false ∧
      operator_eq 4 16 0 ex_order = .ok true ∧ operator_ne 4 16 0 ex_order = .ok false ∧
      operator_eq 4 5 0 ex_order = .error .assertion ∧
      operator_ne 4 5 0 ex_order = .error .assertion ∧
      operator_eq_cpp 4 0 5 ex_order = .ok true ∧ operator_ne_cpp 4 0 5 ex_order = .ok false ∧
      operator_eq_cpp 4 16 0 ex_order = .ok true ∧
      operator_eq_cpp 4 5 0 ex_order = .error .assertion :=
  ⟨rfl, rfl, rfl, rfl, rfl, rfl, rfl, rfl, rfl, rfl, rfl, rfl, rfl⟩

/-- Claim C12, evaluation at the failing input: with `a = {1, 2, 3}` and
`b = {1, 2, 3, 1}`, `a == b` returns `true` while `b == a` fails an assertion, so
the two calls do not return the same result; `a == a` and `b == b` are `true`. -/
theorem operator_eq_not_symmetric :
    operator_eq 4 0 0 ex_order = .ok true ∧ operator_eq 4 5 5 ex_order = .ok true ∧
      operator_eq 4 0 5 ex_order = .ok true ∧
      operator_eq 4 5 0 ex_order = .error .assertion ∧
      operator_eq 4 0 5 ex_order ≠ operator_eq 4 5 0 ex_order :=
  ⟨rfl, rfl, rfl, rfl, fun h => by cases h⟩

/-- Claim C13: `operator<` is the lexicographic comparison of the element sequences:
`a < b` holds exactly when `a` is a proper prefix of `b`, or at the first index
where they differ the element of `a` is less than that of `b`; and `a > b` holds
exactly when `b < a`. -/
theorem operator_lt_lexicographic {α : Type} [LinearOrder α] (s : Memory α) (a b : Nat)
    (ca cb : List (Nat × α)) (fuel : Nat) (ha : IsList s a ca) (hb : IsList s b cb)
    (hf : min ca.length cb.length ≤ fuel) :
    (∃ r, operator_lt fuel a b s = .ok r ∧
      (r = true ↔ LexLess (ca.map Prod.snd) (cb.map Prod.snd))) ∧
    (∃ r, operator_gt fuel a b s = .ok r ∧
      (r = true ↔ LexLess (cb.map Prod.snd) (ca.map Prod.snd))) ∧
    operator_gt fuel a b s = operator_lt fuel b a s :=
  ⟨⟨_, operator_lt_spec ha hb hf, lex_loop_iff _ _⟩,
    ⟨_, operator_lt_spec hb ha (by rw [Nat.min_comm]; exact hf), lex_loop_iff _ _⟩, rfl⟩

/-- Witness of C13: `{1, 2, 3} < {1, 2, 3, 1}` (`Test3`). -/
theorem operator_lt_lexicographic_witness :
    IsList ex_order 0 [(2, 1), (3, 2), (4, 3)] ∧
      IsList ex_order 5 [(7, 1), (8, 2), (9, 3), (10, 1)] ∧ min 3 4 ≤ 3 ∧
      operator_lt 3 0 5 ex_order = .ok true ∧ operator_gt 3 0 5 ex_order = .ok false := by
  obtain ⟨⟨r, hr, hiff⟩, _, _⟩ :=
    operator_lt_lexicographic ex_order 0 5 _ _ 3 ex_order_first ex_order_second (by decide)
  refine ⟨ex_order_first, ex_order_second, by decide, ?_, ?_⟩
  · have : r = true := hiff.2 (Or.inl ⟨[1], by simp, rfl⟩)
    rw [hr, this]
  · rfl

/-- Claim C14: for two lists `A` and `B`, the same object or two objects that share no
node, after `A.swap(B)`, or the free function `swap(A, B)`, `A` has exactly the
former element sequence, size and first node of `B`, and `B` those of `A`;
swapping a second time restores both lists. -/
theorem swap_exchanges {α : Type} (s : Memory α) (A B : Nat) (ca cb : List (Nat × α))
    (hs : s.WF) (hA : IsList s A ca) (hB : IsList s B cb)
    (hdisj : A = B ∨ ∀ x ∈ A :: ca.map Prod.fst, x ∉ B :: cb.map Prod.fst) :
    ∃ t, swap A B s = (.ok (), t) ∧ swap_free A B s = (.ok (), t) ∧
      size A t = size B s ∧ size B t = size A s ∧
      (∀ f, cb.length ≤ f → elements f A t = .ok (cb.map Prod.snd)) ∧
      (∀ f, ca.length ≤ f → elements f B t = .ok (ca.map Prod.snd)) ∧
      begin A t = begin B s ∧ begin B t = begin A s ∧
      ∃ u, swap A B t = (.ok (), u) ∧ swap_free A B t = (.ok (), u) ∧
        size A u = size A s ∧ size B u = size B s ∧
        (∀ f, ca.length ≤ f → elements f A u = .ok (ca.map Prod.snd)) ∧
        (∀ f, cb.length ≤ f → elements f B u = .ok (cb.map Prod.snd)) ∧
        begin A u = begin A s ∧ begin B u = begin B s := by
  have key : ∃ t, swap A B s = (.ok (), t) ∧ IsList t A cb ∧ IsList t B ca ∧
      ∃ u, swap A B t = (.ok (), u) ∧ IsList u A ca ∧ IsList u B cb := by
    rcases hdisj with hAB | hdisj
    · subst hAB
      have hcc : ca = cb := hA.same_nodes hB
      subst hcc
      obtain ⟨t, ht, hA1, hs1, _⟩ := swap_self hs hA
      obtain ⟨u, hu, hA2, _, _⟩ := swap_self hs1 hA1
      exact ⟨t, ht, hA1, hA1, u, hu, hA2, hA2⟩
    · obtain ⟨t, ht, hA1, hB1, hs1, _, _⟩ := swap_spec hs hA hB hdisj
      obtain ⟨u, hu, hA2, hB2, _, _, _⟩ := swap_spec hs1 hA1 hB1 (fun x hx h => by
        rcases List.mem_cons.1 hx with hx | hx <;> rcases List.mem_cons.1 h with h | h
        · exact hdisj A (List.mem_cons_self _ _) (by rw [← hx, h]; exact List.mem_cons_self _ _)
        · exact (List.nodup_cons.1 hA.2.1).1 (hx ▸ h)
        · exact (List.nodup_cons.1 hB.2.1).1 (h ▸ hx)
        · exact hdisj x (List.mem_cons_of_mem _ h) (List.mem_cons_of_mem _ hx))
      exact ⟨t, ht, hA1, hB1, u, hu, hA2, hB2⟩
  obtain ⟨t, ht, hA1, hB1, u, hu, hA2, hB2⟩ := key
  refine ⟨t, ht, ht, by rw [hA1.size_eq, hB.size_eq], by rw [hB1.size_eq, hA.size_eq],
    fun f hf => hA1.elements_eq hf, fun f hf => hB1.elements_eq hf,
    by rw [hA1.begin_eq, hB.begin_eq], by rw [hB1.begin_eq, hA.begin_eq],
    u, hu, hu, by rw [hA2.size_eq, hA.size_eq], by rw [hB2.size_eq, hB.size_eq],
    fun f hf => hA2.elements_eq hf, fun f hf => hB2.elements_eq hf,
    by rw [hA2.begin_eq, hA.begin_eq], by rw [hB2.begin_eq, hB.begin_eq]⟩

/-- Witness of C14: swapping `source_list{1, 2, 3, 4}` and `receiver{5, 4, 3, 2, 1}`. -/
theorem swap_exchanges_witness :
    ex_two.WF ∧ IsList ex_two 0 [(2, 1), (3, 2), (4, 3), (5, 4)] ∧
      IsList ex_two 6 [(8, 5), (9, 4), (10, 3), (11, 2), (12, 1)] ∧
      ∃ t, swap 0 6 ex_two = (.ok (), t) ∧ size 0 t = 5 ∧ size 6 t = 4 ∧
        elements 5 0 t = .ok [5, 4, 3, 2, 1] ∧ elements 4 6 t = .ok [1, 2, 3, 4] ∧
        ∃ u, swap_free 0 6 t = (.ok (), u) ∧ size 0 u = 4 ∧ size 6 u = 5 ∧
          elements 4 0 u = .ok [1, 2, 3, 4] ∧ elements 5 6 u = .ok [5, 4, 3, 2, 1] := by
  obtain ⟨t, ht, _, h1, h2, h3, h4, _, _, u, _, hu, h5, h6, h7, h8, _, _⟩ :=
    swap_exchanges ex_two 0 6 _ _ ex_two_WF ex_two_source ex_two_receiver
      (Or.inr (by decide))
  exact ⟨ex_two_WF, ex_two_source, ex_two_receiver, t, ht, h1, h2, h3 5 (by decide),
    h4 4 (by decide), u, hu, h5, h6, h7 4 (by decide), h8 5 (by decide)⟩

/-- Claim C15: for every list, `clear()` terminates without failing (any bound on
the loop of at least the number of nodes gives the result) and leaves the list
with no elements: `size()` is 0, `empty()` is true and `begin()` equals `end()`. -/
theorem clear_empties {α : Type} (s : Memory α) (l : Nat) (cs : List (Nat × α)) (fuel : Nat)
    (hs : s.WF) (hl : IsList s l cs) (hf : cs.length ≤ fuel) :
    ∃ t, clear fuel l s = (.ok (), t) ∧ size l t = 0 ∧ empty l t = true ∧
      (∃ b, begin l t = .ok b ∧ b.operator_eq (end_ l) = true) ∧
      ∀ f, elements f l t = .ok [] := by
  obtain ⟨t, ht, hl2, _, _, _, _⟩ := clear_spec hs hl hf
  have hsz : t.size_ l = 0 := hl2.2.2
  exact ⟨t, ht, hsz, by simp [empty, hsz], ⟨_, hl2.begin_eq, rfl⟩,
    fun f => hl2.elements_eq (Nat.zero_le f)⟩

/-- Witness of C15: clearing `{3, 14, 15, 92, 6}`. -/
theorem clear_empties_witness :
    ex_numbers.WF ∧ IsList ex_numbers 0 [(2, 3), (3, 14), (4, 15), (5, 92), (6, 6)] ∧ 5 ≤ 5 ∧
      ∃ t, clear 5 0 ex_numbers = (.ok (), t) ∧ size 0 t = 0 ∧ empty 0 t = true ∧
        begin 0 t = .ok (end_ 0) ∧ elements 0 0 t = .ok [] := by
  obtain ⟨t, ht, hsz, hem, ⟨b, hb, hbe⟩, hel⟩ :=
    clear_empties ex_numbers 0 _ 5 ex_numbers_WF ex_numbers_isList (by decide)
  refine ⟨ex_numbers_WF, ex_numbers_isList, by decide, t, ht, hsz, hem, ?_, hel 0⟩
  have : b = end_ 0 := by
    cases b
    simpa [BasicIterator.operator_eq, end_] using hbe
  rw [hb, this]


/-- Claim C16: `push_front(v)` followed by `pop_front()` leaves the list with exactly
its prior size and prior element sequence; more generally `n` calls of
`push_front` followed by `n` calls of `pop_front` restore the original size and
contents (the element copies not throwing). -/
theorem push_pop_restores {α : Type} (copy_ctor : α → Option α) (s : Memory α) (l : Nat)
    (cs : List (Nat × α)) (hs : s.WF) (hl : IsList s l cs) :
    (∀ v, copy_ctor v ≠ none →
      ∃ t u, push_front copy_ctor l v s = (.ok (), t) ∧ pop_front l t = (.ok (), u) ∧
        size l u = size l s ∧
        ∀ f, cs.length ≤ f → elements f l u = .ok (cs.map Prod.snd) ∧
          elements f l s = .ok (cs.map Prod.snd)) ∧
    (∀ vs : List α, (∀ x ∈ vs, copy_ctor x ≠ none) →
      ∃ t u, push_front_all copy_ctor l vs s = (.ok (), t) ∧
        pop_front_n l vs.length t = (.ok (), u) ∧ size l u = size l s ∧
        ∀ f, cs.length ≤ f → elements f l u = .ok (cs.map Prod.snd) ∧
          elements f l s = .ok (cs.map Prod.snd)) := by
  constructor
  · intro v hv
    obtain ⟨w, hw⟩ := Option.ne_none_iff_exists'.1 hv
    obtain ⟨t, h1, hl1, hs1, _, _⟩ := push_front_spec hs hl hw
    obtain ⟨u, h2, hl2, _, _, _, _⟩ := pop_front_spec hs1 hl1
    exact ⟨t, u, h1, h2, by rw [hl2.size_eq, hl.size_eq],
      fun f hf => ⟨hl2.elements_eq hf, hl.elements_eq hf⟩⟩
  · intro vs hvs
    obtain ⟨t, cs2, h1, hl1, hs1, hlen⟩ := push_front_all_grows copy_ctor vs s cs hs hl hvs
    obtain ⟨u, h2, hl2, _⟩ := pop_front_n_spec cs2 t hs1 hl1
    rw [hlen] at h2
    exact ⟨t, u, h1, h2, by rw [hl2.size_eq, hl.size_eq],
      fun f hf => ⟨hl2.elements_eq hf, hl.elements_eq hf⟩⟩

/-- Witness of C16: pushing 7, 8, 9 onto `{3, 14, 15, 92, 6}` and popping three
times. -/
theorem push_pop_restores_witness :
    ex_numbers.WF ∧ IsList ex_numbers 0 [(2, 3), (3, 14), (4, 15), (5, 92), (6, 6)] ∧
      ∃ t u, push_front_all some 0 [7, 8, 9] ex_numbers = (.ok (), t) ∧
        pop_front_n 0 3 t = (.ok (), u) ∧ size 0 u = size 0 ex_numbers ∧
        elements 5 0 u = .ok [3, 14, 15, 92, 6] := by
  obtain ⟨t, u, h1, h2, hsz, hel⟩ :=
    (push_pop_restores some ex_numbers 0 _ ex_numbers_WF ex_numbers_isList).2 [7, 8, 9]
      (fun _ _ h => by cases h)
  exact ⟨ex_numbers_WF, ex_numbers_isList, t, u, h1, h2, hsz, (hel 5 (by decide)).1⟩

/-- Claim C17: `insert(before_begin(), v)` on an empty list produces the one-element
list `{v}`; and for every list, empty or not, the position returned by
`insert(before_begin(), v)` equals `begin()` of the resulting list and
dereferences to `v`. -/
theorem insert_before_begin {α : Type} (copy_ctor : α → Option α) (s : Memory α) (l : Nat)
    (cs : List (Nat × α)) (v : α) (hs : s.WF) (hl : IsList s l cs)
    (hc : copy_ctor v = some v) :
    ∃ r t, insert copy_ctor l (before_begin l) v s = (.ok r, t) ∧
      (∃ b, begin l t = .ok b ∧ r.operator_eq b = true) ∧ r.operator_deref t = .ok v ∧
      (cs = [] → size l t = 1 ∧ ∀ f, 1 ≤ f → elements f l t = .ok [v]) := by
  obtain ⟨t, h, hl2, _, _, _⟩ := insert_spec (q := l) hs hl 0 (by simp) hc
  have hl3 : IsList t l ((s.brk, v) :: cs) := by simpa using hl2
  obtain ⟨⟨hv, hch⟩, _, _⟩ := id hl3
  obtain ⟨nx, hnew⟩ := hch.live (s.brk, v) (by simp)
  refine ⟨⟨some s.brk⟩, t, h, ⟨_, hl3.begin_eq, by simp [BasicIterator.operator_eq]⟩,
    by simp [BasicIterator.operator_deref, hnew], ?_⟩
  rintro rfl
  exact ⟨hl3.size_eq, fun f hf => hl3.elements_eq (by simpa using hf)⟩

/-- Witness of C17: `insert(before_begin(), 123)` on the empty list (`Test4`). -/
theorem insert_before_begin_witness :
    ex_order.WF ∧ IsList ex_order 16 [] ∧
      ∃ r t, insert some 16 (before_begin 16) 123 ex_order = (.ok r, t) ∧
        begin 16 t = .ok r ∧ r.operator_deref t = .ok 123 ∧ size 16 t = 1 ∧
        elements 1 16 t = .ok [123] := by
  obtain ⟨r, t, h, ⟨b, hb, hbe⟩, hder, hone⟩ :=
    insert_before_begin some ex_order 16 [] 123 ex_order_WF ex_order_empty rfl
  have : r = b := by
    cases r
    cases b
    simpa [BasicIterator.operator_eq] using hbe
  exact ⟨ex_order_WF, ex_order_empty, r, t, h, by rw [hb, this], hder, (hone rfl).1,
    (hone rfl).2 1 (Nat.le_refl _)⟩

/-- Claim C18: single-element insertion is atomic on failure: when the copy of the
value throws during `push_front(value)` or `insert(pos, value)`, the exception
is propagated and the memory, hence the size and the element sequence of the
list, is exactly what it was; when the copy succeeds the size grows by exactly
one. -/
theorem insertion_atomic {α : Type} (copy_ctor : α → Option α) (s : Memory α) (l : Nat)
    (cs : List (Nat × α)) (k : Nat) (pos : BasicIterator) (v : α)
    (hs : s.WF) (hl : IsList s l cs) (hk : k ≤ cs.length)
    (hpos : advance k (before_begin l) s = .ok pos) :
    (copy_ctor v = none →
      push_front copy_ctor l v s = (.error .bad_alloc, s) ∧
      insert copy_ctor l pos v s = (.error .bad_alloc, s)) ∧
    (∀ w, copy_ctor v = some w →
      (∃ t, push_front copy_ctor l v s = (.ok (), t) ∧ size l t = size l s + 1) ∧
      (∃ r t, insert copy_ctor l pos v s = (.ok r, t) ∧ size l t = size l s + 1)) := by
  rw [hl.advance_eq (by omega)] at hpos
  cases hpos
  obtain ⟨q, hq⟩ : ∃ q, (l :: cs.map Prod.fst)[k]? = some q :=
    ⟨_, List.getElem?_eq_getElem (by simp; omega)⟩
  rw [hq]
  obtain ⟨nq, hnq⟩ := hl.nodes_live q (List.getElem?_mem hq)
  obtain ⟨hd, hn, _⟩ := hl.head_live
  constructor
  · intro hc
    exact ⟨by simp [push_front, new_Node, hc, hn], by simp [insert, new_Node, hc, hnq]⟩
  · intro w hc
    obtain ⟨t, h1, hl1, _, _, _⟩ := push_front_spec hs hl hc
    obtain ⟨t2, h2, hl2, _, _, _⟩ := insert_spec hs hl k hq hc
    refine ⟨⟨t, h1, by rw [hl1.size_eq, hl.size_eq]; simp⟩, ⟨_, t2, h2, ?_⟩⟩
    rw [hl2.size_eq, hl.size_eq]
    have h3 := congrArg List.length (List.take_append_drop k cs)
    simp only [List.length_append] at h3
    simp only [List.length_append, List.length_cons]
    omega

/-- Witness of C18: inserting into `dst_list` of `Test3` an element whose copy
throws, and one whose copy succeeds. -/
theorem insertion_atomic_witness :
    ex_throw.WF ∧ IsList ex_throw 5 [(7, none), (8, some 10)] ∧ 1 ≤ 2 ∧
      advance 1 (before_begin 5) ex_throw = .ok ⟨some 7⟩ ∧
      push_front ThrowOnCopy_copy 5 (some 0) ex_throw = (.error .bad_alloc, ex_throw) ∧
      insert ThrowOnCopy_copy 5 ⟨some 7⟩ (some 0) ex_throw = (.error .bad_alloc, ex_throw) ∧
      (∃ t, push_front ThrowOnCopy_copy 5 (some 3) ex_throw = (.ok (), t) ∧
        size 5 t = size 5 ex_throw + 1) ∧
      ∃ r t, insert ThrowOnCopy_copy 5 ⟨some 7⟩ (some 3) ex_throw = (.ok r, t) ∧
        size 5 t = size 5 ex_throw + 1 := by
  have hthrow := (insertion_atomic ThrowOnCopy_copy ex_throw 5 _ 1 ⟨some 7⟩ (some 0)
    ex_throw_WF ex_throw_dst (by decide) rfl).1 rfl
  have hok := (insertion_atomic ThrowOnCopy_copy ex_throw 5 _ 1 ⟨some 7⟩ (some 3)
    ex_throw_WF ex_throw_dst (by decide) rfl).2 (some 2) rfl
  exact ⟨ex_throw_WF, ex_throw_dst, by decide, rfl, hthrow.1, hthrow.2, hok.1, hok.2⟩

/-- Claim C19: over a totally ordered element type, `a <= b` holds exactly when `a`
is lexicographically less than `b` or `a` and `b` are the same element
sequence, and `a >= b` holds exactly when `b <= a`; in particular `a <= a` and
`a >= a` hold for every list `a`. -/
theorem operator_le_ge_lexicographic {α : Type} [LinearOrder α] (s : Memory α) (a b : Nat)
    (ca cb : List (Nat × α)) (fuel : Nat) (ha : IsList s a ca) (hb : IsList s b cb)
    (hf : ca.length ≤ fuel) :
    (∃ r, operator_le fuel a b s = .ok r ∧
      (r = true ↔ (LexLess (ca.map Prod.snd) (cb.map Prod.snd) ∨
        ca.map Prod.snd = cb.map Prod.snd))) ∧
    (∃ r, operator_ge fuel a b s = .ok r ∧
      (r = true ↔ (LexLess (cb.map Prod.snd) (ca.map Prod.snd) ∨
        cb.map Prod.snd = ca.map Prod.snd))) ∧
    operator_ge fuel a b s = operator_le fuel b a s ∧
    operator_le fuel a a s = .ok true ∧ operator_ge fuel a a s = .ok true := by
  have hmin : min ca.length cb.length ≤ fuel := Nat.le_trans (Nat.min_le_left _ _) hf
  have hmin2 : min cb.length ca.length ≤ fuel := by rw [Nat.min_comm]; exact hmin
  have hself : lex_loop (ca.map Prod.snd) (ca.map Prod.snd) = false :=
    (lex_loop_not_gt _ _).2 (Or.inr rfl)
  refine ⟨⟨!lex_loop (cb.map Prod.snd) (ca.map Prod.snd), ?_, ?_⟩,
    ⟨!lex_loop (ca.map Prod.snd) (cb.map Prod.snd), ?_, ?_⟩, rfl, ?_, ?_⟩
  · simp [operator_le, operator_gt, operator_lt_spec hb ha hmin2]
  · rw [← lex_loop_iff, ← lex_loop_not_gt]
    simp
  · simp [operator_ge, operator_lt_spec ha hb hmin]
  · rw [← lex_loop_iff, ← lex_loop_not_gt]
    simp
  · simp [operator_le, operator_gt, operator_lt_spec ha ha (by simpa using hf), hself]
  · simp [operator_ge, operator_lt_spec ha ha (by simpa using hf), hself]

/-- Witness of C19: `{1, 2, 3} <= {1, 2, 3}` and `{1, 2, 3} >= {1, 2, 3}` (`Test3`),
and `{1, 2, 3} <= {1, 2, 4}`. -/
theorem operator_le_ge_lexicographic_witness :
    IsList ex_order 0 [(2, 1), (3, 2), (4, 3)] ∧ IsList ex_order 11 [(13, 1), (14, 2), (15, 4)] ∧
      3 ≤ 3 ∧ operator_le 3 0 11 ex_order = .ok true ∧ operator_ge 3 0 11 ex_order = .ok false ∧
      operator_le 3 0 0 ex_order = .ok true ∧ operator_ge 3 0 0 ex_order = .ok true := by
  obtain ⟨⟨r, hr, hiff⟩, _, _, hle, hge⟩ :=
    operator_le_ge_lexicographic ex_order 0 11 _ _ 3 ex_order_first ex_order_third (by decide)
  refine ⟨ex_order_first, ex_order_third, by decide, ?_, rfl, hle, hge⟩
  have : r = true := hiff.2 (Or.inl (Or.inr ⟨[1, 2], 3, 4, [], [], rfl, rfl, by decide,
    by decide⟩))
  rw [hr, this]

/-- Claim C20: in every memory reached from the empty one by constructing lists (default,
from a sequence, by copy) and calling `push_front`, `pop_front`, `insert`, `erase`,
`clear`, `swap` and copy assignment on them, each call returning normally or
propagating a failed element copy, every list `l` has its cached `size()` equal to the
number of elements that an iteration from `begin()` to `end()` visits, the iteration
ends whenever it is given that many steps, and `empty()` is true exactly when
`begin() == end()`. -/
theorem size_invariant_reachable {α : Type} [Inhabited α] (copy_ctor : α → Option α)
    (s : Memory α) (ls : List Nat) (l : Nat)
    (h : Reachable copy_ctor s ls) (hl : l ∈ ls) :
    ∃ xs : List α, size l s = xs.length ∧
      (∀ fuel, xs.length ≤ fuel → elements fuel l s = .ok xs) ∧
      ∃ b, begin l s = .ok b ∧ (empty l s = true ↔ b.operator_eq (end_ l) = true) := by
  obtain ⟨_, cs, hall, _⟩ := inv_of_reachable h
  have hil := hall l hl
  refine ⟨(cs l).map Prod.snd, by rw [hil.size_eq, List.length_map], fun fuel hf => ?_,
    _, hil.begin_eq, ?_⟩
  · exact hil.elements_eq (by simpa using hf)
  · have hsz : s.size_ l = (cs l).length := hil.2.2
    cases hcs : cs l with
    | nil => simp [empty, hsz, hcs, BasicIterator.operator_eq, end_]
    | cons c R => simp [empty, hsz, hcs, BasicIterator.operator_eq, end_]

theorem size_invariant_reachable_witness :
    (0 : Nat) ∈ [5, 0] ∧
      ∃ xs : List Int, size 0 ex_copied = xs.length ∧
        (∀ fuel, xs.length ≤ fuel → elements fuel 0 ex_copied = .ok xs) ∧
        ∃ b, begin 0 ex_copied = .ok b ∧
          (empty 0 ex_copied = true ↔ b.operator_eq (end_ 0) = true) := by
  have h1 : Reachable (some : Int → Option Int) ex_built [0] :=
    Reachable.ctor_il 3 [1, 2, 3] Reachable.init (by decide) (Prod.ext rfl rfl)
  have h2 : Reachable (some : Int → Option Int) ex_popped [0] :=
    Reachable.pop_front 0 h1 (by decide) (Prod.ext rfl rfl)
  have h3 : Reachable (some : Int → Option Int) ex_copied [5, 0] :=
    Reachable.ctor_copy 3 0 h2 (by decide) (by decide) (Prod.ext rfl rfl)
  exact ⟨by decide, size_invariant_reachable some ex_copied [5, 0] 0 h3 (by decide)⟩

/-- Claim C21, the claim as stated fails: dereferencing `before_begin()` of the list
`{3, 14, 15, 92, 6}` passes `assert(node_ != nullptr)`, the sentinel being a
real `Node`, and `operator*` returns the value member of the sentinel, the
value-initialised `int` 0; `operator->` returns the pointer to that member.  No
assertion fails. -/
theorem deref_before_begin_returns :
    (before_begin 0).operator_deref ex_numbers = .ok 0 ∧
      (cbefore_begin 0).operator_deref ex_numbers = .ok 0 ∧
      (before_begin 0).operator_arrow = .ok 0 ∧
      (before_begin 0).operator_deref ex_numbers ≠ .error .assertion ∧
      (before_begin 0).operator_arrow ≠ .error .assertion :=
  ⟨rfl, rfl, rfl, fun h => (by cases h), fun h => (by cases h)⟩

/-- Claim C21, as amended: for every list, dereferencing `end()` (or `cend()`) with
`operator*` or `operator->` fails by assertion; dereferencing `before_begin()`
(or `cbefore_begin()`) does not fail: `operator*` returns the value member of
the sentinel `head_` and `operator->` the pointer to it. -/
theorem deref_end_asserts {α : Type} (s : Memory α) (l : Nat) (cs : List (Nat × α))
    (hl : IsList s l cs) :
    (end_ l).operator_deref s = .error .assertion ∧
      (end_ l).operator_arrow = .error .assertion ∧
      ∃ head_, s.node l = some head_ ∧
        (before_begin l).operator_deref s = .ok head_.value ∧
        (cbefore_begin l).operator_deref s = .ok head_.value ∧
        (before_begin l).operator_arrow = .ok l ∧
        (cbefore_begin l).operator_arrow = .ok l := by
  obtain ⟨hd, hn, _⟩ := hl.head_live
  exact ⟨rfl, rfl, hd, hn, by simp [before_begin, BasicIterator.operator_deref, hn],
    by simp [cbefore_begin, BasicIterator.operator_deref, hn], rfl, rfl⟩

/-- Witness of C21: the list `{3, 14, 15, 92, 6}`. -/
theorem deref_end_asserts_witness :
    IsList ex_numbers 0 [(2, 3), (3, 14), (4, 15), (5, 92), (6, 6)] ∧
      (end_ 0).operator_deref ex_numbers = .error .assertion ∧
      (end_ 0).operator_arrow = .error .assertion ∧
      ∃ head_, ex_numbers.node 0 = some head_ ∧
        (before_begin 0).operator_deref ex_numbers = .ok head_.value ∧
        (cbefore_begin 0).operator_deref ex_numbers = .ok head_.value ∧
        (before_begin 0).operator_arrow = .ok 0 ∧
        (cbefore_begin 0).operator_arrow = .ok 0 :=
  ⟨ex_numbers_isList, deref_end_asserts ex_numbers 0 _ ex_numbers_isList⟩

/-- Claim C22: a copy shares no node with its source.  For every non-empty list `L`
whose elements are copied without an exception, the copy constructor and the
copy assignment `C = L` (to a list `C` that shares no node with `L`) return, and
for the copy `C` either of them makes: `C.begin() != L.begin()`, `C` and `L`
have the size and the element sequence of `L`, and after any number of later
calls of `push_front`, `pop_front`, `insert`, `erase`, `clear` or element
writes on one of the two lists the other one has that size and that element
sequence still. -/
theorem copy_is_independent {α : Type} [Inhabited α] (copy_ctor : α → Option α)
    (s : Memory α) (L : Nat) (cs : List (Nat × α)) (fuel : Nat)
    (hs : s.WF) (hL : IsList s L cs) (hne : cs ≠ [])
    (hc : ∀ x ∈ cs.map Prod.snd, copy_ctor x = some x) (hf : cs.length ≤ fuel) :
    (∃ C t, ctor_copy copy_ctor fuel L s = (.ok C, t)) ∧
    (∀ C old, IsList s C old → (∀ x ∈ C :: old.map Prod.fst, x ∉ L :: cs.map Prod.fst) →
      old.length ≤ fuel → ∃ t, operator_assign copy_ctor fuel C L s = (.ok C, t)) ∧
    ∀ C t, (ctor_copy copy_ctor fuel L s = (.ok C, t) ∨
        ((∃ old, IsList s C old ∧ (∀ x ∈ C :: old.map Prod.fst, x ∉ L :: cs.map Prod.fst) ∧
            old.length ≤ fuel) ∧ operator_assign copy_ctor fuel C L s = (.ok C, t))) →
      (∃ bC bL, begin C t = .ok bC ∧ begin L t = .ok bL ∧ bC.operator_ne bL = true) ∧
      size C t = size L s ∧ size L t = size L s ∧
      (∀ f, cs.length ≤ f → elements f C t = .ok (cs.map Prod.snd) ∧
        elements f L t = .ok (cs.map Prod.snd)) ∧
      ∀ X Y, (X = C ∧ Y = L) ∨ (X = L ∧ Y = C) →
        ∀ u, Relation.ReflTransGen (Mutation copy_ctor X) t u →
          size Y u = size L s ∧
          ∀ f, cs.length ≤ f → elements f Y u = .ok (cs.map Prod.snd) := by
  have hLlt := hL.below_brk hs
  -- the copy constructor
  have hctor : ∃ C t, ctor_copy copy_ctor fuel L s = (.ok C, t) ∧ t.WF ∧ IsList t L cs ∧
      ∃ cC, IsList t C cC ∧ cC.map Prod.snd = cs.map Prod.snd ∧
        ∀ x ∈ C :: cC.map Prod.fst, x ∉ L :: cs.map Prod.fst := by
    obtain ⟨r, t, h, hwf, hfr, hout⟩ := ctor_copy_spec copy_ctor hs hL hf
    rcases hout with ⟨hr, cC, hC, hfresh, hall⟩ | ⟨_, x, hx, hxn⟩
    · refine ⟨s.brk, t, by rw [h, hr], hwf, IsList.frame hs hL hfr (by simp), cC, hC,
        copies_map_snd hall hc, fun x hx hxL => ?_⟩
      have h1 := hLlt x hxL
      rcases List.mem_cons.1 hx with h2 | h2
      · omega
      · rcases List.mem_map.1 h2 with ⟨c, hcm, rfl⟩
        have := hfresh c hcm
        omega
    · rw [hc x hx] at hxn
      cases hxn
  -- the copy assignment
  have hassign : ∀ C old, IsList s C old →
      (∀ x ∈ C :: old.map Prod.fst, x ∉ L :: cs.map Prod.fst) → old.length ≤ fuel →
      ∃ t, operator_assign copy_ctor fuel C L s = (.ok C, t) ∧ t.WF ∧ IsList t L cs ∧
        ∃ cC, IsList t C cC ∧ cC.map Prod.snd = cs.map Prod.snd ∧
          ∀ x ∈ C :: cC.map Prod.fst, x ∉ L :: cs.map Prod.fst := by
    intro C old hC hdisj hfo
    obtain ⟨r, t, h, hwf, hLt, _, hout⟩ := operator_assign_full copy_ctor hs hC hL hdisj hfo hf
    rcases hout with ⟨hr, cC, hCt, hfresh, hall⟩ | ⟨_, ⟨x, hx, hxn⟩, _⟩
    · refine ⟨t, by rw [h, hr], hwf, hLt, cC, hCt, copies_map_snd hall hc, fun x hx hxL => ?_⟩
      rcases List.mem_cons.1 hx with h2 | h2
      · exact hdisj C (List.mem_cons_self _ _) (h2 ▸ hxL)
      · rcases List.mem_map.1 h2 with ⟨c, hcm, rfl⟩
        have := hfresh c hcm
        have := hLlt c.1 hxL
        omega
    · rw [hc x hx] at hxn
      cases hxn
  refine ⟨?_, ?_, ?_⟩
  · obtain ⟨C, t, h, _⟩ := hctor
    exact ⟨C, t, h⟩
  · intro C old hC hdisj hfo
    obtain ⟨t, h, _⟩ := hassign C old hC hdisj hfo
    exact ⟨t, h⟩
  · intro C t hcopy
    have key : t.WF ∧ IsList t L cs ∧ ∃ cC, IsList t C cC ∧
        cC.map Prod.snd = cs.map Prod.snd ∧
        ∀ x ∈ C :: cC.map Prod.fst, x ∉ L :: cs.map Prod.fst := by
      rcases hcopy with h | ⟨⟨old, hC, hdisj, hfo⟩, h⟩
      · obtain ⟨C2, t2, h2, hrest⟩ := hctor
        rw [h2] at h
        obtain ⟨h3, h4⟩ := Prod.mk.inj h
        cases h3
        subst h4
        exact hrest
      · obtain ⟨t2, h2, hrest⟩ := hassign C old hC hdisj hfo
        rw [h2] at h
        obtain ⟨_, h4⟩ := Prod.mk.inj h
        subst h4
        exact hrest
    obtain ⟨hwf, hLt, cC, hCt, hval, hdisj⟩ := key
    have hlen : cC.length = cs.length := by
      have := congrArg List.length hval
      simpa using this
    refine ⟨?_, by rw [hCt.size_eq, hL.size_eq, hlen], by rw [hLt.size_eq, hL.size_eq],
      fun f hf2 => ⟨?_, hLt.elements_eq hf2⟩, ?_⟩
    · refine ⟨_, _, hCt.begin_eq, hLt.begin_eq, ?_⟩
      cases cs with
      | nil => exact absurd rfl hne
      | cons b cs2 =>
        cases cC with
        | nil => simp at hlen
        | cons a cC2 =>
          have hab : a.1 ≠ b.1 := fun h =>
            hdisj a.1 (by simp) (by simp [h])
          simp [BasicIterator.operator_ne, hab]
    · rw [← hval]
      exact hCt.elements_eq (by omega)
    · intro X Y hXY u hu
      rcases hXY with ⟨rfl, rfl⟩ | ⟨rfl, rfl⟩
      · obtain ⟨_, hYu, _⟩ := mutations_keep_other hwf hCt hLt hdisj hu
        exact ⟨by rw [hYu.size_eq, hL.size_eq], fun f hf2 => hYu.elements_eq hf2⟩
      · obtain ⟨_, hYu, _⟩ := mutations_keep_other hwf hLt hCt
          (fun x hx hxC => hdisj x hxC hx) hu
        refine ⟨by rw [hYu.size_eq, hL.size_eq, hlen], fun f hf2 => ?_⟩
        rw [← hval]
        exact hYu.elements_eq (by omega)

/-- Witness of C22: a copy of `{3, 14, 15, 92, 6}`; whatever is then pushed to the
front of the copy, and whatever is then done to the source, the other list
still holds 3, 14, 15, 92, 6. -/
theorem copy_is_independent_witness :
    ex_numbers.WF ∧ IsList ex_numbers 0 [(2, 3), (3, 14), (4, 15), (5, 92), (6, 6)] ∧
      ∃ C t, ctor_copy some 5 0 ex_numbers = (.ok C, t) ∧
        (∃ bC bL, begin C t = .ok bC ∧ begin 0 t = .ok bL ∧ bC.operator_ne bL = true) ∧
        elements 5 C t = .ok [3, 14, 15, 92, 6] ∧
        (∀ v u, push_front some C v t = (.ok (), u) → elements 5 0 u = .ok [3, 14, 15, 92, 6]) ∧
        ∀ u, Relation.ReflTransGen (Mutation some 0) t u →
          elements 5 C u = .ok [3, 14, 15, 92, 6] := by
  obtain ⟨⟨C, t, hct⟩, _, hall⟩ :=
    copy_is_independent (some : Int → Option Int) ex_numbers 0 _ 5 ex_numbers_WF
      ex_numbers_isList (by simp) (by simp) (by decide)
  obtain ⟨hb, _, _, hel, hmut⟩ := hall C t (Or.inl hct)
  refine ⟨ex_numbers_WF, ex_numbers_isList, C, t, hct, hb, (hel 5 (by decide)).1,
    fun v u hpush => ?_, fun u hu => ?_⟩
  · exact (hmut C 0 (Or.inl ⟨rfl, rfl⟩) u
      (Relation.ReflTransGen.single (Mutation.push_front v hpush))).2 5 (by decide)
  · exact (hmut 0 C (Or.inr ⟨rfl, rfl⟩) u hu).2 5 (by decide)

/-- Claim C23: the two implementations build the same list from the same input.  For
every input sequence `S` whose elements are copied without an exception, each
copy equal to its original, `assign` of `custom_list.h` (one pass appending at
the tail) and `assign` of `CustomForwardList.cpp` (every element pushed to the
front of `tmp_reverse`, then every element of `tmp_reverse` pushed to the front
of `tmp`, the member `PushFront` it calls being the one modelled from the spec)
both return and leave the list with the elements of `S` in the order of `S` and
with size `|S|`; so it is when the input is an `initializer_list` and when it is
another list holding `S`. -/
theorem assign_implementations_agree {α : Type} [Inhabited α] (copy_ctor : α → Option α)
    (s : Memory α) (self : Nat) (old : List (Nat × α)) (fuel : Nat) (S : List α)
    (hs : s.WF) (hself : IsList s self old) (hfo : old.length ≤ fuel)
    (hfS : S.length ≤ fuel) (hc : ∀ x ∈ S, copy_ctor x = some x) :
    (∃ t1 t2, assign_il copy_ctor fuel self S s = (.ok (), t1) ∧
      assign_cpp_il copy_ctor fuel self S s = (.ok (), t2) ∧
      size self t1 = S.length ∧ size self t2 = S.length ∧
      ∀ f, S.length ≤ f → elements f self t1 = .ok S ∧ elements f self t2 = .ok S) ∧
    ∀ src cs, IsList s src cs → cs.map Prod.snd = S →
      ∃ b t1 t2, begin src s = .ok b ∧
        assign_it copy_ctor fuel self b (end_ src) s = (.ok (), t1) ∧
        assign_cpp_list copy_ctor fuel self src s = (.ok (), t2) ∧
        size self t1 = S.length ∧ size self t2 = S.length ∧
        ∀ f, S.length ≤ f → elements f self t1 = .ok S ∧ elements f self t2 = .ok S := by
  have hobs : ∀ (t : Memory α) (T : List (Nat × α)), IsList t self T → T.map Prod.snd = S →
      size self t = S.length ∧ ∀ f, S.length ≤ f → elements f self t = .ok S := by
    intro t T hT hval
    have hlen : T.length = S.length := by
      have := congrArg List.length hval
      simpa using this
    refine ⟨by rw [hT.size_eq, hlen], fun f hf => ?_⟩
    rw [← hval]
    exact hT.elements_eq (by omega)
  constructor
  · obtain ⟨r, t1, h1, _, _, hout⟩ :=
      assign_il_spec copy_ctor S hs hself hfo (fun _ => hfS)
    obtain ⟨t2, T2, h2, hT2, hv2, _⟩ := assign_cpp_il_spec copy_ctor S hs hself hfo hfS hc
    rcases hout with ⟨hr, T1, hT1, hall, _⟩ | ⟨_, ⟨x, hx, hxn⟩, _⟩
    · obtain ⟨hsz1, hel1⟩ := hobs t1 T1 hT1 (copies_map_snd hall hc)
      obtain ⟨hsz2, hel2⟩ := hobs t2 T2 hT2 hv2
      exact ⟨t1, t2, by rw [h1, hr], h2, hsz1, hsz2, fun f hf => ⟨hel1 f hf, hel2 f hf⟩⟩
    · rw [hc x hx] at hxn
      cases hxn
  · intro src cs hsrc hval
    have hc2 : ∀ x ∈ cs.map Prod.snd, copy_ctor x = some x := by
      rw [hval]
      exact hc
    have hlen : cs.length = S.length := by
      have := congrArg List.length hval
      simpa using this
    obtain ⟨hd, hn, hch⟩ := hsrc.head_live
    obtain ⟨r, t1, h1, _, _, hout⟩ :=
      assign_it_spec copy_ctor hs hself hch hfo (by omega)
    obtain ⟨t2, T2, h2, hT2, hv2, _⟩ :=
      assign_cpp_list_spec copy_ctor hs hself hsrc hfo (by omega) hc2
    rcases hout with ⟨hr, T1, hT1, hall, _⟩ | ⟨_, ⟨x, hx, hxn⟩, _⟩
    · obtain ⟨hsz1, hel1⟩ := hobs t1 T1 hT1 ((copies_map_snd hall hc2).trans hval)
      obtain ⟨hsz2, hel2⟩ := hobs t2 T2 hT2 (hv2.trans hval)
      exact ⟨⟨hd.next_node⟩, t1, t2, by simp [begin, hn], by rw [← hr]; exact h1, h2, hsz1,
        hsz2, fun f hf => ⟨hel1 f hf, hel2 f hf⟩⟩
    · rw [hc2 x hx] at hxn
      cases hxn

/-- Witness of C23: the list `{3, 14, 15, 92, 6}` is assigned the sequence `{1, 2}`. -/
theorem assign_implementations_agree_witness :
    ex_numbers.WF ∧ IsList ex_numbers 0 [(2, 3), (3, 14), (4, 15), (5, 92), (6, 6)] ∧
      ∃ t1 t2, assign_il some 5 0 [1, 2] ex_numbers = (.ok (), t1) ∧
        assign_cpp_il some 5 0 [1, 2] ex_numbers = (.ok (), t2) ∧
        size 0 t1 = 2 ∧ size 0 t2 = 2 ∧
        elements 2 0 t1 = .ok [1, 2] ∧ elements 2 0 t2 = .ok [1, 2] := by
  obtain ⟨⟨t1, t2, h1, h2, h3, h4, h5⟩, _⟩ :=
    assign_implementations_agree (some : Int → Option Int) ex_numbers 0 _ 5 [1, 2]
      ex_numbers_WF ex_numbers_isList (by decide) (by decide) (fun _ _ => rfl)
  exact ⟨ex_numbers_WF, ex_numbers_isList, t1, t2, h1, h2, h3, h4, (h5 2 (by decide)).1,
    (h5 2 (by decide)).2⟩

/-- Claim C24: for every list, empty or not, advancing `before_begin()` (or
`cbefore_begin()`) once yields a position equal to `begin()`;
`before_begin()` equals `cbefore_begin()`; and for the empty list the advanced
position also equals `end()`. -/
theorem before_begin_advances_to_begin {α : Type} (s : Memory α) (l : Nat)
    (cs : List (Nat × α)) (hl : IsList s l cs) :
    ∃ b p q, begin l s = .ok b ∧
      (before_begin l).operator_inc s = .ok p ∧ p.operator_eq b = true ∧
      (cbefore_begin l).operator_inc s = .ok q ∧ q.operator_eq b = true ∧
      (before_begin l).operator_eq (cbefore_begin l) = true ∧
      (empty l s = true → p.operator_eq (end_ l) = true ∧ q.operator_eq (end_ l) = true) := by
  obtain ⟨hd, hn, hch⟩ := hl.head_live
  refine ⟨⟨hd.next_node⟩, ⟨hd.next_node⟩, ⟨hd.next_node⟩, by simp [begin, hn],
    by simp [before_begin, BasicIterator.operator_inc, hn],
    by simp [BasicIterator.operator_eq],
    by simp [cbefore_begin, BasicIterator.operator_inc, hn],
    by simp [BasicIterator.operator_eq],
    by simp [BasicIterator.operator_eq, before_begin, cbefore_begin], fun he => ?_⟩
  have hsz : s.size_ l = cs.length := hl.2.2
  have h0 : cs = [] := by
    have : s.size_ l = 0 := by simpa [empty] using he
    exact List.length_eq_zero.1 (by omega)
  subst h0
  have hnone : hd.next_node = none := hch
  simp [BasicIterator.operator_eq, end_, hnone]

/-- Witness of C24: the empty list and the list `{1, 2, 3}` of `ex_order`. -/
theorem before_begin_advances_to_begin_witness :
    IsList ex_order 16 [] ∧ IsList ex_order 0 [(2, 1), (3, 2), (4, 3)] ∧
      (∃ b p q, begin 16 ex_order = .ok b ∧
        (before_begin 16).operator_inc ex_order = .ok p ∧ p.operator_eq b = true ∧
        (cbefore_begin 16).operator_inc ex_order = .ok q ∧ q.operator_eq b = true ∧
        (before_begin 16).operator_eq (cbefore_begin 16) = true ∧
        (empty 16 ex_order = true →
          p.operator_eq (end_ 16) = true ∧ q.operator_eq (end_ 16) = true)) ∧
      empty 16 ex_order = true ∧ begin 0 ex_order = .ok ⟨some 2⟩ ∧
      (before_begin 0).operator_inc ex_order = .ok ⟨some 2⟩ :=
  ⟨ex_order_empty, ex_order_first, before_begin_advances_to_begin ex_order 16 [] ex_order_empty,
    rfl, rfl, rfl⟩

/-- Claim C25, evaluation at the failing inputs: with `a = {1, 2}` and `b = {1, 3}`,
`a == b` returns `true` in `custom_list.h` (equal sizes), yet `a < b` and
`b > a` return `true` and `a >= b` returns `false`; with `a = {1, 2, 3}` and
`b = {1, 2, 3, 1}`, `a == b` returns `true` (in `CustomForwardList.cpp` too),
yet `a < b` returns `true` and `a >= b` returns `false`. -/
theorem operator_eq_true_yet_less :
    operator_eq 2 0 4 ex_differ = .ok true ∧ operator_lt 2 0 4 ex_differ = .ok true ∧
      operator_gt 2 4 0 ex_differ = .ok true ∧ operator_ge 2 0 4 ex_differ = .ok false ∧
      operator_le 2 4 0 ex_differ = .ok false ∧
      operator_eq 4 0 5 ex_order = .ok true ∧ operator_eq_cpp 4 0 5 ex_order = .ok true ∧
      operator_lt 4 0 5 ex_order = .ok true ∧ operator_ge 4 0 5 ex_order = .ok false :=
  ⟨rfl, rfl, rfl, rfl, rfl, rfl, rfl, rfl, rfl⟩

/-- Claim C26: `insert(pos, v)` followed by `erase(pos)` is a round trip: for every
list, every valid position `pos` (`before_begin()` or a real node, reached from
`before_begin()` by `k` increments, `k` at most the size) and every value `v`
whose copy does not throw, both calls return, the list has exactly its original
size and element sequence afterwards, and `erase` returns the position that
followed `pos` before the insertion, which is `end()` when `pos` was the last
position. -/
theorem insert_erase_round_trip {α : Type} (copy_ctor : α → Option α) (s : Memory α) (l : Nat)
    (cs : List (Nat × α)) (k : Nat) (pos : BasicIterator) (v w : α)
    (hs : s.WF) (hl : IsList s l cs) (hk : k ≤ cs.length)
    (hpos : advance k (before_begin l) s = .ok pos) (hc : copy_ctor v = some w) :
    ∃ r t e u, insert copy_ctor l pos v s = (.ok r, t) ∧ erase l pos t = (.ok e, u) ∧
      size l u = size l s ∧
      (∀ f, cs.length ≤ f → elements f l u = .ok (cs.map Prod.snd) ∧
        elements f l s = .ok (cs.map Prod.snd)) ∧
      pos.operator_inc s = .ok e ∧ (k = cs.length → e = end_ l) := by
  have hadv := hl.advance_eq (Nat.le_succ_of_le hk)
  rw [hadv] at hpos
  have hklt : k < (l :: cs.map Prod.fst).length := by simp; omega
  obtain ⟨q, hq⟩ : ∃ q, (l :: cs.map Prod.fst)[k]? = some q :=
    ⟨_, List.getElem?_eq_getElem hklt⟩
  have hposq : pos = ⟨some q⟩ := by
    rw [hq] at hpos
    exact (Except.ok.inj hpos).symm
  subst hposq
  obtain ⟨t, ht, hlt, hwt, _, _⟩ := insert_spec hs hl k hq hc
  have hq2 : (l :: (cs.take k ++ (s.brk, w) :: cs.drop k).map Prod.fst)[k]? = some q := by
    rw [← hq]
    cases k with
    | zero => simp
    | succ j =>
      simp only [List.getElem?_cons_succ, List.getElem?_map]
      rw [getElem?_insert_at_lt _ cs (j + 1) j (by omega) hk]
  have hlen2 : k < (cs.take k ++ (s.brk, w) :: cs.drop k).length := by
    simp
    omega
  obtain ⟨u, hu, hlu, _, _, _, _, _⟩ := erase_spec hwt hlt k hq2 hlen2
  rw [eraseIdx_insert_at _ cs k hk] at hlu
  have hret : ((cs.take k ++ (s.brk, w) :: cs.drop k).map Prod.fst)[k + 1]?
      = (cs.map Prod.fst)[k]? := by
    simp only [List.getElem?_map]
    rw [getElem?_insert_at_succ _ cs k hk]
  rw [hret] at hu
  obtain ⟨hv, hch⟩ := hl.1
  obtain ⟨nq, hnq⟩ := hl.nodes_live q (List.getElem?_mem hq)
  have hnext : nq.next_node = (cs.map Prod.fst)[k]? := by
    have := Chain.next_eq k hch (by simpa using hq) hnq
    simpa using this
  refine ⟨_, t, _, u, ht, hu, by rw [hlu.size_eq, hl.size_eq],
    fun f hf => ⟨hlu.elements_eq hf, hl.elements_eq hf⟩, ?_, fun hkl => ?_⟩
  · simp [BasicIterator.operator_inc, hnq, hnext]
  · subst hkl
    simp [end_]

/-- Witness of C26: in `{3, 14, 15, 92, 6}`, inserting 7 after the last node (address 6)
and erasing at that node again. -/
theorem insert_erase_round_trip_witness :
    ex_numbers.WF ∧ IsList ex_numbers 0 [(2, 3), (3, 14), (4, 15), (5, 92), (6, 6)] ∧
      advance 5 (before_begin 0) ex_numbers = .ok ⟨some 6⟩ ∧
      ∃ r t e u, insert some 0 ⟨some 6⟩ (7 : Int) ex_numbers = (.ok r, t) ∧
        erase 0 ⟨some 6⟩ t = (.ok e, u) ∧ size 0 u = 5 ∧
        elements 5 0 u = .ok [3, 14, 15, 92, 6] ∧ e = end_ 0 := by
  obtain ⟨r, t, e, u, h1, h2, h3, h4, _, h6⟩ :=
    insert_erase_round_trip some ex_numbers 0 _ 5 ⟨some 6⟩ (7 : Int) 7 ex_numbers_WF
      ex_numbers_isList (by decide) rfl rfl
  exact ⟨ex_numbers_WF, ex_numbers_isList, rfl, r, t, e, u, h1, h2, h3, (h4 5 (by decide)).1,
    h6 rfl⟩

end SingleLinkedList
